import Mathlib

/-!
# Ghost tracking system: data model and operations

A shallow embedding of `defs.h`, `ghost.c`, `room.c` and `building.c`.

* Heap objects (`Ghost`, `GhostNode`, `Room`) live in typed stores inside `Mem`.
  A pointer is an address into the store of its type, `none` is `NULL`.
  A store cell is `some v` while the object is allocated and `none` once it has
  been released; `malloc` always returns the next unused address.
* Structs that the program keeps outside the heap and hands over by address
  (`GhostList`, `RoomArray`, `Building`) are passed by value and handed back;
  the callers always pass the address of an existing struct, so the
  `x == NULL` guards on those parameters have no counterpart here.
* Every operation that dereferences a pointer returns `Option`: `none` stands
  for undefined behaviour (a dangling or `NULL` dereference, a double release,
  an out-of-bounds slot) or for a loop that never ends.
* `malloc` is taken to succeed (the `exit(1)` branches are not modelled) and
  console output is left out.
-/

namespace GhostTracking

/-! ## Constants of `defs.h` -/

def MAX_STR : Nat := 32
def MAX_ROOMS : Nat := 16
def GHOST_INITIAL_ID : Int := 1031

/-- Largest value of a C `int` (32 bit). -/
def INT_MAX : Int := 2147483647

/-- Two's complement wrap-around of a 32-bit signed integer. -/
def wrap32 (x : Int) : Int := (x + 2147483648) % 4294967296 - 2147483648

/-! ## The C `float` -/

/-- A C `float`, given by its IEEE-754 binary32 bit pattern (`bits % 2^32`).
The program only stores and compares likelihoods, so no arithmetic is needed. -/
structure CFloat where
  bits : Nat
deriving DecidableEq, Repr

/-- NaN: exponent field all ones and a non-zero fraction. -/
def CFloat.isNaN (f : CFloat) : Bool :=
  (f.bits / 8388608 % 256 == 255) && (f.bits % 8388608 != 0)

/-- Order key of a non-NaN float: sign-magnitude read as an integer, so that
`-0.0` and `+0.0` share the key `0` and the infinities are the extremes. -/
def CFloat.key (f : CFloat) : Int :=
  if f.bits / 2147483648 % 2 = 1 then -((f.bits % 2147483648 : Nat) : Int)
  else ((f.bits % 2147483648 : Nat) : Int)

/-- The C comparison `a > b` on floats (false as soon as one side is NaN). -/
def CFloat.gt (a b : CFloat) : Bool :=
  !a.isNaN && !b.isNaN && decide (b.key < a.key)

/-- The C comparison `a >= b` on floats (false as soon as one side is NaN). -/
def CFloat.ge (a b : CFloat) : Bool :=
  !a.isNaN && !b.isNaN && decide (b.key ≤ a.key)

/-- The C comparison `a == b` on floats. -/
def CFloat.feq (a b : CFloat) : Bool :=
  !a.isNaN && !b.isNaN && decide (a.key = b.key)

/-- The float `0.0`. -/
def CFloat.zero : CFloat := ⟨0⟩

/-! ## Structs of `defs.h` -/

structure Ghost where
  id : Int
  type : String
  likelihood : CFloat
  room : Option Nat
deriving DecidableEq, Repr

structure GhostNode where
  data : Option Nat
  next : Option Nat
deriving DecidableEq, Repr

structure GhostList where
  head : Option Nat
  tail : Option Nat
deriving DecidableEq, Repr

structure Room where
  id : Int
  name : String
  ghosts : GhostList
deriving DecidableEq, Repr

/-- The array `elements` has `MAX_ROOMS` slots; it is a list here and the
bound is checked where a slot is accessed. -/
structure RoomArray where
  elements : List (Option Nat)
  size : Int
deriving DecidableEq, Repr

structure Building where
  rooms : RoomArray
  ghosts : GhostList
deriving DecidableEq, Repr

/-! ## Memory -/

/-- A call of `free`, recorded in the order the calls happen. -/
inductive Event where
  | free_ghost (a : Nat)
  | free_node (a : Nat)
  | free_room (a : Nat)
deriving DecidableEq, Repr

/-- The heap, the static counter `next_id` of `ghost_create`, and the record
of every `free` made so far. -/
structure Mem where
  ghosts : List (Option Ghost)
  nodes : List (Option GhostNode)
  rooms : List (Option Room)
  next_id : Int
  trace : List Event
deriving DecidableEq, Repr

/-- Read the object at address `a`; `none` if the address was never allocated
or has been released. -/
def load {α : Type} (s : List (Option α)) (a : Nat) : Option α :=
  match s[a]? with
  | some (some v) => some v
  | _ => none

/-- Overwrite the object at address `a`. -/
def store {α : Type} (s : List (Option α)) (a : Nat) (v : α) : List (Option α) :=
  s.set a (some v)

/-- Release the object at address `a`; releasing what is not allocated is
undefined. -/
def free {α : Type} (s : List (Option α)) (a : Nat) : Option (List (Option α)) :=
  match load s a with
  | some _ => some (s.set a none)
  | none => none

/-! ## `ghost.c` -/

/-- The function `ghost_create`: the new ghost is returned by address. Copying a label
that does not fit `type[MAX_STR]` with its terminator is undefined. -/
def ghost_create (type : String) (m : Mem) : Option (Nat × Mem) :=
  if type.utf8ByteSize < MAX_STR then
    some (m.ghosts.length,
      { m with
        ghosts := m.ghosts ++
          [some { id := m.next_id, type := type, likelihood := CFloat.zero, room := none }]
        next_id := wrap32 (m.next_id + 1) })
  else none

/-- The function `ghost_cleanup`, for an existing pointer variable holding `ghost`:
returns the new value of that variable. -/
def ghost_cleanup (ghost : Option Nat) (m : Mem) : Option (Option Nat × Mem) :=
  match ghost with
  | none => some (none, m)
  | some g =>
    match free m.ghosts g with
    | none => none
    | some gs => some (none, { m with ghosts := gs, trace := m.trace ++ [Event.free_ghost g] })

def ghostlist_init (_list : GhostList) : GhostList :=
  { head := none, tail := none }

def ghostlist_push (list : GhostList) (ghost : Option Nat) (m : Mem) :
    Option (GhostList × Mem) :=
  match ghost with
  | none => some (list, m)
  | some g =>
    let newNode := m.nodes.length
    let m1 := { m with nodes := m.nodes ++ [some { data := some g, next := none }] }
    match list.head with
    | none => some ({ head := some newNode, tail := some newNode }, m1)
    | some _ =>
      match list.tail with
      | none => none
      | some t =>
        match load m1.nodes t with
        | none => none
        | some tn =>
          some ({ head := list.head, tail := some newNode },
            { m1 with nodes := store m1.nodes t { tn with next := some newNode } })

/-- The `while` loop of `ghostlist_insert_by_likelihood`: starting at `curr`,
advance while the next node exists and its ghost's likelihood is `> x`.
The first argument bounds the number of steps. -/
def insert_scan : Nat → Mem → CFloat → Nat → Option Nat
  | fuel, m, x, curr =>
    match load m.nodes curr with
    | none => none
    | some cn =>
      match cn.next with
      | none => some curr
      | some n =>
        match load m.nodes n with
        | none => none
        | some nn =>
          match nn.data with
          | none => none
          | some d =>
            match load m.ghosts d with
            | none => none
            | some dg =>
              if dg.likelihood.gt x then
                match fuel with
                | 0 => none
                | k + 1 => insert_scan k m x n
              else some curr

def ghostlist_insert_by_likelihood (list : GhostList) (ghost : Option Nat) (m : Mem) :
    Option (GhostList × Mem) :=
  match ghost with
  | none => some (list, m)
  | some g =>
    let newNode := m.nodes.length
    let m1 := { m with nodes := m.nodes ++ [some { data := some g, next := none }] }
    match list.head with
    | none => some ({ head := some newNode, tail := some newNode }, m1)
    | some h =>
      match load m1.ghosts g, load m1.nodes h with
      | some gv, some hn =>
        match hn.data with
        | none => none
        | some hd =>
          match load m1.ghosts hd with
          | none => none
          | some hg =>
            if gv.likelihood.ge hg.likelihood then
              some ({ head := some newNode, tail := list.tail },
                { m1 with nodes := store m1.nodes newNode { data := some g, next := some h } })
            else
              match insert_scan m1.nodes.length m1 gv.likelihood h with
              | none => none
              | some curr =>
                match load m1.nodes curr with
                | none => none
                | some cn =>
                  let ns1 := store m1.nodes newNode { data := some g, next := cn.next }
                  let ns2 := store ns1 curr { cn with next := some newNode }
                  some ({ head := list.head,
                          tail := if cn.next = none then some newNode else list.tail },
                    { m1 with nodes := ns2 })
      | _, _ => none

/-- The `while` loop of `ghostlist_cleanup`, with `curr` the node to visit
next. The first argument bounds the number of nodes visited. -/
def ghostlist_cleanup_loop : Nat → Option Nat → Bool → Mem → Option Mem
  | _, none, _, m => some m
  | 0, some _, _, _ => none
  | k + 1, some temp, free_data, m =>
    match load m.nodes temp with
    | none => none
    | some tn =>
      let m1 : Option Mem :=
        if free_data then
          match ghost_cleanup tn.data m with
          | none => none
          | some (p, m2) => some { m2 with nodes := store m2.nodes temp { tn with data := p } }
        else some m
      match m1 with
      | none => none
      | some m2 =>
        match free m2.nodes temp with
        | none => none
        | some ns =>
          ghostlist_cleanup_loop k tn.next free_data
            { m2 with nodes := ns, trace := m2.trace ++ [Event.free_node temp] }

def ghostlist_cleanup (list : GhostList) (free_data : Bool) (m : Mem) :
    Option (GhostList × Mem) :=
  match ghostlist_cleanup_loop m.nodes.length list.head free_data m with
  | none => none
  | some m1 => some ({ head := none, tail := none }, m1)

/-! ## `room.c` -/

/-- The function `room_create`: the new room is returned by address. -/
def room_create (id : Int) (name : String) (m : Mem) : Option (Nat × Mem) :=
  if name.utf8ByteSize < MAX_STR then
    some (m.rooms.length,
      { m with
        rooms := m.rooms ++
          [some { id := id, name := name, ghosts := ghostlist_init ⟨none, none⟩ }] })
  else none

def room_add_ghost (room : Option Nat) (ghost : Option Nat) (likelihood : CFloat) (m : Mem) :
    Option Mem :=
  match room, ghost with
  | some r, some g =>
    match load m.ghosts g with
    | none => none
    | some gv =>
      let m1 := { m with
        ghosts := store m.ghosts g { gv with room := some r, likelihood := likelihood } }
      match load m1.rooms r with
      | none => none
      | some rv =>
        match ghostlist_insert_by_likelihood rv.ghosts (some g) m1 with
        | none => none
        | some (l, m2) => some { m2 with rooms := store m2.rooms r { rv with ghosts := l } }
  | _, _ => some m

/-- The function `room_cleanup`, for an existing pointer variable holding `room`:
returns the new value of that variable. -/
def room_cleanup (room : Option Nat) (m : Mem) : Option (Option Nat × Mem) :=
  match room with
  | none => some (none, m)
  | some r =>
    match load m.rooms r with
    | none => none
    | some rv =>
      match ghostlist_cleanup rv.ghosts false m with
      | none => none
      | some (l, m1) =>
        match free (store m1.rooms r { rv with ghosts := l }) r with
        | none => none
        | some rs => some (none, { m1 with rooms := rs, trace := m1.trace ++ [Event.free_room r] })

def roomarray_init (_array : RoomArray) : RoomArray :=
  { elements := List.replicate MAX_ROOMS none, size := 0 }

def roomarray_add (array : RoomArray) (room : Option Nat) : Option RoomArray :=
  match room with
  | none => some array
  | some r =>
    if array.size < MAX_ROOMS then
      if 0 ≤ array.size ∧ array.size.toNat < array.elements.length then
        some { elements := array.elements.set array.size.toNat (some r),
               size := array.size + 1 }
      else none
    else some array

/-- The `for` loop of `roomarray_cleanup`: `k` iterations are left and `i` is
the index of the next slot. -/
def roomarray_cleanup_loop : Nat → Nat → List (Option Nat) → Mem →
    Option (List (Option Nat) × Mem)
  | 0, _, els, m => some (els, m)
  | k + 1, i, els, m =>
    match els[i]? with
    | none => none
    | some slot =>
      match room_cleanup slot m with
      | none => none
      | some (p, m1) => roomarray_cleanup_loop k (i + 1) (els.set i p) m1

def roomarray_cleanup (array : RoomArray) (m : Mem) : Option (RoomArray × Mem) :=
  match roomarray_cleanup_loop array.size.toNat 0 array.elements m with
  | none => none
  | some (els, m1) => some ({ elements := els, size := 0 }, m1)

/-! ## `building.c` -/

def building_init (b : Building) : Building :=
  { rooms := roomarray_init b.rooms, ghosts := ghostlist_init b.ghosts }

def building_cleanup (b : Building) (m : Mem) : Option (Building × Mem) :=
  match roomarray_cleanup b.rooms m with
  | none => none
  | some (rooms, m1) =>
    match ghostlist_cleanup b.ghosts true m1 with
    | none => none
    | some (l, m2) => some ({ rooms := rooms, ghosts := l }, m2)

def util_ghost_create_and_add (b : Building) (type : String) (room : Option Nat)
    (likelihood : CFloat) (m : Mem) : Option (Building × Mem) :=
  match ghost_create type m with
  | none => none
  | some (ghost, m1) =>
    match ghostlist_push b.ghosts (some ghost) m1 with
    | none => none
    | some (l, m2) =>
      match room_add_ghost room (some ghost) likelihood m2 with
      | none => none
      | some m3 => some ({ b with ghosts := l }, m3)

/-! ## Observing a list

Iteration follows `ghostlist_print`: start at `head` and follow `next` until
`NULL`. -/

/-- The cells `(node address, ghost address)` met when iterating from `p`;
`none` if a node is not allocated, holds no ghost, or the bound on the number
of nodes is exceeded. -/
def iter : Nat → List (Option GhostNode) → Option Nat → Option (List (Nat × Nat))
  | _, _, none => some []
  | 0, _, some _ => none
  | k + 1, ns, some a =>
    match load ns a with
    | none => none
    | some nd =>
      match nd.data, iter k ns nd.next with
      | some g, some cs => some ((a, g) :: cs)
      | _, _ => none

/-- The cells of a list in iteration order. More nodes than the node store
has addresses cannot be met without meeting one twice. -/
def ghostlist_cells (m : Mem) (l : GhostList) : Option (List (Nat × Nat)) :=
  iter m.nodes.length m.nodes l.head

/-- The ghosts of a list in iteration order. -/
def ghostlist_ghosts (m : Mem) (l : GhostList) : Option (List Nat) :=
  (ghostlist_cells m l).map (List.map Prod.snd)

/-- The likelihood stored in the ghost at `g` (`0.0` if there is no ghost). -/
def lik (gs : List (Option Ghost)) (g : Nat) : CFloat :=
  match load gs g with
  | some gv => gv.likelihood
  | none => CFloat.zero

/-- The likelihoods read off the ghosts `gs`, all of which must be allocated. -/
def likelihoods (m : Mem) : List Nat → Option (List CFloat)
  | [] => some []
  | g :: gs =>
    match load m.ghosts g, likelihoods m gs with
    | some gv, some vs => some (gv.likelihood :: vs)
    | _, _ => none

/-- The likelihoods met when iterating a list. -/
def ghostlist_likelihoods (m : Mem) (l : GhostList) : Option (List CFloat) :=
  match ghostlist_ghosts m l with
  | some gs => likelihoods m gs
  | none => none

/-- The ghost list of the room at `r`. -/
def room_ghosts (m : Mem) (r : Nat) : Option (List Nat) :=
  match load m.rooms r with
  | some rv => ghostlist_ghosts m rv.ghosts
  | none => none

/-- The likelihoods met when iterating the ghost list of the room at `r`. -/
def room_likelihoods (m : Mem) (r : Nat) : Option (List CFloat) :=
  match load m.rooms r with
  | some rv => ghostlist_likelihoods m rv.ghosts
  | none => none

/-- Every value is `>=` the one after it (as a test). -/
def isDescending : List CFloat → Bool
  | a :: b :: t => a.ge b && isDescending (b :: t)
  | _ => true

/-- Every value is `>=` the one after it. -/
def Descending (vs : List CFloat) : Prop := isDescending vs = true

instance (vs : List CFloat) : Decidable (Descending vs) :=
  inferInstanceAs (Decidable (isDescending vs = true))

/-- No value is `>` the one before it (as a test). -/
def isNeverIncreasing : List CFloat → Bool
  | a :: b :: t => !(b.gt a) && isNeverIncreasing (b :: t)
  | _ => true

/-- No value is `>` the one before it. -/
def NeverIncreasing (vs : List CFloat) : Prop := isNeverIncreasing vs = true

instance (vs : List CFloat) : Decidable (NeverIncreasing vs) :=
  inferInstanceAs (Decidable (isNeverIncreasing vs = true))

/-- A run of `room_add_ghost` calls on the room `room`, one per entry. -/
def room_add_ghosts (room : Option Nat) : List (Option Nat × CFloat) → Mem → Option Mem
  | [], m => some m
  | (g, x) :: calls, m =>
    match room_add_ghost room g x m with
    | none => none
    | some m1 => room_add_ghosts room calls m1

/-! ## List segments (used in the proofs) -/

/-- The nodes of `cs`, in order, lead from `p` to `q` along `next`, and each
holds the ghost paired with it. -/
def Seg (ns : List (Option GhostNode)) : Option Nat → List (Nat × Nat) → Option Nat → Prop
  | p, [], q => p = q
  | p, c :: cs, q =>
    p = some c.1 ∧ ∃ nd, load ns c.1 = some nd ∧ nd.data = some c.2 ∧ Seg ns nd.next cs q

/-- The scan of `ghostlist_insert_by_likelihood` on cells: the cell the loop
stops at when it starts at `c` with `rest` after it. -/
def scanStop (v : Nat → CFloat) (x : CFloat) : Nat × Nat → List (Nat × Nat) → Nat × Nat
  | c, [] => c
  | c, n :: t => if (v n.2).gt x then scanStop v x n t else c

/-- Insertion after the head on cells, following the scan. -/
def insTail (v : Nat → CFloat) (x : CFloat) (c : Nat × Nat) : List (Nat × Nat) → List (Nat × Nat)
  | [] => [c]
  | n :: t => if (v n.2).gt x then n :: insTail v x c t else c :: n :: t

/-- What `ghostlist_insert_by_likelihood` does, on cells. -/
def ins (v : Nat → CFloat) (x : CFloat) (c : Nat × Nat) : List (Nat × Nat) → List (Nat × Nat)
  | [] => [c]
  | h :: t => if x.ge (v h.2) then c :: h :: t else h :: insTail v x c t

/-! ## Sample values and states -/

/-- The float `10.0`. -/
def f10 : CFloat := ⟨0x41200000⟩

/-- The float `50.0`. -/
def f50 : CFloat := ⟨0x42480000⟩

/-- The float `90.0`. -/
def f90 : CFloat := ⟨0x42B40000⟩

/-- A quiet NaN. -/
def fNaN : CFloat := ⟨0x7FC00000⟩

/-- Four ghosts `A`, `B`, `C`, `D` as `ghost_create` leaves them (addresses
`0` to `3`) and one room as `room_create` leaves it (address `0`). -/
def sample_mem : Mem :=
  { ghosts := [some ⟨1031, "A", CFloat.zero, none⟩, some ⟨1032, "B", CFloat.zero, none⟩,
               some ⟨1033, "C", CFloat.zero, none⟩, some ⟨1034, "D", CFloat.zero, none⟩]
    nodes := []
    rooms := [some ⟨1, "Bedroom", ⟨none, none⟩⟩]
    next_id := 1035
    trace := [] }

/-! ## Insertion on `(ghost, likelihood)` pairs (used in the proofs) -/

/-- The scan part of the insertion, on pairs. -/
def insPairTail (p : Nat × CFloat) : List (Nat × CFloat) → List (Nat × CFloat)
  | [] => [p]
  | n :: t => if n.2.gt p.2 then n :: insPairTail p t else p :: n :: t

/-- What `ghostlist_insert_by_likelihood` does, on pairs. -/
def insPair (p : Nat × CFloat) : List (Nat × CFloat) → List (Nat × CFloat)
  | [] => [p]
  | h :: t => if p.2.ge h.2 then p :: h :: t else h :: insPairTail p t

/-- The `(ghost, likelihood)` pairs of the calls that pass a ghost. -/
def attach_pairs (calls : List (Option Nat × CFloat)) : List (Nat × CFloat) :=
  calls.filterMap (fun c => c.1.map (fun g => (g, c.2)))

/-- The pairs of the cells `cs` as the memory has them. -/
def pairsOf (gs : List (Option Ghost)) (cs : List (Nat × Nat)) : List (Nat × CFloat) :=
  cs.map (fun c => (c.2, lik gs c.2))

/-- The wording of the specification for the place of a new entry, on the
ghosts of a list: insert `g` immediately before the first entry whose
likelihood is `<= x`, or at the end when there is none. -/
def insertBeforeFirstLe (v : Nat → CFloat) (x : CFloat) (g : Nat) : List Nat → List Nat
  | [] => [g]
  | d :: t => if x.ge (v d) then g :: d :: t else d :: insertBeforeFirstLe v x g t

/-- Two ghosts, the first with likelihood `v` and the second with likelihood
`x`, and one list node (address `0`) holding the first ghost: the one-entry
list is `⟨some 0, some 0⟩`. -/
def one_entry_mem (v x : CFloat) : Mem :=
  { ghosts := [some ⟨1031, "A", v, none⟩, some ⟨1032, "B", x, none⟩]
    nodes := [some ⟨some 0, none⟩]
    rooms := []
    next_id := 1033
    trace := [] }

/-- Four ghosts with likelihoods 90.0, 50.0, 50.0 and 10.0 and two list nodes
holding the first two: the list `⟨some 0, some 1⟩` reads 90.0, 50.0. -/
def two_entry_mem : Mem :=
  { ghosts := [some ⟨1031, "A", f90, none⟩, some ⟨1032, "B", f50, none⟩,
               some ⟨1033, "C", f50, none⟩, some ⟨1034, "D", f10, none⟩]
    nodes := [some ⟨some 0, some 1⟩, some ⟨some 1, none⟩]
    rooms := []
    next_id := 1035
    trace := [] }

/-! ## Runs of `RoomArray` operations -/

/-- A run of `roomarray_add` calls, one per entry. -/
def roomarray_adds : RoomArray → List (Option Nat) → Option RoomArray
  | a, [] => some a
  | a, room :: rooms =>
    match roomarray_add a room with
    | none => none
    | some a2 => roomarray_adds a2 rooms

/-- The states of a `RoomArray` reachable from `roomarray_init` by
`roomarray_add` and `roomarray_cleanup` calls; what happens to the heap between
the calls is left open (each cleanup may find any memory). -/
inductive RoomArrayReach : RoomArray → Prop where
  | init (a : RoomArray) : RoomArrayReach (roomarray_init a)
  | add (a a2 : RoomArray) (room : Option Nat) :
      RoomArrayReach a → roomarray_add a room = some a2 → RoomArrayReach a2
  | cleanup (a a2 : RoomArray) (m m2 : Mem) :
      RoomArrayReach a → roomarray_cleanup a m = some (a2, m2) → RoomArrayReach a2

/-- A full array: sixteen slots holding the room addresses `0` to `15`. -/
def full_array : RoomArray :=
  { elements := (List.range 16).map some, size := 16 }

/-! ## Well-formed rooms -/

/-- The ghost lists of the allocated rooms are laid out well: `cellsOf r` are
the cells of the list of room `r`, the ghosts they hold are allocated, and no
node belongs to the lists of two rooms. -/
structure Layout (m : Mem) (cellsOf : Nat → List (Nat × Nat)) : Prop where
  seg : ∀ r rv, load m.rooms r = some rv → Seg m.nodes rv.ghosts.head (cellsOf r) none
  live : ∀ r rv, load m.rooms r = some rv →
    ∀ c ∈ cellsOf r, ∃ gv, load m.ghosts c.2 = some gv
  disj : ∀ r1 r2 rv1 rv2, r1 ≠ r2 → load m.rooms r1 = some rv1 → load m.rooms r2 = some rv2 →
    ∀ a, a ∈ (cellsOf r1).map Prod.fst → a ∉ (cellsOf r2).map Prod.fst

/-- Every allocated room has a well-formed ghost list with allocated ghosts,
and the lists of different rooms share no node. -/
def RoomsWellFormed (m : Mem) : Prop := ∃ cellsOf, Layout m cellsOf

/-- Every allocated room has an empty ghost list, as `room_create` leaves it. -/
def rooms_fresh (m : Mem) : Bool :=
  m.rooms.all (fun c =>
    match c with
    | some rv => rv.ghosts.head.isNone
    | none => true)

/-- The memory at program start: nothing allocated and the static counter of
`ghost_create` at `GHOST_INITIAL_ID`. -/
def initial_mem : Mem :=
  { ghosts := [], nodes := [], rooms := [], next_id := GHOST_INITIAL_ID, trace := [] }

/-- A run of `ghost_create` calls, one per label; returns the addresses of the
new ghosts in creation order. -/
def ghost_creates : List String → Mem → Option (List Nat × Mem)
  | [], m => some ([], m)
  | t :: ts, m =>
    match ghost_create t m with
    | none => none
    | some (g, m1) =>
      match ghost_creates ts m1 with
      | none => none
      | some (gs, m2) => some (g :: gs, m2)

/-- A run of `room_add_ghost` calls over any rooms: one call
`room_add_ghost(room, ghost, likelihood)` per entry. -/
def room_add_ghost_calls : List (Option Nat × Option Nat × CFloat) → Mem → Option Mem
  | [], m => some m
  | (room, ghost, x) :: calls, m =>
    match room_add_ghost room ghost x m with
    | none => none
    | some m1 => room_add_ghost_calls calls m1

/-- Two ghosts and two rooms, as `ghost_create` and `room_create` leave them. -/
def two_room_mem : Mem :=
  { ghosts := [some ⟨1031, "A", CFloat.zero, none⟩, some ⟨1032, "B", CFloat.zero, none⟩]
    nodes := []
    rooms := [some ⟨1, "Bedroom", ⟨none, none⟩⟩, some ⟨2, "Bathroom", ⟨none, none⟩⟩]
    next_id := 1033
    trace := [] }

/-- The float `5.0`. -/
def f5 : CFloat := ⟨0x40A00000⟩

/-- The float nearest to 88.78 (the literal `88.78f`). -/
def f88_78 : CFloat := ⟨0x42B18F5C⟩

/-- The order the specification gives a room's list, on `(ghost, likelihood)`
pairs: `p` may stand before `q` when `p` has the greater likelihood, or the
two have equal likelihood and `q` was attached before `p` (`q` comes before
`p` in the attach sequence `ps`). -/
def LaterFirst (ps : List (Nat × CFloat)) (p q : Nat × CFloat) : Prop :=
  p.2.gt q.2 = true ∨ (p.2.feq q.2 = true ∧ List.Sublist [q, p] ps)

/-- The round-trip scenario: initialise a building, create `Room(1, "Bedroom")`
and add it, create `Ghost("Wraith")`, push it onto the master list and attach
it to the room with likelihood `88.78f`. Returns the building, the room, the
ghost and the memory. -/
def round_trip_scenario (b : Building) (m : Mem) : Option (Building × Nat × Nat × Mem) :=
  let b0 := building_init b
  match room_create 1 "Bedroom" m with
  | none => none
  | some (room, m1) =>
    match roomarray_add b0.rooms (some room) with
    | none => none
    | some rooms =>
      match ghost_create "Wraith" m1 with
      | none => none
      | some (ghost, m2) =>
        match ghostlist_push b0.ghosts (some ghost) m2 with
        | none => none
        | some (l, m3) =>
          match room_add_ghost (some room) (some ghost) f88_78 m3 with
          | none => none
          | some m4 => some ({ rooms := rooms, ghosts := l }, room, ghost, m4)

/-! ## Releasing (used in the proofs and statements about teardown) -/

/-- The store after every address of `as` has been released. -/
def release_all {α : Type} (s : List (Option α)) (as : List Nat) : List (Option α) :=
  as.foldl (fun s a => s.set a none) s

/-- The releases `ghostlist_cleanup` makes on the cells `cs` when `free_data`
is false: one node after the other. -/
def node_events (cs : List (Nat × Nat)) : List Event :=
  cs.map (fun c => Event.free_node c.1)

/-- The releases `ghostlist_cleanup` makes on the cells `cs` when `free_data`
is true: for each cell the ghost, then the node. -/
def ghost_node_events : List (Nat × Nat) → List Event
  | [] => []
  | c :: cs => Event.free_ghost c.2 :: Event.free_node c.1 :: ghost_node_events cs

/-- The rooms held by the `k` slots from index `i` on, in slot order. -/
def slot_rooms (els : List (Option Nat)) (i k : Nat) : List Nat :=
  ((els.drop i).take k).filterMap id

/-- The nodes of the ghost lists of the rooms `rs`, room by room. -/
def rooms_nodes (cellsOf : Nat → List (Nat × Nat)) : List Nat → List Nat
  | [] => []
  | r :: rs => (cellsOf r).map Prod.fst ++ rooms_nodes cellsOf rs

/-- The releases `roomarray_cleanup` makes on the rooms `rs`: for each room the
nodes of its list, then the room. -/
def rooms_events (cellsOf : Nat → List (Nat × Nat)) : List Nat → List Event
  | [] => []
  | r :: rs => node_events (cellsOf r) ++ Event.free_room r :: rooms_events cellsOf rs

/-- The rooms that a run of `roomarray_add` calls stores in an array with
`free` empty slots left: the non-null rooms passed, up to `free` of them. -/
def stored_rooms (calls : List (Option Nat)) (free : Nat) : List Nat :=
  (calls.filterMap id).take free

/-! ## Well-formed buildings -/

/-- The building `b` is laid out well in the memory `m`: the rooms are
(`Layout`), the master list is a well-formed list with cells `mcs` whose `tail`
is its last node and which shares no node with a room's list, and the occupied
slots of the room array hold allocated, pairwise distinct rooms. -/
structure BuildingLayout (b : Building) (m : Mem) (cellsOf : Nat → List (Nat × Nat))
    (mcs : List (Nat × Nat)) : Prop where
  rooms : Layout m cellsOf
  master : Seg m.nodes b.ghosts.head mcs none
  tail : b.ghosts.tail = (mcs.map Prod.fst).getLast?
  apart : ∀ r rv, load m.rooms r = some rv →
    ∀ a ∈ mcs.map Prod.fst, a ∉ (cellsOf r).map Prod.fst
  len : b.rooms.elements.length = MAX_ROOMS
  size_lo : 0 ≤ b.rooms.size
  size_hi : b.rooms.size ≤ (MAX_ROOMS : Int)
  slots_live : ∀ r ∈ slot_rooms b.rooms.elements 0 b.rooms.size.toNat,
    (load m.rooms r).isSome = true
  slots_distinct : (slot_rooms b.rooms.elements 0 b.rooms.size.toNat).Nodup

/-- A well-formed building state. -/
def BuildingWellFormed (b : Building) (m : Mem) : Prop :=
  ∃ cellsOf mcs, BuildingLayout b m cellsOf mcs

/-- The calls that build up a building. -/
inductive BuildOp where
  | add_room (room : Option Nat)
  | create_and_add (type : String) (room : Option Nat) (likelihood : CFloat)

/-- One call on the building: `roomarray_add(&building->rooms, room)` or
`util_ghost_create_and_add(building, type, room, likelihood)`. -/
def build_step (op : BuildOp) (b : Building) (m : Mem) : Option (Building × Mem) :=
  match op with
  | BuildOp.add_room room =>
    match roomarray_add b.rooms room with
    | none => none
    | some rooms => some ({ b with rooms := rooms }, m)
  | BuildOp.create_and_add type room x => util_ghost_create_and_add b type room x m

/-- A run of calls on the building. -/
def build : List BuildOp → Building → Mem → Option (Building × Mem)
  | [], b, m => some (b, m)
  | op :: ops, b, m =>
    match build_step op b m with
    | none => none
    | some (b1, m1) => build ops b1 m1

/-- The rooms passed to `roomarray_add` in a run (the non-null ones). -/
def added_rooms : List BuildOp → List Nat
  | [] => []
  | BuildOp.add_room (some r) :: ops => r :: added_rooms ops
  | _ :: ops => added_rooms ops

/-- The number of `util_ghost_create_and_add` calls in a run. -/
def created_count : List BuildOp → Nat
  | [] => 0
  | BuildOp.create_and_add _ _ _ :: ops => created_count ops + 1
  | _ :: ops => created_count ops

/-- The arguments of a call are valid in `m`: the label fits and the room is
`NULL` or allocated. -/
def op_valid (m : Mem) : BuildOp → Bool
  | BuildOp.add_room none => true
  | BuildOp.add_room (some r) => (load m.rooms r).isSome
  | BuildOp.create_and_add type none _ => decide (type.utf8ByteSize < MAX_STR)
  | BuildOp.create_and_add type (some r) _ =>
    decide (type.utf8ByteSize < MAX_STR) && (load m.rooms r).isSome

/-- The labels passed to `util_ghost_create_and_add` in a run, in call order. -/
def created_types : List BuildOp → List String
  | [] => []
  | BuildOp.create_and_add type _ _ :: ops => type :: created_types ops
  | _ :: ops => created_types ops

/-- A run of `util_ghost_create_and_add` calls on the building, one per
`(type, room, likelihood)`. -/
def util_ghost_create_and_add_calls :
    List (String × Option Nat × CFloat) → Building → Mem → Option (Building × Mem)
  | [], b, m => some (b, m)
  | (type, room, x) :: calls, b, m =>
    match util_ghost_create_and_add b type room x m with
    | none => none
    | some (b1, m1) => util_ghost_create_and_add_calls calls b1 m1

/-- The calls that build a small building: two rooms are added, then four
ghosts are created, three of them attached to a room. -/
def sample_ops : List BuildOp :=
  [BuildOp.add_room (some 0), BuildOp.add_room (some 1),
   BuildOp.create_and_add "Poltergeist" (some 0) f50,
   BuildOp.create_and_add "Banshee" (some 1) f90,
   BuildOp.create_and_add "Wraith" (some 0) f90,
   BuildOp.create_and_add "Phantom" none f10]

/-- The building that `sample_ops` builds from `building_init` in `two_room_mem`. -/
def sample_building : Building :=
  { rooms := { elements := some 0 :: some 1 :: List.replicate 14 none, size := 2 }
    ghosts := { head := some 0, tail := some 6 } }

/-- The memory that `sample_ops` leaves when run from `building_init` in
`two_room_mem`. -/
def sample_building_mem : Mem :=
  { ghosts := [some ⟨1031, "A", CFloat.zero, none⟩, some ⟨1032, "B", CFloat.zero, none⟩,
               some ⟨1033, "Poltergeist", f50, some 0⟩, some ⟨1034, "Banshee", f90, some 1⟩,
               some ⟨1035, "Wraith", f90, some 0⟩, some ⟨1036, "Phantom", CFloat.zero, none⟩]
    nodes := [some ⟨some 2, some 2⟩, some ⟨some 2, none⟩, some ⟨some 3, some 4⟩,
              some ⟨some 3, none⟩, some ⟨some 4, some 6⟩, some ⟨some 4, some 1⟩,
              some ⟨some 5, none⟩]
    rooms := [some ⟨1, "Bedroom", ⟨some 5, some 1⟩⟩, some ⟨2, "Bathroom", ⟨some 3, some 3⟩⟩]
    next_id := 1037
    trace := [] }

/-! ## Runs of list operations -/

/-- A call on a ghost list: `ghostlist_push(list, ghost)` or
`ghostlist_insert_by_likelihood(list, ghost)`. -/
inductive ListCall where
  | push (ghost : Option Nat)
  | insert_by_likelihood (ghost : Option Nat)
deriving DecidableEq, Repr

/-- The ghost pointer passed in a call. -/
def ListCall.ghost : ListCall → Option Nat
  | ListCall.push ghost => ghost
  | ListCall.insert_by_likelihood ghost => ghost

/-- One call on the list. -/
def ghostlist_call (c : ListCall) (l : GhostList) (m : Mem) : Option (GhostList × Mem) :=
  match c with
  | ListCall.push ghost => ghostlist_push l ghost m
  | ListCall.insert_by_likelihood ghost => ghostlist_insert_by_likelihood l ghost m

/-- A run of calls on one list, in order. -/
def ghostlist_calls : List ListCall → GhostList → Mem → Option (GhostList × Mem)
  | [], l, m => some (l, m)
  | c :: calls, l, m =>
    match ghostlist_call c l m with
    | none => none
    | some (l1, m1) => ghostlist_calls calls l1 m1

/-! ## Runs of building operations -/

/-- A call on a building: `roomarray_add(&building->rooms, room)`,
`ghostlist_push(&building->ghosts, ghost)` or
`room_add_ghost(room, ghost, likelihood)`. -/
inductive BuildingCall where
  | add (room : Option Nat)
  | push (ghost : Option Nat)
  | attach (room ghost : Option Nat) (likelihood : CFloat)

/-- One call on the building. -/
def building_call (c : BuildingCall) (b : Building) (m : Mem) : Option (Building × Mem) :=
  match c with
  | BuildingCall.add room =>
    match roomarray_add b.rooms room with
    | none => none
    | some rooms => some ({ b with rooms := rooms }, m)
  | BuildingCall.push ghost =>
    match ghostlist_push b.ghosts ghost m with
    | none => none
    | some (l, m1) => some ({ b with ghosts := l }, m1)
  | BuildingCall.attach room ghost x =>
    match room_add_ghost room ghost x m with
    | none => none
    | some m1 => some (b, m1)

/-- A run of calls on the building, in order. -/
def building_calls : List BuildingCall → Building → Mem → Option (Building × Mem)
  | [], b, m => some (b, m)
  | c :: calls, b, m =>
    match building_call c b m with
    | none => none
    | some (b1, m1) => building_calls calls b1 m1

/-- The rooms passed to `roomarray_add` in a run (the non-null ones). -/
def added_to_array : List BuildingCall → List Nat
  | [] => []
  | BuildingCall.add (some r) :: calls => r :: added_to_array calls
  | _ :: calls => added_to_array calls

/-- The ghosts passed to `ghostlist_push` in a run (the non-null ones). -/
def pushed_ghosts : List BuildingCall → List Nat
  | [] => []
  | BuildingCall.push (some g) :: calls => g :: pushed_ghosts calls
  | _ :: calls => pushed_ghosts calls

/-- The arguments of a call are valid in `m`: every pointer is `NULL` or
designates an allocated object. -/
def call_valid (m : Mem) : BuildingCall → Bool
  | BuildingCall.add none => true
  | BuildingCall.add (some r) => (load m.rooms r).isSome
  | BuildingCall.push none => true
  | BuildingCall.push (some g) => (load m.ghosts g).isSome
  | BuildingCall.attach (some r) (some g) _ => (load m.rooms r).isSome && (load m.ghosts g).isSome
  | BuildingCall.attach _ _ _ => true

/-! ## Store lemmas -/

theorem load_append_left {α : Type} (s t : List (Option α)) (a : Nat) (h : a < s.length) :
    load (s ++ t) a = load s a := by
  simp [load, List.getElem?_append_left h]

theorem load_append_length {α : Type} (s : List (Option α)) (v : α) :
    load (s ++ [some v]) s.length = some v := by
  simp [load]

theorem load_lt {α : Type} {s : List (Option α)} {a : Nat} {v : α} (h : load s a = some v) :
    a < s.length := by
  by_contra hn
  have : s[a]? = none := List.getElem?_eq_none (by omega)
  simp [load, this] at h

theorem load_ge {α : Type} (s : List (Option α)) (a : Nat) (h : s.length ≤ a) :
    load s a = none := by
  have : s[a]? = none := List.getElem?_eq_none h
  simp [load, this]

theorem load_store_same {α : Type} (s : List (Option α)) (a : Nat) (v : α) (h : a < s.length) :
    load (store s a v) a = some v := by
  simp [load, store, List.getElem?_set, h]

theorem load_store_other {α : Type} (s : List (Option α)) (a b : Nat) (v : α) (h : a ≠ b) :
    load (store s a v) b = load s b := by
  simp [load, store, List.getElem?_set, h]

theorem length_store {α : Type} (s : List (Option α)) (a : Nat) (v : α) :
    (store s a v).length = s.length := by
  simp [store]

theorem load_append_of_some {α : Type} {s : List (Option α)} (t : List (Option α)) {a : Nat}
    {v : α} (h : load s a = some v) : load (s ++ t) a = some v := by
  rw [load_append_left s t a (load_lt h)]; exact h

/-! ## Float comparison lemmas -/

theorem CFloat.ge_of_gt {a b : CFloat} (h : a.gt b = true) : a.ge b = true := by
  simp only [CFloat.gt, CFloat.ge, Bool.and_eq_true, decide_eq_true_eq] at *
  exact ⟨h.1, le_of_lt h.2⟩

theorem CFloat.gt_false_of_ge {a b : CFloat} (h : a.ge b = true) : b.gt a = false := by
  simp only [CFloat.gt, CFloat.ge, Bool.and_eq_true, decide_eq_true_eq] at *
  rw [Bool.eq_false_iff]
  simp only [ne_eq, Bool.and_eq_true, decide_eq_true_eq, not_and, not_lt]
  intro _; exact h.2

theorem CFloat.ge_trans {a b c : CFloat} (h1 : a.ge b = true) (h2 : b.ge c = true) :
    a.ge c = true := by
  simp only [CFloat.ge, Bool.and_eq_true, decide_eq_true_eq] at *
  exact ⟨⟨h1.1.1, h2.1.2⟩, le_trans h2.2 h1.2⟩

theorem CFloat.ge_of_gt_false {a b : CFloat} (ha : a.isNaN = false) (hb : b.isNaN = false)
    (h : b.gt a = false) : a.ge b = true := by
  simp only [CFloat.gt, CFloat.ge, ha, hb, Bool.not_false, Bool.true_and,
    decide_eq_false_iff_not, not_lt, decide_eq_true_eq] at *
  exact h

theorem CFloat.gt_of_ge_false {a b : CFloat} (ha : a.isNaN = false) (hb : b.isNaN = false)
    (h : a.ge b = false) : b.gt a = true := by
  simp only [CFloat.gt, CFloat.ge, ha, hb, Bool.not_false, Bool.true_and,
    decide_eq_false_iff_not, not_le, decide_eq_true_eq] at *
  exact h

theorem CFloat.gt_false_of_ge_false {a b : CFloat} (h : a.ge b = false) : a.gt b = false := by
  cases hg : a.gt b
  · rfl
  · rw [CFloat.ge_of_gt hg] at h; cases h

theorem CFloat.notNaN_of_ge {a b : CFloat} (h : a.ge b = true) :
    a.isNaN = false ∧ b.isNaN = false := by
  simp only [CFloat.ge, Bool.and_eq_true, decide_eq_true_eq, Bool.not_eq_true'] at h
  exact h.1

theorem CFloat.notNaN_of_gt {a b : CFloat} (h : a.gt b = true) :
    a.isNaN = false ∧ b.isNaN = false :=
  CFloat.notNaN_of_ge (CFloat.ge_of_gt h)

/-! ## Segment lemmas -/

theorem seg_congr {ns ns2 : List (Option GhostNode)} :
    ∀ (cs : List (Nat × Nat)) (p q : Option Nat),
      (∀ c ∈ cs, load ns2 c.1 = load ns c.1) → Seg ns p cs q → Seg ns2 p cs q
  | [], _, _, _, h => h
  | c :: cs, p, q, hf, h => by
    obtain ⟨hp, nd, hl, hd, hs⟩ := h
    refine ⟨hp, nd, ?_, hd, ?_⟩
    · rw [hf c (List.mem_cons_self _ _)]; exact hl
    · exact seg_congr cs _ _ (fun c2 hc => hf c2 (List.mem_cons_of_mem _ hc)) hs

theorem seg_append {ns : List (Option GhostNode)} :
    ∀ (cs ds : List (Nat × Nat)) (p q : Option Nat),
      Seg ns p (cs ++ ds) q ↔ ∃ r, Seg ns p cs r ∧ Seg ns r ds q
  | [], ds, p, q => by
    constructor
    · intro h; exact ⟨p, rfl, h⟩
    · rintro ⟨r, h1, h2⟩; cases h1; exact h2
  | c :: cs, ds, p, q => by
    constructor
    · rintro ⟨hp, nd, hl, hd, hs⟩
      obtain ⟨r, h1, h2⟩ := (seg_append cs ds _ _).1 hs
      exact ⟨r, ⟨hp, nd, hl, hd, h1⟩, h2⟩
    · rintro ⟨r, ⟨hp, nd, hl, hd, h1⟩, h2⟩
      exact ⟨hp, nd, hl, hd, (seg_append cs ds _ _).2 ⟨r, h1, h2⟩⟩

theorem seg_unique {ns : List (Option GhostNode)} :
    ∀ (cs ds : List (Nat × Nat)) (p : Option Nat),
      Seg ns p cs none → Seg ns p ds none → cs = ds
  | [], [], _, _, _ => rfl
  | [], d :: ds, p, h1, h2 => by
    cases h1; obtain ⟨hp, _⟩ := h2; cases hp
  | c :: cs, [], p, h1, h2 => by
    cases h2; obtain ⟨hp, _⟩ := h1; cases hp
  | c :: cs, d :: ds, p, h1, h2 => by
    obtain ⟨hp, nd, hl, hd, hs⟩ := h1
    obtain ⟨hp2, nd2, hl2, hd2, hs2⟩ := h2
    have e1 : c.1 = d.1 := by rw [hp] at hp2; exact Option.some.inj hp2
    rw [← e1, hl] at hl2
    cases hl2
    have e2 : c.2 = d.2 := by rw [hd] at hd2; exact Option.some.inj hd2
    have e : c = d := Prod.ext e1 e2
    rw [e, seg_unique cs ds _ hs hs2]

theorem seg_live {ns : List (Option GhostNode)} :
    ∀ (cs : List (Nat × Nat)) (p q : Option Nat),
      Seg ns p cs q → ∀ c ∈ cs, ∃ nd, load ns c.1 = some nd ∧ nd.data = some c.2
  | [], _, _, _, c, hc => by cases hc
  | c :: cs, p, q, h, c2, hc => by
    obtain ⟨_, nd, hl, hd, hs⟩ := h
    rcases List.mem_cons.1 hc with rfl | hc
    · exact ⟨nd, hl, hd⟩
    · exact seg_live cs _ _ hs c2 hc

theorem seg_lt {ns : List (Option GhostNode)} {cs : List (Nat × Nat)} {p q : Option Nat}
    (h : Seg ns p cs q) : ∀ a ∈ cs.map Prod.fst, a < ns.length := by
  intro a ha
  obtain ⟨c, hc, rfl⟩ := List.mem_map.1 ha
  obtain ⟨nd, hl, _⟩ := seg_live cs p q h c hc
  exact load_lt hl

theorem seg_nodup {ns : List (Option GhostNode)} :
    ∀ (cs : List (Nat × Nat)) (p : Option Nat),
      Seg ns p cs none → (cs.map Prod.fst).Nodup
  | [], _, _ => List.nodup_nil
  | c :: cs, p, h => by
    have hh := h
    obtain ⟨hp, nd, hl, hd, hs⟩ := h
    rw [List.map_cons, List.nodup_cons]
    refine ⟨?_, seg_nodup cs _ hs⟩
    intro hmem
    obtain ⟨c2, hc2, he⟩ := List.mem_map.1 hmem
    obtain ⟨l1, l2, rfl⟩ := List.append_of_mem hc2
    obtain ⟨r, _, h2⟩ := (seg_append l1 (c2 :: l2) _ _).1 hs
    have h3 : Seg ns (some c.1) (c2 :: l2) none := by
      obtain ⟨hr, rest⟩ := h2
      exact ⟨by rw [he], rest⟩
    have h4 : Seg ns (some c.1) (c :: (l1 ++ c2 :: l2)) none := ⟨rfl, nd, hl, hd, hs⟩
    have := congrArg List.length (seg_unique _ _ _ h3 h4)
    simp at this
    omega

theorem nodup_length_le : ∀ (n : Nat) (xs : List Nat), xs.Nodup → (∀ x ∈ xs, x < n) →
    xs.length ≤ n := by
  intro n xs hn hb
  have h1 : xs ⊆ List.range n := fun x hx => List.mem_range.2 (hb x hx)
  have := (List.Nodup.subperm hn h1).length_le
  simpa using this

theorem seg_length_le {ns : List (Option GhostNode)} {cs : List (Nat × Nat)} {p : Option Nat}
    (h : Seg ns p cs none) : cs.length ≤ ns.length := by
  have := nodup_length_le ns.length (cs.map Prod.fst) (seg_nodup cs p h) (seg_lt h)
  simpa using this

theorem iter_of_seg {ns : List (Option GhostNode)} :
    ∀ (cs : List (Nat × Nat)) (p : Option Nat) (fuel : Nat),
      Seg ns p cs none → cs.length ≤ fuel → iter fuel ns p = some cs
  | [], p, fuel, h, _ => by
    cases h; cases fuel <;> rfl
  | c :: cs, p, 0, _, hf => by simp at hf
  | c :: cs, p, fuel + 1, h, hf => by
    obtain ⟨hp, nd, hl, hd, hs⟩ := h
    have := iter_of_seg cs nd.next fuel hs (by simpa using hf)
    subst hp
    simp [iter, hl, hd, this]

theorem seg_of_iter {ns : List (Option GhostNode)} :
    ∀ (fuel : Nat) (p : Option Nat) (cs : List (Nat × Nat)),
      iter fuel ns p = some cs → Seg ns p cs none
  | 0, none, cs, h => by
    simp [iter] at h; subst h; rfl
  | 0, some a, cs, h => by simp [iter] at h
  | fuel + 1, none, cs, h => by
    simp [iter] at h; subst h; rfl
  | fuel + 1, some a, cs, h => by
    simp only [iter] at h
    split at h
    · cases h
    · rename_i nd hl
      split at h
      · rename_i g cs2 hd hi
        cases h
        exact ⟨rfl, nd, hl, hd, seg_of_iter fuel _ _ hi⟩
      · cases h

theorem cells_iff_seg (m : Mem) (l : GhostList) (cs : List (Nat × Nat)) :
    ghostlist_cells m l = some cs ↔ Seg m.nodes l.head cs none :=
  ⟨seg_of_iter _ _ _, fun h => iter_of_seg cs _ _ h (seg_length_le h)⟩

/-! ## The insertion scan and the pointer surgery -/

theorem lik_of_load {gs : List (Option Ghost)} {g : Nat} {gv : Ghost}
    (h : load gs g = some gv) : lik gs g = gv.likelihood := by
  simp [lik, h]

theorem scanStop_mem (v : Nat → CFloat) (x : CFloat) :
    ∀ (rest : List (Nat × Nat)) (c : Nat × Nat), scanStop v x c rest ∈ c :: rest
  | [], c => by simp [scanStop]
  | n :: t, c => by
    simp only [scanStop]
    split
    · exact List.mem_cons_of_mem _ (scanStop_mem v x t n)
    · exact List.mem_cons_self _ _

theorem insert_scan_spec (m : Mem) (x : CFloat) :
    ∀ (rest : List (Nat × Nat)) (c : Nat × Nat) (fuel : Nat),
      Seg m.nodes (some c.1) (c :: rest) none →
      (∀ d ∈ rest, ∃ gv, load m.ghosts d.2 = some gv) →
      rest.length ≤ fuel →
      insert_scan fuel m x c.1 = some (scanStop (lik m.ghosts) x c rest).1
  | [], c, fuel, h, _, _ => by
    obtain ⟨_, nd, hl, _, hs⟩ := h
    have hn : nd.next = none := hs
    rw [insert_scan]
    simp [hl, hn, scanStop]
  | n :: t, c, fuel, h, hg, hf => by
    obtain ⟨_, nd, hl, _, hs⟩ := h
    have hs2 := hs
    obtain ⟨hn, nn, hl2, hd2, _⟩ := hs
    obtain ⟨gv, hgv⟩ := hg n (List.mem_cons_self _ _)
    rw [insert_scan]
    simp only [hl, hn, hl2, hd2, hgv, scanStop, lik_of_load hgv]
    cases hgt : gv.likelihood.gt x
    · simp
    · cases fuel with
      | zero => simp at hf
      | succ k =>
        simp only [if_true]
        rw [hn] at hs2
        exact insert_scan_spec m x t n k hs2
          (fun d hd => hg d (List.mem_cons_of_mem _ hd)) (by simpa using hf)

theorem scanStop_next_none (ns : List (Option GhostNode)) (v : Nat → CFloat) (x : CFloat)
    (nw : Nat × Nat) :
    ∀ (rest : List (Nat × Nat)) (c : Nat × Nat),
      Seg ns (some c.1) (c :: rest) none → nw.1 ∉ (c :: rest).map Prod.fst →
      ∀ kn, load ns (scanStop v x c rest).1 = some kn →
        (kn.next = none ↔ (c :: insTail v x nw rest).getLast? = some nw)
  | [], c, h, _, kn, hk => by
    obtain ⟨_, nd, hl, _, hs⟩ := h
    have hn : nd.next = none := hs
    simp only [scanStop] at hk
    have e : kn = nd := by rw [hl] at hk; exact (Option.some.inj hk).symm
    subst e
    simp [insTail, hn]
  | n :: t, c, h, hnw, kn, hk => by
    obtain ⟨_, nd, hl, _, hs⟩ := h
    have hs2 := hs
    obtain ⟨hn, _⟩ := hs
    rw [hn] at hs2
    cases hgt : (v n.2).gt x
    · simp only [scanStop, insTail, hgt, Bool.false_eq_true, if_false] at hk ⊢
      have e : kn = nd := by rw [hl] at hk; exact (Option.some.inj hk).symm
      subst e
      simp only [hn, List.getLast?_cons_cons]
      constructor
      · intro h; cases h
      · intro h
        exfalso
        have hmem : nw ∈ n :: t := List.mem_of_getLast?_eq_some h
        apply hnw
        simp only [List.map_cons, List.mem_cons, List.mem_map]
        right
        rcases List.mem_cons.1 hmem with e | e
        · left; rw [e]
        · right; exact ⟨nw, e, rfl⟩
    · simp only [scanStop, insTail, hgt, if_true] at hk ⊢
      have hnw2 : nw.1 ∉ (n :: t).map Prod.fst := by
        intro hm; exact hnw (by simp at hm ⊢; right; exact hm)
      have := scanStop_next_none ns v x nw t n hs2 hnw2 kn hk
      rw [this]
      simp [List.getLast?_cons_cons]

theorem surgery (ns : List (Option GhostNode)) (v : Nat → CFloat) (x : CFloat)
    (nw : Nat × Nat) (hnw : nw.1 < ns.length) :
    ∀ (rest : List (Nat × Nat)) (c : Nat × Nat),
      Seg ns (some c.1) (c :: rest) none → nw.1 ∉ (c :: rest).map Prod.fst →
      ∀ kn, load ns (scanStop v x c rest).1 = some kn →
        Seg (store (store ns nw.1 { data := some nw.2, next := kn.next })
              (scanStop v x c rest).1 { kn with next := some nw.1 })
          (some c.1) (c :: insTail v x nw rest) none
  | [], c, h, hn, kn, hk => by
    obtain ⟨_, nd, hl, hd, hs⟩ := h
    simp only [scanStop] at hk ⊢
    have e : kn = nd := by rw [hl] at hk; exact (Option.some.inj hk).symm
    subst e
    have hne : nw.1 ≠ c.1 := by
      intro e; apply hn; simp [e]
    have hc : c.1 < ns.length := load_lt hl
    refine ⟨rfl, { kn with next := some nw.1 }, ?_, hd, ?_⟩
    · exact load_store_same _ _ _ (by rw [length_store]; exact hc)
    · refine ⟨rfl, { data := some nw.2, next := kn.next }, ?_, rfl, ?_⟩
      · rw [load_store_other _ _ _ _ (Ne.symm hne)]
        exact load_store_same _ _ _ hnw
      · exact hs
  | n :: t, c, h, hn, kn, hk => by
    have hnd := seg_nodup _ _ h
    obtain ⟨_, nd, hl, hd, hs⟩ := h
    have hs2 := hs
    obtain ⟨hnx, _⟩ := hs
    rw [hnx] at hs2
    have hne : nw.1 ≠ c.1 := by
      intro e; apply hn; simp [e]
    have hc : c.1 < ns.length := load_lt hl
    have hnw2 : nw.1 ∉ (n :: t).map Prod.fst := by
      intro hm; exact hn (by simp at hm ⊢; right; exact hm)
    cases hgt : (v n.2).gt x
    · simp only [scanStop, insTail, hgt, Bool.false_eq_true, if_false] at hk ⊢
      have e : kn = nd := by rw [hl] at hk; exact (Option.some.inj hk).symm
      subst e
      refine ⟨rfl, { kn with next := some nw.1 }, ?_, hd, ?_⟩
      · exact load_store_same _ _ _ (by rw [length_store]; exact hc)
      · refine ⟨rfl, { data := some nw.2, next := kn.next }, ?_, rfl, ?_⟩
        · rw [load_store_other _ _ _ _ (Ne.symm hne)]
          exact load_store_same _ _ _ hnw
        · show Seg _ kn.next (n :: t) none
          rw [hnx]
          refine seg_congr (n :: t) _ _ ?_ hs2
          intro d hd
          have hd1 : d.1 ∈ (n :: t).map Prod.fst := List.mem_map.2 ⟨d, hd, rfl⟩
          have e1 : c.1 ≠ d.1 := by
            intro e
            simp only [List.map_cons, List.nodup_cons] at hnd
            apply hnd.1
            rw [e]; simpa using hd1
          have e2 : nw.1 ≠ d.1 := by
            intro e; apply hnw2; rw [e]; exact hd1
          rw [load_store_other _ _ _ _ e1, load_store_other _ _ _ _ e2]
    · simp only [scanStop, insTail, hgt, if_true] at hk ⊢
      have ih := surgery ns v x nw hnw t n hs2 hnw2 kn hk
      have hkm := scanStop_mem v x t n
      have hck : (scanStop v x n t).1 ≠ c.1 := by
        intro e
        simp only [List.map_cons, List.nodup_cons] at hnd
        apply hnd.1
        rw [← e]
        exact List.mem_map.2 ⟨_, hkm, rfl⟩
      refine ⟨rfl, nd, ?_, hd, ?_⟩
      · rw [load_store_other _ _ _ _ hck, load_store_other _ _ _ _ hne]; exact hl
      · rw [hnx]; exact ih

theorem load_append_ne {α : Type} (s : List (Option α)) (v : Option α) (a : Nat)
    (h : a ≠ s.length) : load (s ++ [v]) a = load s a := by
  rcases Nat.lt_or_gt_of_ne h with h1 | h1
  · exact load_append_left s [v] a h1
  · rw [load_ge s a (by omega), load_ge (s ++ [v]) a (by simp; omega)]

theorem mem_fst_of_mem {c : Nat × Nat} {cs : List (Nat × Nat)} (h : c ∈ cs) :
    c.1 ∈ cs.map Prod.fst :=
  List.mem_map.2 ⟨c, h, rfl⟩

/-- What `ghostlist_insert_by_likelihood` does to a well-formed list. -/
theorem insert_spec (m : Mem) (l : GhostList) (g : Nat) (gv : Ghost) (cs : List (Nat × Nat))
    (hs : Seg m.nodes l.head cs none)
    (hlive : ∀ d ∈ cs, ∃ dv, load m.ghosts d.2 = some dv)
    (hg : load m.ghosts g = some gv) :
    ∃ l2 ns2,
      ghostlist_insert_by_likelihood l (some g) m = some (l2, { m with nodes := ns2 }) ∧
      Seg ns2 l2.head (ins (lik m.ghosts) gv.likelihood (m.nodes.length, g) cs) none ∧
      ns2.length = m.nodes.length + 1 ∧
      (∀ a, a ∉ cs.map Prod.fst → a ≠ m.nodes.length → load ns2 a = load m.nodes a) ∧
      l2.tail = (if (ins (lik m.ghosts) gv.likelihood (m.nodes.length, g) cs).getLast? =
          some (m.nodes.length, g) then some m.nodes.length else l.tail) := by
  have hfresh : m.nodes.length ∉ cs.map Prod.fst := fun hm =>
    Nat.lt_irrefl _ (seg_lt hs _ hm)
  cases cs with
  | nil =>
    have hh : l.head = none := hs
    refine ⟨{ head := some m.nodes.length, tail := some m.nodes.length },
      m.nodes ++ [some (GhostNode.mk (some g) none)], ?_, ?_, ?_, ?_, ?_⟩
    · simp [ghostlist_insert_by_likelihood, hh]
    · exact ⟨rfl, _, load_append_length _ _, rfl, rfl⟩
    · simp
    · intro a _ ha; exact load_append_ne _ _ _ ha
    · simp [ins]
  | cons c rest =>
    have hs0 := hs
    obtain ⟨hh, nd, hl, hd, hs1⟩ := hs
    obtain ⟨cv, hcv⟩ := hlive c (List.mem_cons_self _ _)
    have hne : m.nodes.length ≠ c.1 := fun e => hfresh (by simp [e])
    -- the list is still in place once the new node is allocated
    have hseg1 : Seg (m.nodes ++ [some (GhostNode.mk (some g) none)]) (some c.1)
        (c :: rest) none := by
      rw [hh] at hs0
      refine seg_congr _ _ _ ?_ hs0
      intro d hd
      exact load_append_ne _ _ _ (fun e => hfresh (by rw [← e]; exact mem_fst_of_mem hd))
    have hl1 : load (m.nodes ++ [some (GhostNode.mk (some g) none)]) c.1 = some nd :=
      load_append_of_some _ hl
    cases hge : gv.likelihood.ge cv.likelihood
    · -- scan
      let m1 : Mem := { m with nodes := m.nodes ++ [some (GhostNode.mk (some g) none)] }
      have hlen : rest.length ≤ m1.nodes.length := by
        have := seg_length_le hs0
        simp only [List.length_cons] at this
        show rest.length ≤ (m.nodes ++ [some (GhostNode.mk (some g) none)]).length
        simp; omega
      have hscan := insert_scan_spec m1 gv.likelihood rest c m1.nodes.length hseg1
        (fun d hd => hlive d (List.mem_cons_of_mem _ hd)) hlen
      have hkm := scanStop_mem (lik m.ghosts) gv.likelihood rest c
      obtain ⟨kn, hkn, _⟩ := seg_live _ _ _ hseg1 _ hkm
      have hfresh1 : (m.nodes.length, g).1 ∉ (c :: rest).map Prod.fst := hfresh
      have hsur := surgery m1.nodes (lik m.ghosts) gv.likelihood (m.nodes.length, g)
        (by show m.nodes.length <
              (m.nodes ++ [some (GhostNode.mk (some g) none)]).length
            simp) rest c hseg1 hfresh1 kn hkn
      have htl := scanStop_next_none m1.nodes (lik m.ghosts) gv.likelihood (m.nodes.length, g)
        rest c hseg1 hfresh1 kn hkn
      refine ⟨{ head := l.head,
                tail := if kn.next = none then some m.nodes.length else l.tail },
        store (store m1.nodes m.nodes.length ({ data := some g, next := kn.next } : GhostNode))
          (scanStop (lik m.ghosts) gv.likelihood c rest).1
          ({ kn with next := some m.nodes.length } : GhostNode),
        ?_, ?_, ?_, ?_, ?_⟩
      · simp only [ghostlist_insert_by_likelihood, hh, hg, hl1, hd, hcv, hge]
        simp only [Bool.false_eq_true, if_false]
        have hscan2 : insert_scan (m.nodes ++ [some (GhostNode.mk (some g) none)]).length
            m1 gv.likelihood c.1 = some (scanStop (lik m.ghosts) gv.likelihood c rest).1 := hscan
        simp only [hscan2]
        have hkn2 : load (m.nodes ++ [some (GhostNode.mk (some g) none)])
            (scanStop (lik m.ghosts) gv.likelihood c rest).1 = some kn := hkn
        simp only [hkn2]
      · simp only [ins, lik_of_load hcv, hge, Bool.false_eq_true, if_false]
        rw [hh]; exact hsur
      · simp [length_store, m1]
      · intro a ha1 ha2
        have hak : (scanStop (lik m.ghosts) gv.likelihood c rest).1 ≠ a := by
          intro e; apply ha1; rw [← e]; exact mem_fst_of_mem hkm
        rw [load_store_other _ _ _ _ hak, load_store_other _ _ _ _ (Ne.symm ha2)]
        exact load_append_ne _ _ _ ha2
      · simp only [ins, lik_of_load hcv, hge, Bool.false_eq_true, if_false]
        by_cases hkk : kn.next = none
        · simp only [hkk, if_true]
          rw [if_pos (htl.1 hkk)]
        · simp only [hkk, if_false]
          rw [if_neg (fun e => hkk (htl.2 e))]
    · -- new head
      refine ⟨{ head := some m.nodes.length, tail := l.tail },
        store (m.nodes ++ [some (GhostNode.mk (some g) none)]) m.nodes.length
          { data := some g, next := some c.1 }, ?_, ?_, ?_, ?_, ?_⟩
      · simp only [ghostlist_insert_by_likelihood, hh, hg, hl1, hd, hcv, hge, if_true]
      · simp only [ins, lik_of_load hcv, hge, if_true]
        refine ⟨rfl, _, load_store_same _ _ _ (by simp), rfl, ?_⟩
        refine seg_congr _ _ _ ?_ hseg1
        intro d hd
        exact load_store_other _ _ _ _
          (fun e => hfresh (by rw [e]; exact mem_fst_of_mem hd))
      · simp [length_store]
      · intro a _ ha2
        rw [load_store_other _ _ _ _ (Ne.symm ha2)]
        exact load_append_ne _ _ _ ha2
      · simp only [ins, lik_of_load hcv, hge, if_true, List.getLast?_cons_cons]
        rw [if_neg]
        intro e
        exact hfresh (mem_fst_of_mem (List.mem_of_getLast?_eq_some e))

/-! ## Order of the cells after an insertion -/

theorem insTail_chain (v : Nat → CFloat) (x : CFloat) (nw : Nat × Nat) (hx : v nw.2 = x) :
    ∀ (t : List (Nat × Nat)) (c : Nat × Nat),
      x.gt (v c.2) = false →
      List.Chain (fun a b : Nat × Nat => (v b.2).gt (v a.2) = false) c t →
      List.Chain (fun a b : Nat × Nat => (v b.2).gt (v a.2) = false) c (insTail v x nw t)
  | [], c, hc, _ => by
    simp only [insTail]
    exact List.Chain.cons (by rw [hx]; exact hc) List.Chain.nil
  | n :: t, c, hc, h => by
    obtain ⟨h1, h2⟩ := List.chain_cons.1 h
    cases hgt : (v n.2).gt x
    · simp only [insTail, hgt, Bool.false_eq_true, if_false]
      exact List.Chain.cons (by rw [hx]; exact hc)
        (List.Chain.cons (by rw [hx]; exact hgt) h2)
    · simp only [insTail, hgt, if_true]
      exact List.Chain.cons h1
        (insTail_chain v x nw hx t n (CFloat.gt_false_of_ge (CFloat.ge_of_gt hgt)) h2)

theorem ins_chain (v : Nat → CFloat) (x : CFloat) (nw : Nat × Nat) (hx : v nw.2 = x)
    (cs : List (Nat × Nat))
    (h : List.Chain' (fun a b : Nat × Nat => (v b.2).gt (v a.2) = false) cs) :
    List.Chain' (fun a b : Nat × Nat => (v b.2).gt (v a.2) = false) (ins v x nw cs) := by
  cases cs with
  | nil => simp [ins]
  | cons c t =>
    cases hge : x.ge (v c.2)
    · simp only [ins, hge, Bool.false_eq_true, if_false]
      exact insTail_chain v x nw hx t c (CFloat.gt_false_of_ge_false hge) h
    · simp only [ins, hge, if_true]
      exact List.Chain.cons (by rw [hx]; exact CFloat.gt_false_of_ge hge) h

theorem insTail_length (v : Nat → CFloat) (x : CFloat) (nw : Nat × Nat) :
    ∀ t : List (Nat × Nat), (insTail v x nw t).length = t.length + 1
  | [] => rfl
  | n :: t => by
    simp only [insTail]
    split
    · simp [insTail_length v x nw t]
    · simp

theorem ins_length (v : Nat → CFloat) (x : CFloat) (nw : Nat × Nat) (cs : List (Nat × Nat)) :
    (ins v x nw cs).length = cs.length + 1 := by
  cases cs with
  | nil => rfl
  | cons c t =>
    simp only [ins]
    split
    · simp
    · simp [insTail_length]

theorem insTail_mem (v : Nat → CFloat) (x : CFloat) (nw : Nat × Nat) :
    ∀ (t : List (Nat × Nat)) (d : Nat × Nat), d ∈ insTail v x nw t ↔ d = nw ∨ d ∈ t
  | [], d => by simp [insTail]
  | n :: t, d => by
    simp only [insTail]
    split
    · simp only [List.mem_cons, insTail_mem v x nw t d]; tauto
    · simp only [List.mem_cons]

theorem ins_mem (v : Nat → CFloat) (x : CFloat) (nw : Nat × Nat) (cs : List (Nat × Nat))
    (d : Nat × Nat) : d ∈ ins v x nw cs ↔ d = nw ∨ d ∈ cs := by
  cases cs with
  | nil => simp [ins]
  | cons c t =>
    simp only [ins]
    split
    · simp only [List.mem_cons]
    · simp only [List.mem_cons, insTail_mem]; tauto

theorem insTail_congr (v w : Nat → CFloat) (x : CFloat) (nw : Nat × Nat) :
    ∀ t : List (Nat × Nat), (∀ d ∈ t, v d.2 = w d.2) → insTail v x nw t = insTail w x nw t
  | [], _ => rfl
  | n :: t, h => by
    simp only [insTail, h n (List.mem_cons_self _ _),
      insTail_congr v w x nw t (fun d hd => h d (List.mem_cons_of_mem _ hd))]

theorem ins_congr (v w : Nat → CFloat) (x : CFloat) (nw : Nat × Nat) (cs : List (Nat × Nat))
    (h : ∀ d ∈ cs, v d.2 = w d.2) : ins v x nw cs = ins w x nw cs := by
  cases cs with
  | nil => rfl
  | cons c t =>
    simp only [ins, h c (List.mem_cons_self _ _),
      insTail_congr v w x nw t (fun d hd => h d (List.mem_cons_of_mem _ hd))]

theorem neverIncreasing_iff_chain :
    ∀ vs : List CFloat, NeverIncreasing vs ↔ List.Chain' (fun a b => b.gt a = false) vs
  | [] => by simp [NeverIncreasing, isNeverIncreasing]
  | [_] => by simp [NeverIncreasing, isNeverIncreasing]
  | a :: b :: t => by
    have ih := neverIncreasing_iff_chain (b :: t)
    simp only [NeverIncreasing] at ih
    simp only [NeverIncreasing, isNeverIncreasing, Bool.and_eq_true, Bool.not_eq_true',
      List.chain'_cons, ih]

theorem descending_iff_chain :
    ∀ vs : List CFloat, Descending vs ↔ List.Chain' (fun a b => a.ge b = true) vs
  | [] => by simp [Descending, isDescending]
  | [_] => by simp [Descending, isDescending]
  | a :: b :: t => by
    have ih := descending_iff_chain (b :: t)
    simp only [Descending] at ih
    simp only [Descending, isDescending, Bool.and_eq_true, List.chain'_cons, ih]

/-- Values that never increase and are not NaN are pairwise in descending order. -/
theorem pairwise_of_neverIncreasing :
    ∀ vs : List CFloat, NeverIncreasing vs → (∀ v ∈ vs, v.isNaN = false) →
      List.Pairwise (fun a b => a.ge b = true) vs
  | [], _, _ => List.Pairwise.nil
  | [v], _, _ => List.pairwise_singleton _ _
  | v :: w :: ws, h, hn => by
    have h2 : List.Chain' (fun a b : CFloat => b.gt a = false) (v :: w :: ws) :=
      (neverIncreasing_iff_chain _).1 h
    obtain ⟨h1, h3⟩ := List.chain'_cons.1 h2
    have ih := pairwise_of_neverIncreasing (w :: ws) ((neverIncreasing_iff_chain _).2 h3)
      (fun u hu => hn u (List.mem_cons_of_mem _ hu))
    have hvw : v.ge w = true :=
      CFloat.ge_of_gt_false (hn v (List.mem_cons_self _ _))
        (hn w (List.mem_cons_of_mem _ (List.mem_cons_self _ _))) h1
    refine List.Pairwise.cons ?_ ih
    intro b hb
    rcases List.mem_cons.1 hb with rfl | hb
    · exact hvw
    · exact CFloat.ge_trans hvw ((List.pairwise_cons.1 ih).1 b hb)

theorem descending_of_pairwise {vs : List CFloat}
    (h : List.Pairwise (fun a b => a.ge b = true) vs) : Descending vs :=
  (descending_iff_chain vs).2 (List.Pairwise.chain' h)

theorem neverIncreasing_of_descending {vs : List CFloat} (h : Descending vs) :
    NeverIncreasing vs :=
  (neverIncreasing_iff_chain vs).2
    (List.Chain'.imp (fun _ _ hab => CFloat.gt_false_of_ge hab) ((descending_iff_chain vs).1 h))

theorem pairwise_of_descending {vs : List CFloat} (h : Descending vs) :
    List.Pairwise (fun a b => a.ge b = true) vs := by
  haveI : IsTrans CFloat (fun a b => a.ge b = true) := ⟨fun _ _ _ => CFloat.ge_trans⟩
  exact List.chain'_iff_pairwise.1 ((descending_iff_chain vs).1 h)

/-! ## Reading likelihoods -/

theorem likelihoods_of_live (m : Mem) :
    ∀ gs : List Nat, (∀ g ∈ gs, ∃ gv, load m.ghosts g = some gv) →
      likelihoods m gs = some (gs.map (lik m.ghosts))
  | [], _ => rfl
  | g :: gs, h => by
    obtain ⟨gv, hgv⟩ := h g (List.mem_cons_self _ _)
    have ih := likelihoods_of_live m gs (fun d hd => h d (List.mem_cons_of_mem _ hd))
    simp [likelihoods, hgv, ih, lik_of_load hgv]

theorem live_of_likelihoods (m : Mem) :
    ∀ (gs : List Nat) (vs : List CFloat), likelihoods m gs = some vs →
      (∀ g ∈ gs, ∃ gv, load m.ghosts g = some gv) ∧ vs = gs.map (lik m.ghosts)
  | [], vs, h => by
    simp [likelihoods] at h; subst h; simp
  | g :: gs, vs, h => by
    simp only [likelihoods] at h
    split at h
    · rename_i gv ws hgv hws
      cases h
      obtain ⟨h1, h2⟩ := live_of_likelihoods m gs ws hws
      refine ⟨?_, by simp [lik_of_load hgv, h2]⟩
      intro d hd
      rcases List.mem_cons.1 hd with rfl | hd
      · exact ⟨gv, hgv⟩
      · exact h1 d hd
    · cases h

theorem ghosts_of_seg {m : Mem} {l : GhostList} {cs : List (Nat × Nat)}
    (hs : Seg m.nodes l.head cs none) : ghostlist_ghosts m l = some (cs.map Prod.snd) := by
  simp [ghostlist_ghosts, (cells_iff_seg m l cs).2 hs]

theorem ghostlist_likelihoods_of_seg {m : Mem} {l : GhostList} {cs : List (Nat × Nat)}
    (hs : Seg m.nodes l.head cs none) (hlive : ∀ d ∈ cs, ∃ dv, load m.ghosts d.2 = some dv) :
    ghostlist_likelihoods m l = some (cs.map (fun c => lik m.ghosts c.2)) := by
  have hl := likelihoods_of_live m (cs.map Prod.snd) (by
    intro g hg
    obtain ⟨d, hd, rfl⟩ := List.mem_map.1 hg
    exact hlive d hd)
  simp only [ghostlist_likelihoods, ghosts_of_seg hs, hl, List.map_map]
  rfl

/-! ## `room_add_ghost` on a well-formed room -/

theorem load_store_live {α : Type} {s : List (Option α)} {a b : Nat} {v w : α}
    (ha : load s a = some v) (hb : ∃ u, load s b = some u) :
    ∃ u, load (store s a w) b = some u := by
  by_cases e : a = b
  · subst e; exact ⟨w, load_store_same _ _ _ (load_lt ha)⟩
  · rw [load_store_other _ _ _ _ e]; exact hb

theorem lik_store_same {gs : List (Option Ghost)} {g : Nat} {gv : Ghost} (w : Ghost)
    (h : load gs g = some gv) : lik (store gs g w) g = w.likelihood := by
  simp [lik, load_store_same _ _ _ (load_lt h)]

theorem lik_store_other {gs : List (Option Ghost)} {g d : Nat} (w : Ghost) (h : g ≠ d) :
    lik (store gs g w) d = lik gs d := by
  simp [lik, load_store_other _ _ _ _ h]

/-- What `room_add_ghost` does when the room and the ghost are allocated and
the room's list is well formed. -/
theorem room_add_ghost_spec (m : Mem) (r g : Nat) (x : CFloat) (rv : Room) (gv : Ghost)
    (cs : List (Nat × Nat))
    (hr : load m.rooms r = some rv) (hg : load m.ghosts g = some gv)
    (hs : Seg m.nodes rv.ghosts.head cs none)
    (hlive : ∀ d ∈ cs, ∃ dv, load m.ghosts d.2 = some dv) :
    ∃ l2 ns2,
      room_add_ghost (some r) (some g) x m =
        some { m with
          ghosts := store m.ghosts g { gv with room := some r, likelihood := x }
          nodes := ns2
          rooms := store m.rooms r { rv with ghosts := l2 } } ∧
      Seg ns2 l2.head
        (ins (lik (store m.ghosts g { gv with room := some r, likelihood := x })) x
          (m.nodes.length, g) cs) none ∧
      ns2.length = m.nodes.length + 1 ∧
      (∀ a, a ∉ cs.map Prod.fst → a ≠ m.nodes.length → load ns2 a = load m.nodes a) ∧
      l2.tail = (if (ins (lik (store m.ghosts g { gv with room := some r, likelihood := x })) x
          (m.nodes.length, g) cs).getLast? = some (m.nodes.length, g)
        then some m.nodes.length else rv.ghosts.tail) := by
  let m1 : Mem :=
    { m with ghosts := store m.ghosts g { gv with room := some r, likelihood := x } }
  have hg1 : load m1.ghosts g = some { gv with room := some r, likelihood := x } :=
    load_store_same _ _ _ (load_lt hg)
  have hlive1 : ∀ d ∈ cs, ∃ dv, load m1.ghosts d.2 = some dv :=
    fun d hd => load_store_live hg (hlive d hd)
  obtain ⟨l2, ns2, h1, h2, h3, h4, h5⟩ :=
    insert_spec m1 rv.ghosts g _ cs hs hlive1 hg1
  refine ⟨l2, ns2, ?_, h2, h3, h4, h5⟩
  have hr1 : load m1.rooms r = some rv := hr
  simp only [room_add_ghost, hg]
  simp only [hr1, h1]

/-! ## A run of `room_add_ghost` calls on one room -/

theorem insTail_pairs (v : Nat → CFloat) (x : CFloat) (nw : Nat × Nat) (hx : v nw.2 = x) :
    ∀ t : List (Nat × Nat),
      (insTail v x nw t).map (fun c => (c.2, v c.2)) =
        insPairTail (nw.2, x) (t.map (fun c => (c.2, v c.2)))
  | [] => by simp [insTail, insPairTail, hx]
  | n :: t => by
    cases hgt : (v n.2).gt x
    · simp [insTail, insPairTail, hgt, hx]
    · simp [insTail, insPairTail, hgt, insTail_pairs v x nw hx t]

theorem ins_pairs (v : Nat → CFloat) (x : CFloat) (nw : Nat × Nat) (hx : v nw.2 = x)
    (cs : List (Nat × Nat)) :
    (ins v x nw cs).map (fun c => (c.2, v c.2)) =
      insPair (nw.2, x) (cs.map (fun c => (c.2, v c.2))) := by
  cases cs with
  | nil => simp [ins, insPair, hx]
  | cons c t =>
    cases hge : x.ge (v c.2)
    · simp [ins, insPair, hge, insTail_pairs v x nw hx t]
    · simp [ins, insPair, hge, hx]

theorem room_add_ghosts_sorted (r : Nat) :
    ∀ (calls : List (Option Nat × CFloat)) (m : Mem) (rv : Room) (cs : List (Nat × Nat)),
      load m.rooms r = some rv →
      Seg m.nodes rv.ghosts.head cs none →
      (∀ d ∈ cs, ∃ dv, load m.ghosts d.2 = some dv) →
      (∀ g ∈ calls.filterMap Prod.fst, ∃ gv, load m.ghosts g = some gv) →
      (calls.filterMap Prod.fst).Nodup →
      (∀ g ∈ calls.filterMap Prod.fst, g ∉ cs.map Prod.snd) →
      NeverIncreasing (cs.map (fun c => lik m.ghosts c.2)) →
      ∃ m2 rv2 cs2, room_add_ghosts (some r) calls m = some m2 ∧
        load m2.rooms r = some rv2 ∧ Seg m2.nodes rv2.ghosts.head cs2 none ∧
        (∀ d ∈ cs2, ∃ dv, load m2.ghosts d.2 = some dv) ∧
        NeverIncreasing (cs2.map (fun c => lik m2.ghosts c.2)) ∧
        cs2.length = cs.length + (calls.filterMap Prod.fst).length ∧
        ((∀ d ∈ cs, (lik m.ghosts d.2).isNaN = false) → (∀ c ∈ calls, c.2.isNaN = false) →
          ∀ d ∈ cs2, (lik m2.ghosts d.2).isNaN = false) ∧
        pairsOf m2.ghosts cs2 =
          (attach_pairs calls).foldl (fun acc p => insPair p acc) (pairsOf m.ghosts cs)
  | [], m, rv, cs, hr, hs, hlive, _, _, _, hch =>
    ⟨m, rv, cs, rfl, hr, hs, hlive, hch, by simp, fun h _ => h, by simp [attach_pairs]⟩
  | (none, x) :: calls, m, rv, cs, hr, hs, hlive, hcl, hnd, hni, hch => by
    obtain ⟨m2, rv2, cs2, h1, h2⟩ :=
      room_add_ghosts_sorted r calls m rv cs hr hs hlive
        (by simpa using hcl) (by simpa using hnd) (by simpa using hni) hch
    refine ⟨m2, rv2, cs2, ?_, ?_⟩
    · simp only [room_add_ghosts, room_add_ghost]; exact h1
    · obtain ⟨a, b, c, d, e, f, f2⟩ := h2
      refine ⟨a, b, c, d, by simpa using e, ?_, ?_⟩
      · intro h3 h4
        exact f h3 (fun c hc => h4 c (List.mem_cons_of_mem _ hc))
      · rw [f2]; simp [attach_pairs]
  | (some g, x) :: calls, m, rv, cs, hr, hs, hlive, hcl, hnd, hni, hch => by
    have hfm : ((some g, x) :: calls).filterMap Prod.fst = g :: calls.filterMap Prod.fst := by
      simp [List.filterMap_cons]
    rw [hfm] at hcl hnd hni
    obtain ⟨gv, hg⟩ := hcl g (List.mem_cons_self _ _)
    obtain ⟨l2, ns2, h1, h2, _, _, _⟩ := room_add_ghost_spec m r g x rv gv cs hr hg hs hlive
    have hgcs : g ∉ cs.map Prod.snd := hni g (List.mem_cons_self _ _)
    have hsame : ∀ d ∈ cs,
        lik (store m.ghosts g { gv with room := some r, likelihood := x }) d.2 =
          lik m.ghosts d.2 := by
      intro d hd
      exact lik_store_other _ (fun e => hgcs (by rw [e]; exact List.mem_map.2 ⟨d, hd, rfl⟩))
    have hnew : lik (store m.ghosts g { gv with room := some r, likelihood := x }) g = x :=
      lik_store_same _ hg
    obtain ⟨hnd1, hnd2⟩ := List.nodup_cons.1 hnd
    have hlen := ins_length
      (lik (store m.ghosts g { gv with room := some r, likelihood := x })) x (m.nodes.length, g) cs
    have a1 : load (store m.rooms r { rv with ghosts := l2 }) r =
        some { rv with ghosts := l2 } := load_store_same _ _ _ (load_lt hr)
    have a2 : ∀ d ∈ ins (lik (store m.ghosts g { gv with room := some r, likelihood := x })) x
        (m.nodes.length, g) cs,
        ∃ dv, load (store m.ghosts g { gv with room := some r, likelihood := x }) d.2 =
          some dv := by
      intro d hd
      rcases (ins_mem _ _ _ _ _).1 hd with rfl | hd
      · exact ⟨_, load_store_same _ _ _ (load_lt hg)⟩
      · exact load_store_live hg (hlive d hd)
    have a3 : ∀ d ∈ calls.filterMap Prod.fst,
        ∃ dv, load (store m.ghosts g { gv with room := some r, likelihood := x }) d =
          some dv :=
      fun d hd => load_store_live hg (hcl d (List.mem_cons_of_mem _ hd))
    have a4 : ∀ d ∈ calls.filterMap Prod.fst,
        d ∉ (ins (lik (store m.ghosts g { gv with room := some r, likelihood := x })) x
          (m.nodes.length, g) cs).map Prod.snd := by
      intro d hd hmem
      obtain ⟨c, hc, rfl⟩ := List.mem_map.1 hmem
      rcases (ins_mem _ _ _ _ _).1 hc with rfl | hc
      · exact hnd1 hd
      · exact hni _ (List.mem_cons_of_mem _ hd) (List.mem_map.2 ⟨c, hc, rfl⟩)
    have a5 : NeverIncreasing
        ((ins (lik (store m.ghosts g { gv with room := some r, likelihood := x })) x
          (m.nodes.length, g) cs).map
          (fun c => lik (store m.ghosts g { gv with room := some r, likelihood := x }) c.2)) := by
      refine (neverIncreasing_iff_chain _).2 ?_
      rw [List.chain'_map]
      apply ins_chain _ _ _ hnew
      have := (neverIncreasing_iff_chain _).1 hch
      rw [List.chain'_map] at this
      refine List.Chain'.imp ?_ (List.Chain'.iff_mem.1 this)
      rintro a b ⟨ha, hb, hab⟩
      rw [hsame a ha, hsame b hb]; exact hab
    obtain ⟨m2, rv2, cs2, k1, k2, k3, k4, k5, k6, k7, k8⟩ :=
      room_add_ghosts_sorted r calls
        { m with
          ghosts := store m.ghosts g { gv with room := some r, likelihood := x }
          nodes := ns2
          rooms := store m.rooms r { rv with ghosts := l2 } }
        { rv with ghosts := l2 } _ a1 h2 a2 a3 hnd2 a4 a5
    refine ⟨m2, rv2, cs2, ?_, k2, k3, k4, k5, ?_, ?_, ?_⟩
    · simp only [room_add_ghosts, h1]; exact k1
    · rw [k6, hlen, hfm]; simp; omega
    · intro h3 h4
      apply k7
      · intro d hd
        rcases (ins_mem _ _ _ _ _).1 hd with rfl | hd
        · rw [hnew]; exact h4 _ (List.mem_cons_self _ _)
        · rw [hsame d hd]; exact h3 d hd
      · exact fun c hc => h4 c (List.mem_cons_of_mem _ hc)
    · rw [k8]
      have e1 : attach_pairs ((some g, x) :: calls) = (g, x) :: attach_pairs calls := by
        simp [attach_pairs]
      rw [e1, List.foldl_cons]
      congr 1
      simp only [pairsOf]
      rw [ins_pairs _ _ _ hnew]
      congr 1
      exact List.map_congr_left (fun d hd => by rw [hsame d hd])

/-! ## C1: the sorted invariant of a room's list -/

/-- C1 (as stated, refuted): attaching ghost `A` with 10.0, ghost `B` with 50.0 and
then ghost `A` again with 90.0 to one empty room leaves the room's list reading
90.0, 50.0, 90.0: the second attach of `A` overwrites the likelihood that the
node already in the list refers to, so the values are not non-increasing. -/
theorem room_add_ghost_repeated_ghost_unsorted :
    (room_add_ghosts (some 0) [(some 0, f10), (some 1, f50), (some 0, f90)] sample_mem).bind
        (fun m => room_likelihoods m 0) = some [f90, f50, f90] ∧
      ¬ NeverIncreasing [f90, f50, f90] ∧ ¬ Descending [f90, f50, f90] := by
  decide

/-- C1 (amended): for every run of `room_add_ghost` calls with pairwise distinct
allocated ghosts and any likelihoods, applied to one allocated room that starts
with an empty ghost list, every call succeeds and iterating the room's list
yields one likelihood per attached ghost, none of them greater than the one
before it; when no likelihood passed is NaN, every value is `>=` every later
value. -/
theorem room_add_ghosts_never_increasing (m : Mem) (r : Nat) (rv : Room)
    (calls : List (Option Nat × CFloat))
    (hr : load m.rooms r = some rv) (hempty : rv.ghosts.head = none)
    (hlive : ∀ g ∈ calls.filterMap Prod.fst, (load m.ghosts g).isSome = true)
    (hdistinct : (calls.filterMap Prod.fst).Nodup) :
    ∃ m2 vs, room_add_ghosts (some r) calls m = some m2 ∧
      room_likelihoods m2 r = some vs ∧
      vs.length = (calls.filterMap Prod.fst).length ∧
      NeverIncreasing vs ∧
      ((∀ c ∈ calls, c.2.isNaN = false) → List.Pairwise (fun a b => a.ge b = true) vs) := by
  obtain ⟨m2, rv2, cs2, h1, h2, h3, h4, h5, h6, h7, _⟩ :=
    room_add_ghosts_sorted r calls m rv [] hr hempty (by simp)
      (fun g hg => Option.isSome_iff_exists.1 (hlive g hg)) hdistinct (by simp)
      (by simp [NeverIncreasing, isNeverIncreasing])
  refine ⟨m2, _, h1, ?_, ?_, h5, ?_⟩
  · simp only [room_likelihoods, h2]
    exact ghostlist_likelihoods_of_seg h3 h4
  · simpa using h6
  · intro hn
    apply pairwise_of_neverIncreasing _ h5
    intro v hv
    obtain ⟨d, hd, rfl⟩ := List.mem_map.1 hv
    exact h7 (by simp) hn d hd

theorem room_add_ghosts_never_increasing_witness :
    ∃ m2 vs, room_add_ghosts (some 0) [(some 0, f50), (some 1, f90), (none, f10), (some 2, fNaN)]
        sample_mem = some m2 ∧
      room_likelihoods m2 0 = some vs ∧
      vs.length = ([(some 0, f50), (some 1, f90), (none, f10), (some 2, fNaN)].filterMap
        Prod.fst).length ∧
      NeverIncreasing vs ∧
      ((∀ c ∈ [(some 0, f50), (some 1, f90), (none, f10), (some 2, fNaN)],
          c.2.isNaN = false) → List.Pairwise (fun a b => a.ge b = true) vs) :=
  room_add_ghosts_never_increasing sample_mem 0 ⟨1, "Bedroom", ⟨none, none⟩⟩
    [(some 0, f50), (some 1, f90), (none, f10), (some 2, fNaN)]
    (by decide) rfl (by decide) (by decide)

/-! ## Where the new cell lands -/

theorem CFloat.ge_false_of_gt {a b : CFloat} (h : a.gt b = true) : b.ge a = false := by
  cases hge : b.ge a
  · rfl
  · rw [CFloat.gt_false_of_ge hge] at h; cases h

theorem insTail_split (v : Nat → CFloat) (x : CFloat) (nw : Nat × Nat) :
    ∀ t : List (Nat × Nat), ∃ pre post, t = pre ++ post ∧
      insTail v x nw t = pre ++ nw :: post ∧
      (∀ d ∈ pre, (v d.2).gt x = true) ∧ (∀ d ∈ post.head?, (v d.2).gt x = false)
  | [] => ⟨[], [], rfl, rfl, by simp, by simp⟩
  | n :: t => by
    cases hgt : (v n.2).gt x
    · exact ⟨[], n :: t, rfl, by simp [insTail, hgt], by simp, by simp [hgt]⟩
    · obtain ⟨pre, post, h1, h2, h3, h4⟩ := insTail_split v x nw t
      refine ⟨n :: pre, post, by simp [h1], by simp [insTail, hgt, h2], ?_, h4⟩
      intro d hd
      rcases List.mem_cons.1 hd with rfl | hd
      · exact hgt
      · exact h3 d hd

theorem ins_split (v : Nat → CFloat) (x : CFloat) (nw : Nat × Nat) (cs : List (Nat × Nat)) :
    ∃ pre post, cs = pre ++ post ∧ ins v x nw cs = pre ++ nw :: post ∧
      (∀ d ∈ pre.head?, x.ge (v d.2) = false) ∧ (∀ d ∈ pre.tail, (v d.2).gt x = true) ∧
      (pre = [] → ∀ d ∈ post.head?, x.ge (v d.2) = true) ∧
      (pre ≠ [] → ∀ d ∈ post.head?, (v d.2).gt x = false) := by
  cases cs with
  | nil => exact ⟨[], [], rfl, rfl, by simp, by simp, by simp, by simp⟩
  | cons c t =>
    cases hge : x.ge (v c.2)
    · obtain ⟨pre, post, h1, h2, h3, h4⟩ := insTail_split v x nw t
      exact ⟨c :: pre, post, by simp [h1], by simp [ins, hge, h2], by simp [hge],
        by simpa using h3, by simp, fun _ => h4⟩
    · exact ⟨[], c :: t, rfl, by simp [ins, hge], by simp, by simp, by simp [hge], by simp⟩

theorem ins_split_sorted (v : Nat → CFloat) (x : CFloat) (nw : Nat × Nat)
    (cs : List (Nat × Nat)) (hn : ∀ d ∈ cs, (v d.2).isNaN = false) (hx : x.isNaN = false)
    (hs : List.Pairwise (fun a b : Nat × Nat => (v a.2).ge (v b.2) = true) cs) :
    ∃ pre post, cs = pre ++ post ∧ ins v x nw cs = pre ++ nw :: post ∧
      (∀ d ∈ pre, (v d.2).gt x = true) ∧ (∀ d ∈ post, x.ge (v d.2) = true) := by
  obtain ⟨pre, post, h1, h2, h3, h4, h5, h6⟩ := ins_split v x nw cs
  refine ⟨pre, post, h1, h2, ?_, ?_⟩
  · intro d hd
    cases pre with
    | nil => cases hd
    | cons p pt =>
      rcases List.mem_cons.1 hd with rfl | hd
      · exact CFloat.gt_of_ge_false hx (hn d (by simp [h1])) (h3 d (by simp))
      · exact h4 d hd
  · have hhead : ∀ d ∈ post.head?, x.ge (v d.2) = true := by
      intro d hd
      by_cases hp : pre = []
      · exact h5 hp d hd
      · have hdm : d ∈ cs := by
          rw [h1]; exact List.mem_append_right _ (List.mem_of_mem_head? hd)
        exact CFloat.ge_of_gt_false hx (hn d hdm) (h6 hp d hd)
    cases post with
    | nil => simp
    | cons p pt =>
      have hp := hhead p (by simp)
      intro d hd
      rcases List.mem_cons.1 hd with rfl | hd
      · exact hp
      · rw [h1] at hs
        have := (List.pairwise_cons.1 (List.pairwise_append.1 hs).2.1).1 d hd
        exact CFloat.ge_trans hp this

theorem insertBeforeFirstLe_split (v : Nat → CFloat) (x : CFloat) (g : Nat) :
    ∀ (pre post : List Nat), (∀ d ∈ pre, x.ge (v d) = false) →
      (∀ d ∈ post.head?, x.ge (v d) = true) →
      insertBeforeFirstLe v x g (pre ++ post) = pre ++ g :: post
  | [], [], _, _ => rfl
  | [], p :: post, _, h => by
    simp [insertBeforeFirstLe, h p (by simp)]
  | p :: pre, post, h1, h2 => by
    have := insertBeforeFirstLe_split v x g pre post
      (fun d hd => h1 d (List.mem_cons_of_mem _ hd)) h2
    simp [insertBeforeFirstLe, h1 p (List.mem_cons_self _ _), this]

/-- A well-formed list with allocated ghosts, seen as cells. -/
theorem cells_of_ghosts {m : Mem} {l : GhostList} {gs : List Nat} {vs : List CFloat}
    (hgs : ghostlist_ghosts m l = some gs) (hvs : likelihoods m gs = some vs) :
    ∃ cs, Seg m.nodes l.head cs none ∧ gs = cs.map Prod.snd ∧
      (∀ d ∈ cs, ∃ dv, load m.ghosts d.2 = some dv) ∧
      vs = cs.map (fun c => lik m.ghosts c.2) := by
  simp only [ghostlist_ghosts, Option.map_eq_some'] at hgs
  obtain ⟨cs, hcs, rfl⟩ := hgs
  obtain ⟨h1, h2⟩ := live_of_likelihoods m _ _ hvs
  refine ⟨cs, (cells_iff_seg m l cs).1 hcs, rfl, ?_, by simp [h2]⟩
  intro d hd
  exact h1 d.2 (List.mem_map.2 ⟨d, hd, rfl⟩)

/-! ## C3: the place of the new entry -/

/-- C3 (as stated, refuted): inserting a ghost whose likelihood is NaN into the
sorted one-entry list holding 50.0 puts it after that entry (`NaN >= 50.0` is
false and the scan stops at once), yet 50.0 is not strictly greater than NaN;
and inserting a ghost with 10.0 into the one-entry list holding NaN puts it
after the NaN entry, which is not strictly greater than 10.0. -/
theorem insert_nan_breaks_position :
    (ghostlist_likelihoods (one_entry_mem f50 fNaN) ⟨some 0, some 0⟩ = some [f50] ∧
      Descending [f50] ∧
      (ghostlist_insert_by_likelihood ⟨some 0, some 0⟩ (some 1) (one_entry_mem f50 fNaN)).bind
        (fun r => ghostlist_ghosts r.2 r.1) = some [0, 1] ∧
      (lik (one_entry_mem f50 fNaN).ghosts 0).gt (lik (one_entry_mem f50 fNaN).ghosts 1) =
        false) ∧
    (ghostlist_likelihoods (one_entry_mem fNaN f10) ⟨some 0, some 0⟩ = some [fNaN] ∧
      Descending [fNaN] ∧
      (ghostlist_insert_by_likelihood ⟨some 0, some 0⟩ (some 1) (one_entry_mem fNaN f10)).bind
        (fun r => ghostlist_ghosts r.2 r.1) = some [0, 1] ∧
      (lik (one_entry_mem fNaN f10).ghosts 0).gt (lik (one_entry_mem fNaN f10).ghosts 1) =
        false) := by
  decide

/-- C3 (amended): for every well-formed list sorted by descending likelihood
whose entries are not NaN, and every allocated ghost whose likelihood is not
NaN, `ghostlist_insert_by_likelihood` succeeds, leaves the ghosts untouched and
yields `pre ++ g :: post` where `pre ++ post` is the old sequence, every entry
of `pre` has likelihood strictly greater than the new ghost's and every entry
of `post` has likelihood `<=` the new ghost's; this is the sequence obtained by
inserting the ghost immediately before the first entry whose likelihood is
`<=` the new one, or at the end when there is none. -/
theorem insert_position (m : Mem) (l : GhostList) (g : Nat) (gv : Ghost)
    (gs : List Nat) (vs : List CFloat)
    (hgs : ghostlist_ghosts m l = some gs) (hvs : likelihoods m gs = some vs)
    (hsorted : Descending vs) (hnan : ∀ v ∈ vs, v.isNaN = false)
    (hg : load m.ghosts g = some gv) (hx : gv.likelihood.isNaN = false) :
    ∃ l2 m2 pre post,
      ghostlist_insert_by_likelihood l (some g) m = some (l2, m2) ∧
      m2.ghosts = m.ghosts ∧
      gs = pre ++ post ∧
      ghostlist_ghosts m2 l2 = some (pre ++ g :: post) ∧
      (∀ d ∈ pre, (lik m.ghosts d).gt gv.likelihood = true) ∧
      (∀ d ∈ post, gv.likelihood.ge (lik m.ghosts d) = true) ∧
      pre ++ g :: post = insertBeforeFirstLe (lik m.ghosts) gv.likelihood g gs := by
  obtain ⟨cs, hseg, rfl, hlive, rfl⟩ := cells_of_ghosts hgs hvs
  obtain ⟨l2, ns2, h1, h2, _, _, _⟩ := insert_spec m l g gv cs hseg hlive hg
  have hn : ∀ d ∈ cs, (lik m.ghosts d.2).isNaN = false :=
    fun d hd => hnan _ (List.mem_map.2 ⟨d, hd, rfl⟩)
  have hpw : List.Pairwise (fun a b : Nat × Nat =>
      (lik m.ghosts a.2).ge (lik m.ghosts b.2) = true) cs := by
    have := pairwise_of_descending hsorted
    rwa [List.pairwise_map] at this
  obtain ⟨pre, post, k1, k2, k3, k4⟩ :=
    ins_split_sorted (lik m.ghosts) gv.likelihood (m.nodes.length, g) cs hn hx hpw
  have hpre : ∀ d ∈ pre.map Prod.snd, (lik m.ghosts d).gt gv.likelihood = true := by
    intro d hd
    obtain ⟨c, hc, rfl⟩ := List.mem_map.1 hd
    exact k3 c hc
  have hpost : ∀ d ∈ post.map Prod.snd, gv.likelihood.ge (lik m.ghosts d) = true := by
    intro d hd
    obtain ⟨c, hc, rfl⟩ := List.mem_map.1 hd
    exact k4 c hc
  refine ⟨l2, { m with nodes := ns2 }, pre.map Prod.snd, post.map Prod.snd, h1, rfl,
    by rw [k1, List.map_append], ?_, hpre, hpost, ?_⟩
  · have h3 : Seg ({ m with nodes := ns2 } : Mem).nodes l2.head
        (ins (lik m.ghosts) gv.likelihood (m.nodes.length, g) cs) none := h2
    rw [ghosts_of_seg h3, k2]
    simp
  · rw [k1, List.map_append]
    refine (insertBeforeFirstLe_split _ _ _ _ _ ?_ ?_).symm
    · exact fun d hd => CFloat.ge_false_of_gt (hpre d hd)
    · exact fun d hd => hpost d (List.mem_of_mem_head? hd)

theorem insert_position_witness :
    ∃ l2 m2 pre post,
      ghostlist_insert_by_likelihood ⟨some 0, some 1⟩ (some 2) two_entry_mem = some (l2, m2) ∧
      m2.ghosts = two_entry_mem.ghosts ∧
      [0, 1] = pre ++ post ∧
      ghostlist_ghosts m2 l2 = some (pre ++ 2 :: post) ∧
      (∀ d ∈ pre, (lik two_entry_mem.ghosts d).gt f50 = true) ∧
      (∀ d ∈ post, f50.ge (lik two_entry_mem.ghosts d) = true) ∧
      pre ++ 2 :: post = insertBeforeFirstLe (lik two_entry_mem.ghosts) f50 2 [0, 1] :=
  insert_position two_entry_mem ⟨some 0, some 1⟩ 2 ⟨1033, "C", f50, none⟩ [0, 1] [f90, f50]
    (by decide) (by decide) (by decide) (by decide) (by decide) (by decide)

/-! ## C2: ties -/

theorem CFloat.notNaN_of_feq {a b : CFloat} (h : a.feq b = true) :
    a.isNaN = false ∧ b.isNaN = false := by
  simp only [CFloat.feq, Bool.and_eq_true, decide_eq_true_eq, Bool.not_eq_true'] at h
  exact h.1

theorem CFloat.feq_false_of_gt {a b : CFloat} (h : a.gt b = true) : a.feq b = false := by
  simp only [CFloat.gt, Bool.and_eq_true, decide_eq_true_eq] at h
  rw [Bool.eq_false_iff]
  simp only [CFloat.feq, ne_eq, Bool.and_eq_true, decide_eq_true_eq, not_and]
  intro _ e
  omega

theorem CFloat.feq_of_between {x p e : CFloat} (h1 : x.ge p = true) (h2 : p.ge e = true)
    (h3 : e.feq x = true) : p.feq x = true := by
  simp only [CFloat.ge, CFloat.feq, Bool.and_eq_true, decide_eq_true_eq] at *
  exact ⟨⟨h2.1.1, h1.1.1⟩, by omega⟩

/-- In a sorted list that has an entry equal to `x`, no entry is NaN. -/
theorem notNaN_of_sorted_mem (v : Nat → CFloat) (x : CFloat) (cs : List (Nat × Nat))
    (hs : List.Pairwise (fun a b : Nat × Nat => (v a.2).ge (v b.2) = true) cs)
    (e : Nat × Nat) (he : e ∈ cs) (hx : (v e.2).feq x = true) :
    ∀ d ∈ cs, (v d.2).isNaN = false := by
  obtain ⟨l1, l2, rfl⟩ := List.append_of_mem he
  obtain ⟨_, h2, h3⟩ := List.pairwise_append.1 hs
  intro d hd
  rcases List.mem_append.1 hd with hd | hd
  · exact (CFloat.notNaN_of_ge (h3 d hd e (List.mem_cons_self _ _))).1
  · rcases List.mem_cons.1 hd with rfl | hd
    · exact (CFloat.notNaN_of_feq hx).1
    · exact (CFloat.notNaN_of_ge ((List.pairwise_cons.1 h2).1 d hd)).2

/-- C2: for every well-formed list sorted by descending likelihood that has an
entry whose likelihood equals that of the allocated ghost `g`,
`ghostlist_insert_by_likelihood` succeeds and puts `g` immediately before an
entry `e` of equal likelihood, and no entry before `g` has that likelihood: `e`
is the first equal entry and `g` comes before every equal entry. -/
theorem insert_tie_break (m : Mem) (l : GhostList) (g : Nat) (gv : Ghost)
    (gs : List Nat) (vs : List CFloat)
    (hgs : ghostlist_ghosts m l = some gs) (hvs : likelihoods m gs = some vs)
    (hsorted : Descending vs) (hg : load m.ghosts g = some gv)
    (heq : ∃ e ∈ gs, (lik m.ghosts e).feq gv.likelihood = true) :
    ∃ l2 m2 pre e post,
      ghostlist_insert_by_likelihood l (some g) m = some (l2, m2) ∧
      m2.ghosts = m.ghosts ∧
      gs = pre ++ e :: post ∧
      ghostlist_ghosts m2 l2 = some (pre ++ g :: e :: post) ∧
      (lik m.ghosts e).feq gv.likelihood = true ∧
      (∀ d ∈ pre, (lik m.ghosts d).feq gv.likelihood = false) := by
  obtain ⟨cs, hseg, rfl, hlive, rfl⟩ := cells_of_ghosts hgs hvs
  obtain ⟨l2, ns2, h1, h2, _, _, _⟩ := insert_spec m l g gv cs hseg hlive hg
  obtain ⟨e0, he0, hfe⟩ := heq
  obtain ⟨e, he, rfl⟩ := List.mem_map.1 he0
  have hpw : List.Pairwise (fun a b : Nat × Nat =>
      (lik m.ghosts a.2).ge (lik m.ghosts b.2) = true) cs := by
    have := pairwise_of_descending hsorted
    rwa [List.pairwise_map] at this
  have hn := notNaN_of_sorted_mem (lik m.ghosts) gv.likelihood cs hpw e he hfe
  have hx := (CFloat.notNaN_of_feq hfe).2
  obtain ⟨pre, post, k1, k2, k3, k4⟩ :=
    ins_split_sorted (lik m.ghosts) gv.likelihood (m.nodes.length, g) cs hn hx hpw
  have hepost : e ∈ post := by
    rw [k1] at he
    rcases List.mem_append.1 he with h | h
    · have := CFloat.feq_false_of_gt (k3 e h)
      rw [this] at hfe; cases hfe
    · exact h
  cases post with
  | nil => cases hepost
  | cons p pt =>
    have hp : (lik m.ghosts p.2).feq gv.likelihood = true := by
      rcases List.mem_cons.1 hepost with rfl | h
      · exact hfe
      · rw [k1] at hpw
        have := (List.pairwise_cons.1 (List.pairwise_append.1 hpw).2.1).1 e h
        exact CFloat.feq_of_between (k4 p (List.mem_cons_self _ _)) this hfe
    refine ⟨l2, { m with nodes := ns2 }, pre.map Prod.snd, p.2, pt.map Prod.snd, h1, rfl,
      by rw [k1]; simp, ?_, hp, ?_⟩
    · have h3 : Seg ({ m with nodes := ns2 } : Mem).nodes l2.head
          (ins (lik m.ghosts) gv.likelihood (m.nodes.length, g) cs) none := h2
      rw [ghosts_of_seg h3, k2]
      simp
    · intro d hd
      obtain ⟨c, hc, rfl⟩ := List.mem_map.1 hd
      exact CFloat.feq_false_of_gt (k3 c hc)

theorem insert_tie_break_witness :
    ∃ l2 m2 pre e post,
      ghostlist_insert_by_likelihood ⟨some 0, some 1⟩ (some 2) two_entry_mem = some (l2, m2) ∧
      m2.ghosts = two_entry_mem.ghosts ∧
      [0, 1] = pre ++ e :: post ∧
      ghostlist_ghosts m2 l2 = some (pre ++ 2 :: e :: post) ∧
      (lik two_entry_mem.ghosts e).feq f50 = true ∧
      (∀ d ∈ pre, (lik two_entry_mem.ghosts d).feq f50 = false) :=
  insert_tie_break two_entry_mem ⟨some 0, some 1⟩ 2 ⟨1033, "C", f50, none⟩ [0, 1] [f90, f50]
    (by decide) (by decide) (by decide) (by decide) ⟨1, by decide, by decide⟩

/-! ## C4: the four-ghost scenario -/

theorem room_ghosts_of_seg {m : Mem} {r : Nat} {rv : Room} {cs : List (Nat × Nat)}
    (hr : load m.rooms r = some rv) (hs : Seg m.nodes rv.ghosts.head cs none) :
    room_ghosts m r = some ((pairsOf m.ghosts cs).map Prod.fst) := by
  simp only [room_ghosts, hr, ghosts_of_seg hs, pairsOf, List.map_map]
  rfl

theorem room_likelihoods_of_seg {m : Mem} {r : Nat} {rv : Room} {cs : List (Nat × Nat)}
    (hr : load m.rooms r = some rv) (hs : Seg m.nodes rv.ghosts.head cs none)
    (hlive : ∀ d ∈ cs, ∃ dv, load m.ghosts d.2 = some dv) :
    room_likelihoods m r = some ((pairsOf m.ghosts cs).map Prod.snd) := by
  simp only [room_likelihoods, hr, ghostlist_likelihoods_of_seg hs hlive, pairsOf, List.map_map]
  rfl

/-- C4: attaching four distinct allocated ghosts `a`, `b`, `c`, `d` to one
allocated room with an empty ghost list, in that order, with likelihoods 50.0,
90.0, 10.0 and 50.0, succeeds and leaves the room's list in the order
`b`(90), `d`(50), `a`(50), `c`(10). -/
theorem room_add_ghost_four_scenario (m : Mem) (r : Nat) (rv : Room) (a b c d : Nat)
    (hr : load m.rooms r = some rv) (hempty : rv.ghosts.head = none)
    (hlive : ∀ g ∈ [a, b, c, d], (load m.ghosts g).isSome = true)
    (hdistinct : [a, b, c, d].Nodup) :
    ∃ m2, room_add_ghosts (some r)
        [(some a, f50), (some b, f90), (some c, f10), (some d, f50)] m = some m2 ∧
      room_ghosts m2 r = some [b, d, a, c] ∧
      room_likelihoods m2 r = some [f90, f50, f50, f10] := by
  obtain ⟨m2, rv2, cs2, h1, h2, h3, h4, _, _, _, h8⟩ :=
    room_add_ghosts_sorted r [(some a, f50), (some b, f90), (some c, f10), (some d, f50)]
      m rv [] hr hempty (by simp)
      (fun g hg => Option.isSome_iff_exists.1 (hlive g (by simpa using hg)))
      (by simpa using hdistinct) (by simp) (by simp [NeverIncreasing, isNeverIncreasing])
  have h9 : pairsOf m2.ghosts cs2 = [(b, f90), (d, f50), (a, f50), (c, f10)] := by
    have e1 : f90.ge f50 = true := by decide
    have e2 : f10.ge f90 = false := by decide
    have e3 : f50.gt f10 = true := by decide
    have e4 : f50.ge f90 = false := by decide
    have e5 : f50.gt f50 = false := by decide
    have s1 : insPair (a, f50) [] = [(a, f50)] := rfl
    have s2 : insPair (b, f90) [(a, f50)] = [(b, f90), (a, f50)] := by
      simp only [insPair, e1, if_true]
    have s3 : insPair (c, f10) [(b, f90), (a, f50)] = [(b, f90), (a, f50), (c, f10)] := by
      simp only [insPair, e2, Bool.false_eq_true, if_false]
      simp only [insPairTail, e3, if_true]
    have s4 : insPair (d, f50) [(b, f90), (a, f50), (c, f10)] =
        [(b, f90), (d, f50), (a, f50), (c, f10)] := by
      simp only [insPair, e4, Bool.false_eq_true, if_false]
      simp only [insPairTail, e5, Bool.false_eq_true, if_false]
    rw [h8]
    simp only [attach_pairs, List.filterMap_cons, Option.map_some', List.filterMap_nil, pairsOf,
      List.map_nil]
    rw [List.foldl_cons, s1, List.foldl_cons, s2, List.foldl_cons, s3, List.foldl_cons, s4,
      List.foldl_nil]
  refine ⟨m2, h1, ?_, ?_⟩
  · rw [room_ghosts_of_seg h2 h3, h9]; rfl
  · rw [room_likelihoods_of_seg h2 h3 h4, h9]; rfl

theorem room_add_ghost_four_scenario_witness :
    ∃ m2, room_add_ghosts (some 0)
        [(some 0, f50), (some 1, f90), (some 2, f10), (some 3, f50)] sample_mem = some m2 ∧
      room_ghosts m2 0 = some [1, 3, 0, 2] ∧
      room_likelihoods m2 0 = some [f90, f50, f50, f10] :=
  room_add_ghost_four_scenario sample_mem 0 ⟨1, "Bedroom", ⟨none, none⟩⟩ 0 1 2 3
    (by decide) rfl (by decide) (by decide)

/-! ## C5, C6, C7: the room array -/

/-- C5: for every `RoomArray` whose size is 16 and every room pointer,
`roomarray_add` returns the array exactly as it was: size stays 16 and no slot
changes. The function has no access to the heap, so the rejected room is not
stored or modified anywhere. -/
theorem roomarray_add_full (a : RoomArray) (room : Option Nat) (h : a.size = 16) :
    roomarray_add a room = some a := by
  cases room with
  | none => rfl
  | some r => simp [roomarray_add, h, MAX_ROOMS]

theorem roomarray_add_full_witness :
    roomarray_add full_array (some 99) = some full_array :=
  roomarray_add_full full_array (some 99) rfl

theorem take_set_self {α : Type} (a : α) :
    ∀ (l : List α) (n : Nat), (l.set n a).take n = l.take n
  | [], _ => by simp
  | _ :: _, 0 => by simp
  | x :: l, n + 1 => by simp [take_set_self a l n]

theorem roomarray_add_step (a : RoomArray) (r n : Nat)
    (hlen : a.elements.length = MAX_ROOMS) (hn : a.size = (n : Int)) (hlt : n < MAX_ROOMS) :
    roomarray_add a (some r) =
      some { elements := a.elements.set n (some r), size := (n : Int) + 1 } := by
  have h1 : a.size < (MAX_ROOMS : Int) := by rw [hn]; exact_mod_cast hlt
  have h2 : 0 ≤ a.size ∧ a.size.toNat < a.elements.length := by
    rw [hn, hlen]; exact ⟨Int.natCast_nonneg n, by simpa using hlt⟩
  simp only [roomarray_add, h1, h2, and_self, if_true]
  rw [hn]; simp

theorem roomarray_adds_from (rs : List Nat) :
    ∀ (a : RoomArray) (n : Nat), a.elements.length = MAX_ROOMS → a.size = (n : Int) →
      n + rs.length ≤ MAX_ROOMS →
      ∃ a2, roomarray_adds a (rs.map some) = some a2 ∧ a2.size = ((n + rs.length : Nat) : Int) ∧
        a2.elements.length = MAX_ROOMS ∧
        a2.elements.take (n + rs.length) = a.elements.take n ++ rs.map some := by
  induction rs with
  | nil =>
    intro a n hlen hn _
    exact ⟨a, rfl, by simpa using hn, hlen, by simp⟩
  | cons r rs ih =>
    intro a n hlen hn hle
    simp only [List.length_cons] at hle
    have hlt : n < MAX_ROOMS := by omega
    have hstep := roomarray_add_step a r n hlen hn hlt
    obtain ⟨a2, k1, k2, k3, k4⟩ :=
      ih { elements := a.elements.set n (some r), size := (n : Int) + 1 } (n + 1)
        (by simp [hlen]) (by simp) (by omega)
    refine ⟨a2, ?_, ?_, k3, ?_⟩
    · simp only [List.map_cons, roomarray_adds, hstep]; exact k1
    · rw [k2]; simp only [List.length_cons]; congr 1; omega
    · have e : n + (r :: rs).length = n + 1 + rs.length := by simp; omega
      rw [e, k4]
      have hn2 : n < a.elements.length := by rw [hlen]; exact hlt
      simp only [List.map_cons]
      rw [List.take_succ, take_set_self]
      simp [List.getElem?_set, hn2]

/-- C6: for every `RoomArray` of `MAX_ROOMS` slots with size `n < 16` and every
room `r`, `roomarray_add` succeeds, stores the room in slot `n`, makes the size
`n + 1` and leaves every other slot unchanged: the occupied slots are the old
occupied slots followed by `r`. Hence adding the rooms `rs` (at most sixteen)
to an initialised array leaves exactly `rs`, in the order added, in the
occupied slots. -/
theorem roomarray_add_below_capacity (a : RoomArray) (r n : Nat)
    (hlen : a.elements.length = MAX_ROOMS) (hn : a.size = (n : Int)) (hlt : n < MAX_ROOMS) :
    (∃ a2, roomarray_add a (some r) = some a2 ∧
      a2.size = (n : Int) + 1 ∧
      a2.elements.length = MAX_ROOMS ∧
      a2.elements[n]? = some (some r) ∧
      (∀ i, i ≠ n → a2.elements[i]? = a.elements[i]?) ∧
      a2.elements.take (n + 1) = a.elements.take n ++ [some r]) ∧
    (∀ rs : List Nat, rs.length ≤ MAX_ROOMS →
      ∃ a3, roomarray_adds (roomarray_init a) (rs.map some) = some a3 ∧
        a3.size = (rs.length : Int) ∧ a3.elements.take rs.length = rs.map some) := by
  have hn2 : n < a.elements.length := by rw [hlen]; exact hlt
  constructor
  · refine ⟨_, roomarray_add_step a r n hlen hn hlt, rfl, by simp [hlen], ?_, ?_, ?_⟩
    · simp [List.getElem?_set, hn2]
    · intro i hi
      simp [List.getElem?_set, Ne.symm hi]
    · rw [List.take_succ, take_set_self]
      simp [List.getElem?_set, hn2]
  · intro rs hrs
    obtain ⟨a3, k1, k2, _, k4⟩ := roomarray_adds_from rs (roomarray_init a) 0
      (by simp [roomarray_init]) (by simp [roomarray_init]) (by simpa using hrs)
    exact ⟨a3, k1, by simpa using k2, by simpa using k4⟩

theorem roomarray_add_below_capacity_witness :
    (∃ a2, roomarray_add (roomarray_init full_array) (some 7) = some a2 ∧
      a2.size = ((0 : Nat) : Int) + 1 ∧
      a2.elements.length = MAX_ROOMS ∧
      a2.elements[0]? = some (some 7) ∧
      (∀ i, i ≠ 0 → a2.elements[i]? = (roomarray_init full_array).elements[i]?) ∧
      a2.elements.take (0 + 1) = (roomarray_init full_array).elements.take 0 ++ [some 7]) ∧
    (∀ rs : List Nat, rs.length ≤ MAX_ROOMS →
      ∃ a3, roomarray_adds (roomarray_init (roomarray_init full_array)) (rs.map some) =
          some a3 ∧
        a3.size = (rs.length : Int) ∧ a3.elements.take rs.length = rs.map some) :=
  roomarray_add_below_capacity (roomarray_init full_array) 7 0 (by decide) (by decide)
    (by decide)

theorem roomarray_cleanup_loop_length :
    ∀ (k i : Nat) (els els2 : List (Option Nat)) (m m2 : Mem),
      roomarray_cleanup_loop k i els m = some (els2, m2) → els2.length = els.length
  | 0, _, els, els2, m, m2, h => by
    simp only [roomarray_cleanup_loop, Option.some.injEq, Prod.mk.injEq] at h
    rw [← h.1]
  | k + 1, i, els, els2, m, m2, h => by
    simp only [roomarray_cleanup_loop] at h
    split at h
    · cases h
    · split at h
      · cases h
      · have := roomarray_cleanup_loop_length k (i + 1) _ els2 _ m2 h
        simpa using this

theorem reach_of_adds :
    ∀ (rooms : List (Option Nat)) (a a2 : RoomArray),
      RoomArrayReach a → roomarray_adds a rooms = some a2 → RoomArrayReach a2
  | [], a, a2, h, hr => by
    simp only [roomarray_adds, Option.some.injEq] at hr
    subst hr; exact h
  | room :: rooms, a, a2, h, hr => by
    simp only [roomarray_adds] at hr
    split at hr
    · cases hr
    · rename_i a1 h1
      exact reach_of_adds rooms a1 a2 (RoomArrayReach.add a a1 room h h1) hr

theorem roomarray_reach_inv {a : RoomArray} (h : RoomArrayReach a) :
    0 ≤ a.size ∧ a.size ≤ (MAX_ROOMS : Int) ∧ a.elements.length = MAX_ROOMS := by
  induction h with
  | init a => simp [roomarray_init, MAX_ROOMS]
  | add a a2 room _ hadd ih =>
    obtain ⟨h0, h1, h2⟩ := ih
    cases room with
    | none =>
      simp only [roomarray_add, Option.some.injEq] at hadd
      subst hadd; exact ⟨h0, h1, h2⟩
    | some r =>
      simp only [roomarray_add] at hadd
      split at hadd
      · rename_i hlt
        split at hadd
        · simp only [Option.some.injEq] at hadd
          subst hadd
          refine ⟨by show 0 ≤ a.size + 1; omega, by show a.size + 1 ≤ _; omega, ?_⟩
          simpa using h2
        · cases hadd
      · simp only [Option.some.injEq] at hadd
        subst hadd; exact ⟨h0, h1, h2⟩
  | cleanup a a2 m m2 _ hc ih =>
    obtain ⟨_, _, h2⟩ := ih
    simp only [roomarray_cleanup] at hc
    split at hc
    · cases hc
    · rename_i els m1 hl
      simp only [Option.some.injEq, Prod.mk.injEq] at hc
      obtain ⟨rfl, _⟩ := hc
      refine ⟨le_refl _, by simp [MAX_ROOMS], ?_⟩
      rw [← h2]
      exact roomarray_cleanup_loop_length _ _ _ _ _ _ hl

/-- C7: in every `RoomArray` state reachable from `roomarray_init` by any
sequence of `roomarray_add` and `roomarray_cleanup` calls, `0 <= size <= 16`
(`MAX_ROOMS`); the array also keeps its sixteen slots, so the next
`roomarray_add` is defined. -/
theorem roomarray_size_bounded (a : RoomArray) (h : RoomArrayReach a) :
    0 ≤ a.size ∧ a.size ≤ 16 ∧ ∀ room, ∃ a2, roomarray_add a room = some a2 := by
  obtain ⟨h0, h1, h2⟩ := roomarray_reach_inv h
  refine ⟨h0, by simpa [MAX_ROOMS] using h1, ?_⟩
  intro room
  cases room with
  | none => exact ⟨a, rfl⟩
  | some r =>
    by_cases hlt : a.size < (MAX_ROOMS : Int)
    · have h3 : 0 ≤ a.size ∧ a.size.toNat < a.elements.length := by
        refine ⟨h0, ?_⟩
        rw [h2]
        have : (a.size.toNat : Int) < (MAX_ROOMS : Int) := by
          rw [Int.toNat_of_nonneg h0]; exact hlt
        exact_mod_cast this
      refine ⟨{ elements := a.elements.set a.size.toNat (some r), size := a.size + 1 }, ?_⟩
      simp only [roomarray_add, hlt, h3, and_self, if_true]
    · exact ⟨a, by simp only [roomarray_add, hlt, if_false]⟩

theorem roomarray_size_bounded_witness :
    0 ≤ full_array.size ∧ full_array.size ≤ 16 ∧
      ∀ room, ∃ a2, roomarray_add full_array room = some a2 :=
  roomarray_size_bounded full_array
    (reach_of_adds ((List.range 16).map some) (roomarray_init full_array) full_array
      (RoomArrayReach.init full_array) (by decide))

/-! ## `ghostlist_push` on a well-formed list -/

theorem seg_snoc {ns : List (Option GhostNode)} :
    ∀ (cs : List (Nat × Nat)) (c : Nat × Nat) (p : Option Nat),
      Seg ns p (cs ++ [c]) none →
      Seg ns p cs (some c.1) ∧ ∃ nd, load ns c.1 = some nd ∧ nd.data = some c.2 ∧ nd.next = none := by
  intro cs c p h
  obtain ⟨r, h1, h2⟩ := (seg_append cs [c] p none).1 h
  obtain ⟨hr, nd, hl, hd, hn⟩ := h2
  subst hr
  exact ⟨h1, nd, hl, hd, hn⟩

/-- What `ghostlist_push` does to a well-formed list whose `tail` is its last
node. -/
theorem push_spec (m : Mem) (l : GhostList) (g : Nat) (cs : List (Nat × Nat))
    (hs : Seg m.nodes l.head cs none) (htail : l.tail = (cs.map Prod.fst).getLast?) :
    ∃ l2 ns2,
      ghostlist_push l (some g) m = some (l2, { m with nodes := ns2 }) ∧
      Seg ns2 l2.head (cs ++ [(m.nodes.length, g)]) none ∧
      l2.tail = some m.nodes.length ∧
      ns2.length = m.nodes.length + 1 ∧
      (∀ a, a ∉ cs.map Prod.fst → a ≠ m.nodes.length → load ns2 a = load m.nodes a) ∧
      (cs = [] → l2.head = some m.nodes.length) ∧
      (cs ≠ [] → l2.head = l.head) := by
  have hfresh : m.nodes.length ∉ cs.map Prod.fst := fun hm =>
    Nat.lt_irrefl _ (seg_lt hs _ hm)
  rcases List.eq_nil_or_concat cs with rfl | ⟨init, c, rfl⟩
  · have hh : l.head = none := hs
    refine ⟨{ head := some m.nodes.length, tail := some m.nodes.length },
      m.nodes ++ [some (GhostNode.mk (some g) none)], ?_, ?_, rfl, by simp, ?_, fun _ => rfl,
      fun h => absurd rfl h⟩
    · simp [ghostlist_push, hh]
    · exact ⟨rfl, _, load_append_length _ _, rfl, rfl⟩
    · intro a _ ha; exact load_append_ne _ _ _ ha
  · rw [List.concat_eq_append] at hs htail hfresh ⊢
    have hnd := seg_nodup _ _ hs
    obtain ⟨h1, nd, hl, hd, hn⟩ := seg_snoc init c _ hs
    have ht : l.tail = some c.1 := by rw [htail]; simp
    have hhead : ∃ h, l.head = some h := by
      cases init with
      | nil => exact ⟨c.1, h1⟩
      | cons i _ => exact ⟨i.1, h1.1⟩
    obtain ⟨h, hh⟩ := hhead
    have hcne : m.nodes.length ≠ c.1 := fun e => hfresh (by simp [e])
    have hl1 : load (m.nodes ++ [some (GhostNode.mk (some g) none)]) c.1 = some nd :=
      load_append_of_some _ hl
    refine ⟨{ head := l.head, tail := some m.nodes.length },
      store (m.nodes ++ [some (GhostNode.mk (some g) none)]) c.1
        ({ nd with next := some m.nodes.length } : GhostNode), ?_, ?_, rfl, ?_, ?_, ?_, fun _ => rfl⟩
    · simp only [ghostlist_push, hh, ht, hl1]
    · rw [List.append_assoc]
      refine (seg_append init _ _ _).2 ⟨some c.1, ?_, ?_⟩
      · refine seg_congr init _ _ ?_ h1
        intro d hd
        have hdm : d.1 ∈ init.map Prod.fst := mem_fst_of_mem hd
        have e1 : c.1 ≠ d.1 := by
          intro e
          rw [List.map_append, List.nodup_append] at hnd
          exact hnd.2.2 hdm (by simp [e])
        have e2 : d.1 ≠ m.nodes.length := fun e => hfresh (by
          rw [← e, List.map_append]; exact List.mem_append_left _ hdm)
        rw [load_store_other _ _ _ _ e1]
        exact load_append_ne _ _ _ e2
      · refine ⟨rfl, _, load_store_same _ _ _ (by simp; exact Nat.lt_succ_of_lt (load_lt hl)),
          hd, ?_⟩
        refine ⟨rfl, GhostNode.mk (some g) none, ?_, rfl, rfl⟩
        rw [load_store_other _ _ _ _ (Ne.symm hcne)]
        exact load_append_length _ _
    · simp [length_store]
    · intro a ha1 ha2
      have e1 : c.1 ≠ a := fun e => ha1 (by simp [e])
      rw [load_store_other _ _ _ _ e1]
      exact load_append_ne _ _ _ ha2
    · intro e; simp at e

/-! ## C16: append -/

/-- C16: for every well-formed list whose `tail` designates its last node (or
is anything when the list is empty) and every non-null ghost pointer,
`ghostlist_push` succeeds and the list then reads as the old sequence followed
by one new node holding that ghost, with `tail` designating the new node; on an
empty list `head` and `tail` are that same node. Ghosts and rooms are left
untouched. -/
theorem ghostlist_push_appends (m : Mem) (l : GhostList) (g : Nat) (cs : List (Nat × Nat))
    (hcells : ghostlist_cells m l = some cs)
    (htail : l.tail = (cs.map Prod.fst).getLast?) :
    ∃ l2 m2, ghostlist_push l (some g) m = some (l2, m2) ∧
      ghostlist_cells m2 l2 = some (cs ++ [(m.nodes.length, g)]) ∧
      ghostlist_ghosts m2 l2 = some (cs.map Prod.snd ++ [g]) ∧
      l2.tail = some m.nodes.length ∧
      (cs = [] → l2.head = l2.tail) ∧
      m2.ghosts = m.ghosts ∧ m2.rooms = m.rooms := by
  obtain ⟨l2, ns2, h1, h2, h3, _, _, h6, _⟩ :=
    push_spec m l g cs ((cells_iff_seg m l cs).1 hcells) htail
  have h2b : Seg ({ m with nodes := ns2 } : Mem).nodes l2.head (cs ++ [(m.nodes.length, g)])
      none := h2
  refine ⟨l2, { m with nodes := ns2 }, h1, (cells_iff_seg _ _ _).2 h2b, ?_, h3, ?_, rfl, rfl⟩
  · rw [ghosts_of_seg h2b]; simp
  · intro e; rw [h6 e, h3]

theorem ghostlist_push_appends_witness :
    ∃ l2 m2, ghostlist_push ⟨some 0, some 1⟩ (some 3) two_entry_mem = some (l2, m2) ∧
      ghostlist_cells m2 l2 = some ([(0, 0), (1, 1)] ++ [(two_entry_mem.nodes.length, 3)]) ∧
      ghostlist_ghosts m2 l2 = some ([(0, 0), (1, 1)].map Prod.snd ++ [3]) ∧
      l2.tail = some two_entry_mem.nodes.length ∧
      ([(0, 0), (1, 1)] = ([] : List (Nat × Nat)) → l2.head = l2.tail) ∧
      m2.ghosts = two_entry_mem.ghosts ∧ m2.rooms = two_entry_mem.rooms :=
  ghostlist_push_appends two_entry_mem ⟨some 0, some 1⟩ 3 [(0, 0), (1, 1)]
    (by decide) (by decide)

/-! ## Rooms side by side -/

theorem load_mem {α : Type} {s : List (Option α)} {a : Nat} {v : α} (h : load s a = some v) :
    some v ∈ s := by
  simp only [load] at h
  split at h
  · rename_i w hw
    cases h
    exact List.getElem?_mem hw
  · cases h

theorem layout_of_fresh {m : Mem} (h : rooms_fresh m = true) : Layout m (fun _ => []) := by
  refine ⟨?_, ?_, ?_⟩
  · intro r rv hr
    have := List.all_eq_true.1 h _ (load_mem hr)
    simp only [Option.isNone_iff_eq_none] at this
    exact this
  · intro r rv _ c hc; cases hc
  · intro r1 r2 rv1 rv2 _ _ _ a ha; cases ha

theorem roomsWellFormed_of_fresh {m : Mem} (h : rooms_fresh m = true) : RoomsWellFormed m :=
  ⟨_, layout_of_fresh h⟩

theorem load_store_cases {α : Type} {s : List (Option α)} {a b : Nat} {v w u : α}
    (ha : load s a = some v) (hb : load (store s a w) b = some u) :
    (b = a ∧ u = w) ∨ (b ≠ a ∧ load s b = some u) := by
  by_cases e : b = a
  · subst e
    rw [load_store_same _ _ _ (load_lt ha)] at hb
    exact Or.inl ⟨rfl, (Option.some.inj hb).symm⟩
  · rw [load_store_other _ _ _ _ (Ne.symm e)] at hb
    exact Or.inr ⟨e, hb⟩

/-- The effect of `room_add_ghost` on well-formed rooms: the list of room `r` gets
the new cell, every other room keeps its cells, and the layout stays well
formed. -/
theorem layout_room_add_ghost (m : Mem) (cellsOf : Nat → List (Nat × Nat)) (r g : Nat)
    (x : CFloat) (rv : Room) (gv : Ghost)
    (hL : Layout m cellsOf) (hr : load m.rooms r = some rv) (hg : load m.ghosts g = some gv) :
    ∃ l2 ns2,
      room_add_ghost (some r) (some g) x m =
        some { m with
          ghosts := store m.ghosts g { gv with room := some r, likelihood := x }
          nodes := ns2
          rooms := store m.rooms r { rv with ghosts := l2 } } ∧
      Layout { m with
          ghosts := store m.ghosts g { gv with room := some r, likelihood := x }
          nodes := ns2
          rooms := store m.rooms r { rv with ghosts := l2 } }
        (Function.update cellsOf r
          (ins (lik (store m.ghosts g { gv with room := some r, likelihood := x })) x
            (m.nodes.length, g) (cellsOf r))) ∧
      ns2.length = m.nodes.length + 1 ∧
      (∀ a, a ∉ (cellsOf r).map Prod.fst → a ≠ m.nodes.length →
        load ns2 a = load m.nodes a) := by
  obtain ⟨l2, ns2, h1, h2, h3, h4, _⟩ :=
    room_add_ghost_spec m r g x rv gv (cellsOf r) hr hg (hL.seg r rv hr) (hL.live r rv hr)
  refine ⟨l2, ns2, h1, ⟨?_, ?_, ?_⟩, h3, h4⟩
  · intro r2 rv2 hr2
    rcases load_store_cases hr hr2 with ⟨rfl, rfl⟩ | ⟨hne, hr2⟩
    · simpa using h2
    · rw [Function.update_noteq hne]
      refine seg_congr _ _ _ ?_ (hL.seg r2 rv2 hr2)
      intro d hd
      apply h4
      · exact hL.disj r2 r rv2 rv hne hr2 hr _ (mem_fst_of_mem hd)
      · exact Nat.ne_of_lt (seg_lt (hL.seg r2 rv2 hr2) _ (mem_fst_of_mem hd))
  · intro r2 rv2 hr2 c hc
    rcases load_store_cases hr hr2 with ⟨rfl, rfl⟩ | ⟨hne, hr2⟩
    · rw [Function.update_same] at hc
      rcases (ins_mem _ _ _ _ _).1 hc with rfl | hc
      · exact ⟨_, load_store_same _ _ _ (load_lt hg)⟩
      · exact load_store_live hg (hL.live _ rv hr c hc)
    · rw [Function.update_noteq hne] at hc
      exact load_store_live hg (hL.live r2 rv2 hr2 c hc)
  · intro r1 r2 rv1 rv2 hne hr1 hr2 a ha
    have hnodes : ∀ b, b ∈ (ins (lik (store m.ghosts g
        { gv with room := some r, likelihood := x })) x (m.nodes.length, g)
        (cellsOf r)).map Prod.fst → b = m.nodes.length ∨ b ∈ (cellsOf r).map Prod.fst := by
      intro b hb
      obtain ⟨c, hc, rfl⟩ := List.mem_map.1 hb
      rcases (ins_mem _ _ _ _ _).1 hc with rfl | hc
      · exact Or.inl rfl
      · exact Or.inr (mem_fst_of_mem hc)
    rcases load_store_cases hr hr1 with ⟨rfl, rfl⟩ | ⟨hne1, k1⟩
    · rcases load_store_cases hr hr2 with ⟨e, _⟩ | ⟨hne2, k2⟩
      · exact absurd e.symm hne
      · rw [Function.update_same] at ha
        rw [Function.update_noteq hne2]
        rcases hnodes a ha with rfl | ha
        · exact fun hm => Nat.lt_irrefl _ (seg_lt (hL.seg r2 rv2 k2) _ hm)
        · exact hL.disj _ r2 rv rv2 hne hr k2 a ha
    · rw [Function.update_noteq hne1] at ha
      rcases load_store_cases hr hr2 with ⟨e, _⟩ | ⟨hne2, k2⟩
      · subst e
        rw [Function.update_same]
        intro hm
        rcases hnodes a hm with rfl | hm
        · exact Nat.lt_irrefl _ (seg_lt (hL.seg r1 rv1 k1) _ ha)
        · exact hL.disj r1 _ rv1 rv hne k1 hr a ha hm
      · rw [Function.update_noteq hne2]
        exact hL.disj r1 r2 rv1 rv2 hne k1 k2 a ha

/-! ## C12: the effect of one attach -/

theorem room_ghosts_eq {m : Mem} {r : Nat} {rv : Room} {cs : List (Nat × Nat)}
    (hr : load m.rooms r = some rv) (hs : Seg m.nodes rv.ghosts.head cs none) :
    room_ghosts m r = some (cs.map Prod.snd) := by
  simp only [room_ghosts, hr, ghosts_of_seg hs]

/-- C12: for every allocated room whose ghost list is well formed with allocated
ghosts, every allocated ghost and every likelihood `x`, `room_add_ghost`
succeeds; afterwards the ghost's likelihood is `x` and its room reference is
the room, its id and type are unchanged, the room's id and name are unchanged,
and the room's ghost list contains the ghost and is exactly one entry longer
than before. -/
theorem room_add_ghost_effect (m : Mem) (r g : Nat) (x : CFloat) (rv : Room) (gv : Ghost)
    (gs : List Nat)
    (hr : load m.rooms r = some rv) (hg : load m.ghosts g = some gv)
    (hgs : ghostlist_ghosts m rv.ghosts = some gs)
    (hlive : ∀ d ∈ gs, (load m.ghosts d).isSome = true) :
    ∃ m2 gv2 rv2 gs2, room_add_ghost (some r) (some g) x m = some m2 ∧
      load m2.ghosts g = some gv2 ∧ gv2.likelihood = x ∧ gv2.room = some r ∧
      gv2.id = gv.id ∧ gv2.type = gv.type ∧
      load m2.rooms r = some rv2 ∧ rv2.id = rv.id ∧ rv2.name = rv.name ∧
      room_ghosts m2 r = some gs2 ∧ g ∈ gs2 ∧ gs2.length = gs.length + 1 := by
  simp only [ghostlist_ghosts, Option.map_eq_some'] at hgs
  obtain ⟨cs, hcs, rfl⟩ := hgs
  have hseg := (cells_iff_seg m rv.ghosts cs).1 hcs
  have hl : ∀ d ∈ cs, ∃ dv, load m.ghosts d.2 = some dv := fun d hd =>
    Option.isSome_iff_exists.1 (hlive d.2 (List.mem_map.2 ⟨d, hd, rfl⟩))
  obtain ⟨l2, ns2, h1, h2, _, _, _⟩ := room_add_ghost_spec m r g x rv gv cs hr hg hseg hl
  refine ⟨_, { gv with room := some r, likelihood := x }, { rv with ghosts := l2 },
    (ins (lik (store m.ghosts g { gv with room := some r, likelihood := x })) x
      (m.nodes.length, g) cs).map Prod.snd, h1,
    load_store_same _ _ _ (load_lt hg), rfl, rfl, rfl, rfl,
    load_store_same _ _ _ (load_lt hr), rfl, rfl, ?_, ?_, ?_⟩
  · exact room_ghosts_eq (load_store_same _ _ _ (load_lt hr)) h2
  · exact List.mem_map.2 ⟨(m.nodes.length, g), (ins_mem _ _ _ _ _).2 (Or.inl rfl), rfl⟩
  · simp [ins_length]

theorem room_add_ghost_effect_witness :
    ∃ m2 gv2 rv2 gs2, room_add_ghost (some 0) (some 2) f50 sample_mem = some m2 ∧
      load m2.ghosts 2 = some gv2 ∧ gv2.likelihood = f50 ∧ gv2.room = some 0 ∧
      gv2.id = (Ghost.mk 1033 "C" CFloat.zero none).id ∧
      gv2.type = (Ghost.mk 1033 "C" CFloat.zero none).type ∧
      load m2.rooms 0 = some rv2 ∧ rv2.id = (Room.mk 1 "Bedroom" ⟨none, none⟩).id ∧
      rv2.name = (Room.mk 1 "Bedroom" ⟨none, none⟩).name ∧
      room_ghosts m2 0 = some gs2 ∧ 2 ∈ gs2 ∧ gs2.length = ([] : List Nat).length + 1 :=
  room_add_ghost_effect sample_mem 0 2 f50 ⟨1, "Bedroom", ⟨none, none⟩⟩
    ⟨1033, "C", CFloat.zero, none⟩ [] (by decide) (by decide) (by decide) (by decide)

/-! ## C17: absent arguments -/

/-- C17: `room_add_ghost` with an absent room or an absent ghost,
`ghostlist_push` and `ghostlist_insert_by_likelihood` with an absent ghost, and
`roomarray_add` with an absent room change nothing: the memory (hence every
ghost's likelihood and room reference), the list and the array come back as
they were. -/
theorem absent_argument_noop (m : Mem) (l : GhostList) (a : RoomArray) (room ghost : Option Nat)
    (x : CFloat) :
    room_add_ghost none ghost x m = some m ∧
    room_add_ghost room none x m = some m ∧
    ghostlist_push l none m = some (l, m) ∧
    ghostlist_insert_by_likelihood l none m = some (l, m) ∧
    roomarray_add a none = some a := by
  refine ⟨rfl, ?_, rfl, rfl, rfl⟩
  cases room <;> rfl

/-! ## C20: insertion keeps the other entries -/

/-- C20: for every well-formed list (sorted or not) with allocated ghosts and
every allocated ghost, `ghostlist_insert_by_likelihood` succeeds and the new
sequence of cells is the old one with one new cell put in: the old cells are
`pre ++ post`, the new ones `pre ++ new :: post`, where the new cell's node is
freshly allocated (it is none of the old nodes). No old entry is dropped,
duplicated or reordered, and every old node still holds its ghost. -/
theorem insert_keeps_entries (m : Mem) (l : GhostList) (g : Nat) (gv : Ghost)
    (cs : List (Nat × Nat))
    (hcs : ghostlist_cells m l = some cs)
    (hlive : ∀ d ∈ cs, (load m.ghosts d.2).isSome = true)
    (hg : load m.ghosts g = some gv) :
    ∃ l2 m2 pre post, ghostlist_insert_by_likelihood l (some g) m = some (l2, m2) ∧
      cs = pre ++ post ∧
      ghostlist_cells m2 l2 = some (pre ++ (m.nodes.length, g) :: post) ∧
      ghostlist_ghosts m2 l2 = some (pre.map Prod.snd ++ g :: post.map Prod.snd) ∧
      m.nodes.length ∉ cs.map Prod.fst ∧
      (pre ++ (m.nodes.length, g) :: post).length = cs.length + 1 := by
  have hseg := (cells_iff_seg m l cs).1 hcs
  have hl : ∀ d ∈ cs, ∃ dv, load m.ghosts d.2 = some dv := fun d hd =>
    Option.isSome_iff_exists.1 (hlive d hd)
  obtain ⟨l2, ns2, h1, h2, _, _, _⟩ := insert_spec m l g gv cs hseg hl hg
  obtain ⟨pre, post, k1, k2, _⟩ := ins_split (lik m.ghosts) gv.likelihood (m.nodes.length, g) cs
  rw [k2] at h2
  have h2b : Seg ({ m with nodes := ns2 } : Mem).nodes l2.head
      (pre ++ (m.nodes.length, g) :: post) none := h2
  refine ⟨l2, { m with nodes := ns2 }, pre, post, h1, k1, (cells_iff_seg _ _ _).2 h2b, ?_, ?_, ?_⟩
  · rw [ghosts_of_seg h2b]; simp
  · exact fun hm => Nat.lt_irrefl _ (seg_lt hseg _ hm)
  · rw [k1]; simp; omega

theorem insert_keeps_entries_witness :
    ∃ l2 m2 pre post,
      ghostlist_insert_by_likelihood ⟨some 0, some 1⟩ (some 3) two_entry_mem = some (l2, m2) ∧
      [(0, 0), (1, 1)] = pre ++ post ∧
      ghostlist_cells m2 l2 = some (pre ++ (two_entry_mem.nodes.length, 3) :: post) ∧
      ghostlist_ghosts m2 l2 = some (pre.map Prod.snd ++ 3 :: post.map Prod.snd) ∧
      two_entry_mem.nodes.length ∉ [(0, 0), (1, 1)].map Prod.fst ∧
      (pre ++ (two_entry_mem.nodes.length, 3) :: post).length =
        [(0, 0), (1, 1)].length + 1 :=
  insert_keeps_entries two_entry_mem ⟨some 0, some 1⟩ 3 ⟨1034, "D", f10, none⟩
    [(0, 0), (1, 1)] (by decide) (by decide) (by decide)

/-! ## C14, C15: `ghost_create` -/

theorem wrap32_id {x : Int} (h1 : -2147483648 ≤ x) (h2 : x < 2147483648) : wrap32 x = x := by
  unfold wrap32
  omega

theorem wrap32_lower (x : Int) : -2147483648 ≤ wrap32 x := by
  unfold wrap32
  omega

theorem ghost_create_eq (type : String) (m : Mem) (h : type.utf8ByteSize < MAX_STR) :
    ghost_create type m = some (m.ghosts.length,
      { m with
        ghosts := m.ghosts ++
          [some { id := m.next_id, type := type, likelihood := CFloat.zero, room := none }]
        next_id := wrap32 (m.next_id + 1) }) := by
  simp only [ghost_create, h, if_true]

/-- C15: for every label that fits `type[MAX_STR]` with its terminator (fewer
than 32 bytes), `ghost_create` succeeds and returns a newly allocated ghost
whose type is the label, whose likelihood is `0.0`, whose room reference is
`NULL` and whose id is the counter's value. Nothing else in memory changes
(other ghosts, nodes, rooms, the record of releases) except that the counter
advances by one (in 32-bit arithmetic; by exactly one below `INT_MAX`). -/
theorem ghost_create_effect (type : String) (m : Mem) (h : type.utf8ByteSize < MAX_STR) :
    ∃ g m2 gv, ghost_create type m = some (g, m2) ∧
      load m.ghosts g = none ∧
      load m2.ghosts g = some gv ∧
      gv.type = type ∧ gv.likelihood = CFloat.zero ∧ gv.room = none ∧ gv.id = m.next_id ∧
      (∀ a, a ≠ g → load m2.ghosts a = load m.ghosts a) ∧
      m2.nodes = m.nodes ∧ m2.rooms = m.rooms ∧ m2.trace = m.trace ∧
      m2.next_id = wrap32 (m.next_id + 1) ∧
      (-2147483648 ≤ m.next_id → m.next_id < INT_MAX → m2.next_id = m.next_id + 1) := by
  refine ⟨_, _, _, ghost_create_eq type m h, load_ge _ _ (Nat.le_refl _),
    load_append_length _ _, rfl, rfl, rfl, rfl, ?_, rfl, rfl, rfl, rfl, ?_⟩
  · intro a ha; exact load_append_ne _ _ _ ha
  · intro h1 h2
    exact wrap32_id (by omega) (by unfold INT_MAX at h2; omega)

theorem ghost_create_effect_witness :
    ∃ g m2 gv, ghost_create "Wraith" sample_mem = some (g, m2) ∧
      load sample_mem.ghosts g = none ∧
      load m2.ghosts g = some gv ∧
      gv.type = "Wraith" ∧ gv.likelihood = CFloat.zero ∧ gv.room = none ∧
      gv.id = sample_mem.next_id ∧
      (∀ a, a ≠ g → load m2.ghosts a = load sample_mem.ghosts a) ∧
      m2.nodes = sample_mem.nodes ∧ m2.rooms = sample_mem.rooms ∧
      m2.trace = sample_mem.trace ∧
      m2.next_id = wrap32 (sample_mem.next_id + 1) ∧
      (-2147483648 ≤ sample_mem.next_id → sample_mem.next_id < INT_MAX →
        m2.next_id = sample_mem.next_id + 1) :=
  ghost_create_effect "Wraith" sample_mem (by decide)

theorem ghost_creates_spec :
    ∀ (ts : List String) (m : Mem), (∀ t ∈ ts, t.utf8ByteSize < MAX_STR) →
      -2147483648 ≤ m.next_id → m.next_id + (ts.length : Int) ≤ 2147483648 →
      ∃ gs m2, ghost_creates ts m = some (gs, m2) ∧ gs.length = ts.length ∧
        (∀ a v, load m.ghosts a = some v → load m2.ghosts a = some v) ∧
        (∀ (k g : Nat), gs[k]? = some g →
          ∃ gv, load m2.ghosts g = some gv ∧ gv.id = m.next_id + (k : Int))
  | [], m, _, _, _ => ⟨[], m, rfl, rfl, fun _ _ h => h, fun k g h => by simp at h⟩
  | t :: ts, m, hfit, hlo, hhi => by
    have hc := ghost_create_eq t m (hfit t (List.mem_cons_self _ _))
    have hfit2 : ∀ u ∈ ts, u.utf8ByteSize < MAX_STR :=
      fun u hu => hfit u (List.mem_cons_of_mem _ hu)
    obtain ⟨m1, hm1⟩ : ∃ m1 : Mem, m1 = { m with
        ghosts := m.ghosts ++
          [some { id := m.next_id, type := t, likelihood := CFloat.zero, room := none }]
        next_id := wrap32 (m.next_id + 1) } := ⟨_, rfl⟩
    rw [← hm1] at hc
    have hg1 : ∀ a v, load m.ghosts a = some v → load m1.ghosts a = some v := by
      intro a v h; rw [hm1]; exact load_append_of_some _ h
    have hnew1 : ∃ gv, load m1.ghosts m.ghosts.length = some gv ∧ gv.id = m.next_id := by
      rw [hm1]; exact ⟨_, load_append_length _ _, rfl⟩
    have hid1 : m1.next_id = wrap32 (m.next_id + 1) := by rw [hm1]
    simp only [List.length_cons, Nat.cast_add, Nat.cast_one] at hhi
    have hlo1 : -2147483648 ≤ m1.next_id := by rw [hid1]; exact wrap32_lower _
    have hhi1 : m1.next_id + (ts.length : Int) ≤ 2147483648 := by
      cases ts with
      | nil =>
        rw [hid1]; unfold wrap32; simp only [List.length_nil, Nat.cast_zero]; omega
      | cons u us =>
        simp only [List.length_cons, Nat.cast_add, Nat.cast_one] at hhi ⊢
        rw [hid1, wrap32_id (by omega) (by omega)]; omega
    obtain ⟨gs, m2, k1, k2, k3, k4⟩ := ghost_creates_spec ts m1 hfit2 hlo1 hhi1
    refine ⟨m.ghosts.length :: gs, m2, ?_, by simp [k2], ?_, ?_⟩
    · simp only [ghost_creates, hc, k1]
    · intro a v h; exact k3 _ _ (hg1 _ _ h)
    · intro k g hk
      cases k with
      | zero =>
        simp only [List.getElem?_cons_zero, Option.some.injEq] at hk
        subst hk
        obtain ⟨gv, a1, a2⟩ := hnew1
        exact ⟨gv, k3 _ _ a1, by simpa using a2⟩
      | succ k =>
        simp only [List.getElem?_cons_succ] at hk
        obtain ⟨gv, h1, h2⟩ := k4 k g hk
        refine ⟨gv, h1, ?_⟩
        rw [h2, hid1]
        have hklt : k < ts.length := by
          rw [← k2]
          exact (List.getElem?_eq_some_iff.1 hk).1
        rw [wrap32_id (by omega) (by omega)]
        push_cast; omega

/-- C14: with the counter of `ghost_create` as explicit state, for every run of
`ghost_create` calls with fitting labels that stays below integer overflow
(every id handed out is at most `INT_MAX`), the `k`-th ghost created (`k` from
0) has id `counter + k`: a ghost created immediately after another has that
ghost's id plus one, the ids are pairwise distinct, and starting from the
counter's initial value 1031 (`GHOST_INITIAL_ID`) the `k`-th id is
`1031 + k`. -/
theorem ghost_create_ids (m : Mem) (ts : List String)
    (hfit : ∀ t ∈ ts, t.utf8ByteSize < MAX_STR)
    (hlo : -2147483648 ≤ m.next_id) (hhi : m.next_id + (ts.length : Int) ≤ INT_MAX + 1) :
    ∃ gs m2, ghost_creates ts m = some (gs, m2) ∧ gs.length = ts.length ∧
      (∀ (k g : Nat), gs[k]? = some g →
        ∃ gv, load m2.ghosts g = some gv ∧ gv.id = m.next_id + (k : Int)) ∧
      (∀ (k g1 g2 : Nat), gs[k]? = some g1 → gs[k + 1]? = some g2 →
        ∃ gv1 gv2, load m2.ghosts g1 = some gv1 ∧ load m2.ghosts g2 = some gv2 ∧
          gv2.id = gv1.id + 1) ∧
      (∀ (j k g1 g2 : Nat), j ≠ k → gs[j]? = some g1 → gs[k]? = some g2 →
        ∃ gv1 gv2, load m2.ghosts g1 = some gv1 ∧ load m2.ghosts g2 = some gv2 ∧
          gv1.id ≠ gv2.id) ∧
      (m.next_id = GHOST_INITIAL_ID →
        ∀ (k g : Nat), gs[k]? = some g →
          ∃ gv, load m2.ghosts g = some gv ∧ gv.id = 1031 + (k : Int)) := by
  obtain ⟨gs, m2, h1, h2, _, h4⟩ := ghost_creates_spec ts m hfit hlo
    (by unfold INT_MAX at hhi; omega)
  refine ⟨gs, m2, h1, h2, h4, ?_, ?_, ?_⟩
  · intro k g1 g2 hk1 hk2
    obtain ⟨gv1, a1, a2⟩ := h4 k g1 hk1
    obtain ⟨gv2, b1, b2⟩ := h4 (k + 1) g2 hk2
    exact ⟨gv1, gv2, a1, b1, by rw [a2, b2]; push_cast; omega⟩
  · intro j k g1 g2 hjk hj hk
    obtain ⟨gv1, a1, a2⟩ := h4 j g1 hj
    obtain ⟨gv2, b1, b2⟩ := h4 k g2 hk
    exact ⟨gv1, gv2, a1, b1, by rw [a2, b2]; omega⟩
  · intro hc k g hk
    obtain ⟨gv, a1, a2⟩ := h4 k g hk
    exact ⟨gv, a1, by rw [a2, hc]; rfl⟩

theorem ghost_create_ids_witness :
    ∃ gs m2, ghost_creates ["TestSpirit", "AnotherSpirit"] initial_mem = some (gs, m2) ∧
      gs.length = ["TestSpirit", "AnotherSpirit"].length ∧
      (∀ (k g : Nat), gs[k]? = some g →
        ∃ gv, load m2.ghosts g = some gv ∧ gv.id = initial_mem.next_id + (k : Int)) ∧
      (∀ (k g1 g2 : Nat), gs[k]? = some g1 → gs[k + 1]? = some g2 →
        ∃ gv1 gv2, load m2.ghosts g1 = some gv1 ∧ load m2.ghosts g2 = some gv2 ∧
          gv2.id = gv1.id + 1) ∧
      (∀ (j k g1 g2 : Nat), j ≠ k → gs[j]? = some g1 → gs[k]? = some g2 →
        ∃ gv1 gv2, load m2.ghosts g1 = some gv1 ∧ load m2.ghosts g2 = some gv2 ∧
          gv1.id ≠ gv2.id) ∧
      (initial_mem.next_id = GHOST_INITIAL_ID →
        ∀ (k g : Nat), gs[k]? = some g →
          ∃ gv, load m2.ghosts g = some gv ∧ gv.id = 1031 + (k : Int)) :=
  ghost_create_ids initial_mem ["TestSpirit", "AnotherSpirit"] (by decide) (by decide)
    (by decide)

/-! ## C11: one room per ghost -/

theorem room_add_ghost_calls_inv :
    ∀ (calls : List (Option Nat × Option Nat × CFloat)) (m : Mem)
      (cellsOf : Nat → List (Nat × Nat)),
      Layout m cellsOf →
      (∀ r rv, load m.rooms r = some rv → ∀ c ∈ cellsOf r,
        ∃ gv, load m.ghosts c.2 = some gv ∧ gv.room = some r) →
      (∀ c ∈ calls, ∀ r, c.1 = some r → (load m.rooms r).isSome = true) →
      (∀ g ∈ calls.filterMap (fun c => c.2.1), (load m.ghosts g).isSome = true) →
      (calls.filterMap (fun c => c.2.1)).Nodup →
      (∀ g ∈ calls.filterMap (fun c => c.2.1), ∀ r rv, load m.rooms r = some rv →
        g ∉ (cellsOf r).map Prod.snd) →
      ∃ m2 cellsOf2, room_add_ghost_calls calls m = some m2 ∧ Layout m2 cellsOf2 ∧
        (∀ r rv, load m2.rooms r = some rv → ∀ c ∈ cellsOf2 r,
          ∃ gv, load m2.ghosts c.2 = some gv ∧ gv.room = some r)
  | [], m, cellsOf, hL, hR, _, _, _, _ => ⟨m, cellsOf, rfl, hL, hR⟩
  | (room, ghost, x) :: calls, m, cellsOf, hL, hR, hrooms, hlive, hnd, hfresh => by
    have hrooms2 : ∀ c ∈ calls, ∀ r, c.1 = some r → (load m.rooms r).isSome = true :=
      fun c hc => hrooms c (List.mem_cons_of_mem _ hc)
    cases ghost with
    | none =>
      have e : room_add_ghost room none x m = some m := by cases room <;> rfl
      obtain ⟨m2, c2, k1, k2, k3⟩ := room_add_ghost_calls_inv calls m cellsOf hL hR hrooms2
        (by simpa using hlive) (by simpa using hnd) (by simpa using hfresh)
      exact ⟨m2, c2, by simp only [room_add_ghost_calls, e]; exact k1, k2, k3⟩
    | some g =>
      have hfm : ((room, some g, x) :: calls).filterMap (fun c => c.2.1) =
          g :: calls.filterMap (fun c => c.2.1) := by simp [List.filterMap_cons]
      rw [hfm] at hlive hnd hfresh
      obtain ⟨hnd1, hnd2⟩ := List.nodup_cons.1 hnd
      cases room with
      | none =>
        obtain ⟨m2, c2, k1, k2, k3⟩ := room_add_ghost_calls_inv calls m cellsOf hL hR hrooms2
          (fun d hd => hlive d (List.mem_cons_of_mem _ hd)) hnd2
          (fun d hd => hfresh d (List.mem_cons_of_mem _ hd))
        exact ⟨m2, c2, by simp only [room_add_ghost_calls, room_add_ghost]; exact k1, k2, k3⟩
      | some r =>
        obtain ⟨rv, hr⟩ := Option.isSome_iff_exists.1
          (hrooms _ (List.mem_cons_self _ _) r rfl)
        obtain ⟨gv, hg⟩ := Option.isSome_iff_exists.1 (hlive g (List.mem_cons_self _ _))
        obtain ⟨l2, ns2, h1, h2, _, _⟩ := layout_room_add_ghost m cellsOf r g x rv gv hL hr hg
        have hgfresh : ∀ r2 rv2, load m.rooms r2 = some rv2 → ∀ c ∈ cellsOf r2, g ≠ c.2 := by
          intro r2 rv2 hr2 c hc e
          exact hfresh g (List.mem_cons_self _ _) r2 rv2 hr2 (List.mem_map.2 ⟨c, hc, e.symm⟩)
        obtain ⟨m2, c2, k1, k2, k3⟩ := room_add_ghost_calls_inv calls
          { m with
            ghosts := store m.ghosts g { gv with room := some r, likelihood := x }
            nodes := ns2
            rooms := store m.rooms r { rv with ghosts := l2 } }
          (Function.update cellsOf r
            (ins (lik (store m.ghosts g { gv with room := some r, likelihood := x })) x
              (m.nodes.length, g) (cellsOf r))) h2
          (by
            intro r2 rv2 hr2 c hc
            rcases load_store_cases hr hr2 with ⟨e, _⟩ | ⟨hne, k⟩
            · subst e
              rw [Function.update_same] at hc
              rcases (ins_mem _ _ _ _ _).1 hc with rfl | hc
              · exact ⟨_, load_store_same _ _ _ (load_lt hg), rfl⟩
              · obtain ⟨cv, a1, a2⟩ := hR _ rv hr c hc
                refine ⟨cv, ?_, a2⟩
                show load (store m.ghosts g _) c.2 = some cv
                rw [load_store_other _ _ _ _ (hgfresh _ rv hr c hc)]; exact a1
            · rw [Function.update_noteq hne] at hc
              obtain ⟨cv, a1, a2⟩ := hR r2 rv2 k c hc
              refine ⟨cv, ?_, a2⟩
              show load (store m.ghosts g _) c.2 = some cv
              rw [load_store_other _ _ _ _ (hgfresh r2 rv2 k c hc)]; exact a1)
          (by
            intro c hc r2 hr2
            obtain ⟨rv2, k⟩ := Option.isSome_iff_exists.1 (hrooms2 c hc r2 hr2)
            exact Option.isSome_iff_exists.2 (load_store_live hr ⟨rv2, k⟩))
          (fun d hd => Option.isSome_iff_exists.2
            (load_store_live hg (Option.isSome_iff_exists.1
              (hlive d (List.mem_cons_of_mem _ hd)))))
          hnd2
          (by
            intro d hd r2 rv2 hr2 hmem
            obtain ⟨c, hc, hcd⟩ := List.mem_map.1 hmem
            rcases load_store_cases hr hr2 with ⟨e, _⟩ | ⟨hne, k⟩
            · subst e
              rw [Function.update_same] at hc
              rcases (ins_mem _ _ _ _ _).1 hc with rfl | hc
              · exact hnd1 (by rw [← hcd] at hd; exact hd)
              · exact hfresh d (List.mem_cons_of_mem _ hd) _ rv hr
                  (List.mem_map.2 ⟨c, hc, hcd⟩)
            · rw [Function.update_noteq hne] at hc
              exact hfresh d (List.mem_cons_of_mem _ hd) r2 rv2 k
                (List.mem_map.2 ⟨c, hc, hcd⟩))
        exact ⟨m2, c2, by simp only [room_add_ghost_calls, h1]; exact k1, k2, k3⟩

/-- C11 (as stated, refuted): attaching ghost `A` to the first room and then to
the second room leaves it in the ghost lists of both rooms: `room_add_ghost`
never takes a ghost out of the list it is in. -/
theorem room_add_ghost_two_rooms_share_ghost :
    (room_add_ghost_calls [(some 0, some 0, f50), (some 1, some 0, f90)] two_room_mem).bind
        (fun m => room_ghosts m 0) = some [0] ∧
    (room_add_ghost_calls [(some 0, some 0, f50), (some 1, some 0, f90)] two_room_mem).bind
        (fun m => room_ghosts m 1) = some [0] := by
  decide

/-- C11 (amended): for every sequence of `room_add_ghost` calls over any
allocated rooms (or `NULL`) in which no ghost is passed twice, starting with
every room's ghost list empty, every call succeeds and afterwards each ghost is
referenced by at most one room's ghost list, namely the list of the room its
`room` field designates. -/
theorem room_add_ghost_one_room_per_ghost (m : Mem)
    (calls : List (Option Nat × Option Nat × CFloat))
    (hfresh : rooms_fresh m = true)
    (hrooms : ∀ c ∈ calls, ∀ r, c.1 = some r → (load m.rooms r).isSome = true)
    (hlive : ∀ g ∈ calls.filterMap (fun c => c.2.1), (load m.ghosts g).isSome = true)
    (hdistinct : (calls.filterMap (fun c => c.2.1)).Nodup) :
    ∃ m2, room_add_ghost_calls calls m = some m2 ∧
      (∀ r gs g, room_ghosts m2 r = some gs → g ∈ gs →
        ∃ gv, load m2.ghosts g = some gv ∧ gv.room = some r) ∧
      (∀ r1 r2 gs1 gs2 g, room_ghosts m2 r1 = some gs1 → room_ghosts m2 r2 = some gs2 →
        g ∈ gs1 → g ∈ gs2 → r1 = r2) := by
  obtain ⟨m2, c2, k1, k2, k3⟩ := room_add_ghost_calls_inv calls m (fun _ => [])
    (layout_of_fresh hfresh) (fun _ _ _ c hc => by cases hc) hrooms hlive hdistinct
    (fun _ _ _ _ _ h => by cases h)
  have key : ∀ r gs g, room_ghosts m2 r = some gs → g ∈ gs →
      ∃ gv, load m2.ghosts g = some gv ∧ gv.room = some r := by
    intro r gs g hgs hg
    cases hr : load m2.rooms r with
    | none => simp [room_ghosts, hr] at hgs
    | some rv =>
      rw [room_ghosts_eq hr (k2.seg r rv hr)] at hgs
      cases hgs
      obtain ⟨c, hc, rfl⟩ := List.mem_map.1 hg
      exact k3 r rv hr c hc
  refine ⟨m2, k1, key, ?_⟩
  intro r1 r2 gs1 gs2 g h1 h2 hg1 hg2
  obtain ⟨gv1, a1, a2⟩ := key r1 gs1 g h1 hg1
  obtain ⟨gv2, b1, b2⟩ := key r2 gs2 g h2 hg2
  rw [a1] at b1
  cases b1
  rw [a2] at b2
  exact Option.some.inj b2

theorem room_add_ghost_one_room_per_ghost_witness :
    ∃ m2, room_add_ghost_calls [(some 0, some 0, f50), (some 1, some 1, f90)] two_room_mem =
        some m2 ∧
      (∀ r gs g, room_ghosts m2 r = some gs → g ∈ gs →
        ∃ gv, load m2.ghosts g = some gv ∧ gv.room = some r) ∧
      (∀ r1 r2 gs1 gs2 g, room_ghosts m2 r1 = some gs1 → room_ghosts m2 r2 = some gs2 →
        g ∈ gs1 → g ∈ gs2 → r1 = r2) :=
  room_add_ghost_one_room_per_ghost two_room_mem
    [(some 0, some 0, f50), (some 1, some 1, f90)] (by decide) (by decide) (by decide)
    (by decide)

/-! ## C19: the attach sequence as a stable descending sort -/

theorem CFloat.ge_of_feq {a b : CFloat} (h : a.feq b = true) : a.ge b = true := by
  simp only [CFloat.ge, CFloat.feq, Bool.and_eq_true, decide_eq_true_eq] at *
  exact ⟨h.1, by omega⟩

theorem CFloat.gt_or_feq_of_ge {a b : CFloat} (h : a.ge b = true) :
    a.gt b = true ∨ a.feq b = true := by
  simp only [CFloat.ge, CFloat.gt, CFloat.feq, Bool.and_eq_true, decide_eq_true_eq] at *
  rcases lt_or_eq_of_le h.2 with h2 | h2
  · exact Or.inl ⟨h.1, h2⟩
  · exact Or.inr ⟨h.1, h2.symm⟩

theorem insPairTail_split (p : Nat × CFloat) :
    ∀ t : List (Nat × CFloat), ∃ pre post, t = pre ++ post ∧
      insPairTail p t = pre ++ p :: post ∧
      (∀ a ∈ pre, a.2.gt p.2 = true) ∧ (∀ b ∈ post.head?, b.2.gt p.2 = false)
  | [] => ⟨[], [], rfl, rfl, by simp, by simp⟩
  | n :: t => by
    cases hgt : n.2.gt p.2
    · exact ⟨[], n :: t, rfl, by simp [insPairTail, hgt], by simp, by simp [hgt]⟩
    · obtain ⟨pre, post, h1, h2, h3, h4⟩ := insPairTail_split p t
      refine ⟨n :: pre, post, by simp [h1], by simp [insPairTail, hgt, h2], ?_, h4⟩
      intro d hd
      rcases List.mem_cons.1 hd with rfl | hd
      · exact hgt
      · exact h3 d hd

theorem insPair_split_sorted (p : Nat × CFloat) (acc : List (Nat × CFloat))
    (hn : ∀ a ∈ acc, a.2.isNaN = false) (hp : p.2.isNaN = false)
    (hs : List.Pairwise (fun a b : Nat × CFloat => a.2.ge b.2 = true) acc) :
    ∃ pre post, acc = pre ++ post ∧ insPair p acc = pre ++ p :: post ∧
      (∀ a ∈ pre, a.2.gt p.2 = true) ∧ (∀ b ∈ post, p.2.ge b.2 = true) := by
  have tailAll : ∀ (post : List (Nat × CFloat)), (∀ b ∈ post.head?, p.2.ge b.2 = true) →
      List.Pairwise (fun a b : Nat × CFloat => a.2.ge b.2 = true) post →
      ∀ b ∈ post, p.2.ge b.2 = true := by
    intro post hh hpw b hb
    cases post with
    | nil => cases hb
    | cons q qs =>
      have hq := hh q (by simp)
      rcases List.mem_cons.1 hb with rfl | hb
      · exact hq
      · exact CFloat.ge_trans hq ((List.pairwise_cons.1 hpw).1 b hb)
  cases acc with
  | nil => exact ⟨[], [], rfl, rfl, by simp, by simp⟩
  | cons h t =>
    cases hge : p.2.ge h.2
    · obtain ⟨pre, post, h1, h2, h3, h4⟩ := insPairTail_split p t
      refine ⟨h :: pre, post, by simp [h1], by simp [insPair, hge, h2], ?_, ?_⟩
      · intro a ha
        rcases List.mem_cons.1 ha with rfl | ha
        · exact CFloat.gt_of_ge_false hp (hn a (List.mem_cons_self _ _)) hge
        · exact h3 a ha
      · apply tailAll post
        · intro b hb
          have hbm : b ∈ h :: t := by
            rw [h1]
            exact List.mem_cons_of_mem _
              (List.mem_append_right _ (List.mem_of_mem_head? hb))
          exact CFloat.ge_of_gt_false hp (hn b hbm) (h4 b hb)
        · rw [h1] at hs
          exact (List.pairwise_append.1 (List.pairwise_cons.1 hs).2).2.1
    · refine ⟨[], h :: t, rfl, by simp [insPair, hge], by simp, ?_⟩
      exact tailAll (h :: t) (by simp [hge]) hs

theorem laterFirst_mono {ps qs : List (Nat × CFloat)} {p q : Nat × CFloat}
    (h : LaterFirst ps p q) : LaterFirst (ps ++ qs) p q := by
  rcases h with h | ⟨h1, h2⟩
  · exact Or.inl h
  · exact Or.inr ⟨h1, h2.trans (List.sublist_append_left _ _)⟩

theorem laterFirst_ge {ps : List (Nat × CFloat)} {p q : Nat × CFloat}
    (h : LaterFirst ps p q) : p.2.ge q.2 = true := by
  rcases h with h | ⟨h1, _⟩
  · exact CFloat.ge_of_gt h
  · exact CFloat.ge_of_feq h1

theorem insPair_fold_sorted :
    ∀ (ps done acc : List (Nat × CFloat)),
      acc.Perm done → acc.Pairwise (LaterFirst done) →
      (∀ a ∈ done ++ ps, a.2.isNaN = false) →
      (ps.foldl (fun acc p => insPair p acc) acc).Perm (done ++ ps) ∧
        (ps.foldl (fun acc p => insPair p acc) acc).Pairwise (LaterFirst (done ++ ps))
  | [], done, acc, hperm, hpw, _ => by
    simp only [List.foldl_nil, List.append_nil]
    exact ⟨hperm, hpw⟩
  | p :: ps, done, acc, hperm, hpw, hn => by
    have hnacc : ∀ a ∈ acc, a.2.isNaN = false :=
      fun a ha => hn a (List.mem_append_left _ (hperm.subset ha))
    have hnp : p.2.isNaN = false :=
      hn p (List.mem_append_right _ (List.mem_cons_self _ _))
    obtain ⟨pre, post, k1, k2, k3, k4⟩ := insPair_split_sorted p acc hnacc hnp
      (hpw.imp (fun h => laterFirst_ge h))
    have hperm2 : (insPair p acc).Perm (done ++ [p]) := by
      rw [k2]
      refine (List.perm_middle).trans ?_
      refine List.Perm.trans ?_ (List.perm_append_singleton p done).symm
      rw [← k1]
      exact List.Perm.cons p hperm
    have hpw2 : (insPair p acc).Pairwise (LaterFirst (done ++ [p])) := by
      rw [k2]
      rw [k1] at hpw
      obtain ⟨a1, a2, a3⟩ := List.pairwise_append.1 hpw
      refine List.pairwise_append.2 ⟨a1.imp (fun h => laterFirst_mono h), ?_, ?_⟩
      · refine List.pairwise_cons.2 ⟨?_, a2.imp (fun h => laterFirst_mono h)⟩
        intro b hb
        rcases CFloat.gt_or_feq_of_ge (k4 b hb) with h | h
        · exact Or.inl h
        · refine Or.inr ⟨h, ?_⟩
          have hbd : b ∈ done := hperm.subset (by rw [k1]; exact List.mem_append_right _ hb)
          exact List.Sublist.append (List.singleton_sublist.2 hbd) (List.Sublist.refl [p])
      · intro a ha b hb
        rcases List.mem_cons.1 hb with rfl | hb
        · exact Or.inl (k3 a ha)
        · exact laterFirst_mono (a3 a ha b hb)
    have := insPair_fold_sorted ps (done ++ [p]) (insPair p acc) hperm2 hpw2
      (by simpa [List.append_assoc] using hn)
    simpa [List.append_assoc] using this

theorem zip_pairsOf (gs : List (Option Ghost)) (cs : List (Nat × Nat)) :
    ((pairsOf gs cs).map Prod.fst).zip ((pairsOf gs cs).map Prod.snd) = pairsOf gs cs :=
  (List.zip_of_prod rfl rfl).symm

/-- C19 (as stated, refuted): attaching four distinct ghosts with likelihoods
90.0, 10.0, NaN and 5.0, in that order, leaves the room's list reading
90.0, 5.0, NaN, 10.0: the list is not in descending order, the entry with 5.0
stands before the entry with 10.0. -/
theorem room_add_ghosts_nan_not_sorted :
    (room_add_ghosts (some 0) [(some 0, f90), (some 1, f10), (some 2, fNaN), (some 3, f5)]
        sample_mem).bind (fun m => room_likelihoods m 0) = some [f90, f5, fNaN, f10] ∧
      (room_add_ghosts (some 0) [(some 0, f90), (some 1, f10), (some 2, fNaN), (some 3, f5)]
        sample_mem).bind (fun m => room_ghosts m 0) = some [0, 3, 2, 1] ∧
      ¬ Descending [f90, f5, fNaN, f10] ∧ f10.gt f5 = true := by
  decide

/-- C19 (amended): for every sequence of pairwise distinct allocated ghosts
attached with `room_add_ghost` to an allocated room with an empty ghost list,
with likelihoods none of which is NaN, every call succeeds and the room's final
list, read as `(ghost, likelihood)` pairs, is a permutation of the attached
pairs in which every entry stands before another only if its likelihood is
greater, or equal with the entry attached later standing first. -/
theorem room_add_ghosts_stable_sort (m : Mem) (r : Nat) (rv : Room)
    (calls : List (Option Nat × CFloat))
    (hr : load m.rooms r = some rv) (hempty : rv.ghosts.head = none)
    (hlive : ∀ g ∈ calls.filterMap Prod.fst, (load m.ghosts g).isSome = true)
    (hdistinct : (calls.filterMap Prod.fst).Nodup)
    (hnan : ∀ c ∈ calls, c.2.isNaN = false) :
    ∃ m2 gs vs, room_add_ghosts (some r) calls m = some m2 ∧
      room_ghosts m2 r = some gs ∧ room_likelihoods m2 r = some vs ∧
      (gs.zip vs).Perm (attach_pairs calls) ∧
      (gs.zip vs).Pairwise (LaterFirst (attach_pairs calls)) := by
  obtain ⟨m2, rv2, cs2, h1, h2, h3, h4, _, _, _, h8⟩ :=
    room_add_ghosts_sorted r calls m rv [] hr hempty (by simp)
      (fun g hg => Option.isSome_iff_exists.1 (hlive g hg)) hdistinct (by simp)
      (by simp [NeverIncreasing, isNeverIncreasing])
  have hn : ∀ a ∈ ([] : List (Nat × CFloat)) ++ attach_pairs calls, a.2.isNaN = false := by
    intro a ha
    simp only [List.nil_append, attach_pairs, List.mem_filterMap, Option.map_eq_some'] at ha
    obtain ⟨c, hc, g, _, rfl⟩ := ha
    exact hnan c hc
  obtain ⟨k1, k2⟩ := insPair_fold_sorted (attach_pairs calls) [] [] (List.Perm.refl _)
    List.Pairwise.nil hn
  have e : pairsOf m.ghosts [] = [] := rfl
  rw [e] at h8
  rw [← h8] at k1 k2
  refine ⟨m2, _, _, h1, room_ghosts_of_seg h2 h3, room_likelihoods_of_seg h2 h3 h4, ?_, ?_⟩
  · rw [zip_pairsOf]; simpa using k1
  · rw [zip_pairsOf]; simpa using k2

theorem room_add_ghosts_stable_sort_witness :
    ∃ m2 gs vs, room_add_ghosts (some 0)
        [(some 0, f50), (some 1, f90), (some 2, f10), (some 3, f50)] sample_mem = some m2 ∧
      room_ghosts m2 0 = some gs ∧ room_likelihoods m2 0 = some vs ∧
      (gs.zip vs).Perm
        (attach_pairs [(some 0, f50), (some 1, f90), (some 2, f10), (some 3, f50)]) ∧
      (gs.zip vs).Pairwise
        (LaterFirst (attach_pairs [(some 0, f50), (some 1, f90), (some 2, f10), (some 3, f50)])) :=
  room_add_ghosts_stable_sort sample_mem 0 ⟨1, "Bedroom", ⟨none, none⟩⟩
    [(some 0, f50), (some 1, f90), (some 2, f10), (some 3, f50)]
    (by decide) rfl (by decide) (by decide) (by decide)

/-! ## C13: the round-trip scenario -/

theorem room_create_eq (id : Int) (name : String) (m : Mem) (h : name.utf8ByteSize < MAX_STR) :
    room_create id name m = some (m.rooms.length,
      { m with rooms := m.rooms ++ [some { id := id, name := name, ghosts := ⟨none, none⟩ }] }) := by
  simp only [room_create, h, if_true, ghostlist_init]

/-- C13: from any memory, the round-trip scenario succeeds and yields a state
where the room's ghost list has exactly one entry, the new ghost, whose
likelihood is `88.78f` and whose room reference is the room; the building's
array has size 1 with the room in slot 0 and every other slot empty; and the
master list contains that same ghost exactly once. -/
theorem round_trip (b : Building) (m : Mem) :
    ∃ b2 room ghost m4 gv rv, round_trip_scenario b m = some (b2, room, ghost, m4) ∧
      load m4.rooms room = some rv ∧ rv.id = 1 ∧ rv.name = "Bedroom" ∧
      room_ghosts m4 room = some [ghost] ∧
      room_likelihoods m4 room = some [f88_78] ∧
      load m4.ghosts ghost = some gv ∧ gv.likelihood = f88_78 ∧ gv.room = some room ∧
      gv.type = "Wraith" ∧
      b2.rooms.size = 1 ∧ b2.rooms.elements = some room :: List.replicate 15 none ∧
      ghostlist_ghosts m4 b2.ghosts = some [ghost] := by
  have hn1 : ("Bedroom" : String).utf8ByteSize < MAX_STR := by decide
  have hn2 : ("Wraith" : String).utf8ByteSize < MAX_STR := by decide
  -- the states of the scenario, one by one
  obtain ⟨m1, hm1⟩ : ∃ m1 : Mem, m1 = { m with
      rooms := m.rooms ++ [some { id := 1, name := "Bedroom", ghosts := ⟨none, none⟩ }] } :=
    ⟨_, rfl⟩
  have e1 : room_create 1 "Bedroom" m = some (m.rooms.length, m1) := by
    rw [hm1]; exact room_create_eq 1 "Bedroom" m hn1
  have e2 : roomarray_add (building_init b).rooms (some m.rooms.length) =
      some { elements := some m.rooms.length :: List.replicate 15 none, size := 1 } := by
    have := roomarray_add_step (building_init b).rooms m.rooms.length 0
      (by simp [building_init, roomarray_init]) (by simp [building_init, roomarray_init])
      (by decide)
    rw [this]
    simp [building_init, roomarray_init, MAX_ROOMS, List.replicate]
  obtain ⟨m2, hm2⟩ : ∃ m2 : Mem, m2 = { m1 with
      ghosts := m1.ghosts ++
        [some { id := m1.next_id, type := "Wraith", likelihood := CFloat.zero, room := none }]
      next_id := wrap32 (m1.next_id + 1) } := ⟨_, rfl⟩
  have e3 : ghost_create "Wraith" m1 = some (m1.ghosts.length, m2) := by
    rw [hm2]; exact ghost_create_eq "Wraith" m1 hn2
  have hg2 : load m2.ghosts m1.ghosts.length =
      some { id := m1.next_id, type := "Wraith", likelihood := CFloat.zero, room := none } := by
    rw [hm2]; exact load_append_length _ _
  have hr2 : load m2.rooms m.rooms.length =
      some { id := 1, name := "Bedroom", ghosts := ⟨none, none⟩ } := by
    rw [hm2, hm1]; exact load_append_length _ _
  obtain ⟨l3, ns3, e4, s4, _, len4, _, _, _⟩ :=
    push_spec m2 (building_init b).ghosts m1.ghosts.length [] rfl rfl
  obtain ⟨l4, ns4, e5, s5, _, fr5, _⟩ :=
    room_add_ghost_spec { m2 with nodes := ns3 } m.rooms.length m1.ghosts.length f88_78
      { id := 1, name := "Bedroom", ghosts := ⟨none, none⟩ }
      { id := m1.next_id, type := "Wraith", likelihood := CFloat.zero, room := none } []
      hr2 hg2 rfl (by simp)
  have escn : round_trip_scenario b m = some
      ({ rooms := { elements := some m.rooms.length :: List.replicate 15 none, size := 1 },
         ghosts := l3 }, m.rooms.length, m1.ghosts.length,
       { m2 with
          ghosts := store m2.ghosts m1.ghosts.length
            { id := m1.next_id, type := "Wraith", likelihood := f88_78,
              room := some m.rooms.length }
          nodes := ns4
          rooms := store m2.rooms m.rooms.length
            { id := 1, name := "Bedroom", ghosts := l4 } }) := by
    simp only [round_trip_scenario, e1, e2, e3, e4, e5]
  refine ⟨_, _, _, _,
    { id := m1.next_id, type := "Wraith", likelihood := f88_78, room := some m.rooms.length },
    { id := 1, name := "Bedroom", ghosts := l4 },
    escn, load_store_same _ _ _ (load_lt hr2), rfl, rfl, ?_, ?_,
    load_store_same _ _ _ (load_lt hg2), rfl, rfl, rfl, ?_, ?_, ?_⟩
  · rw [room_ghosts_eq (load_store_same _ _ _ (load_lt hr2)) s5]
    rfl
  · rw [room_likelihoods_of_seg (load_store_same _ _ _ (load_lt hr2)) s5
      (by
        intro d hd
        simp only [ins, List.mem_singleton] at hd
        subst hd
        exact ⟨_, load_store_same _ _ _ (load_lt hg2)⟩)]
    simp only [pairsOf, ins, List.map_cons, List.map_nil]
    rw [lik_store_same _ hg2]
  · rfl
  · rfl
  · have s6 : Seg ns4 l3.head ([] ++ [(m2.nodes.length, m1.ghosts.length)]) none := by
      refine seg_congr _ _ _ ?_ s4
      intro d hd
      simp only [List.nil_append, List.mem_singleton] at hd
      subst hd
      apply fr5
      · simp
      · show m2.nodes.length ≠ ns3.length
        rw [len4]; omega
    exact ghosts_of_seg (m := { m2 with
        ghosts := store m2.ghosts m1.ghosts.length _
        nodes := ns4
        rooms := store m2.rooms m.rooms.length _ }) s6

/-! ## Teardown of a list -/

theorem load_set_none_same {α : Type} (s : List (Option α)) (a : Nat) :
    load (s.set a none) a = none := by
  simp only [load, List.getElem?_set]
  split <;> simp_all

theorem load_set_none_other {α : Type} (s : List (Option α)) (a b : Nat) (h : a ≠ b) :
    load (s.set a none) b = load s b := by
  simp [load, List.getElem?_set, h]

theorem free_eq {α : Type} {s : List (Option α)} {a : Nat} {v : α} (h : load s a = some v) :
    free s a = some (s.set a none) := by
  simp [free, h]

theorem release_all_cons {α : Type} (s : List (Option α)) (a : Nat) (as : List Nat) :
    release_all s (a :: as) = release_all (s.set a none) as := rfl

theorem load_release_all_of_mem {α : Type} :
    ∀ (as : List Nat) (s : List (Option α)) (a : Nat), a ∈ as → load (release_all s as) a = none
  | b :: as, s, a, h => by
    rw [release_all_cons]
    by_cases hm : a ∈ as
    · exact load_release_all_of_mem as _ a hm
    · have e : a = b := by
        rcases List.mem_cons.1 h with e | e
        · exact e
        · exact absurd e hm
      subst e
      have key : ∀ (bs : List Nat) (t : List (Option α)), load t a = none →
          load (release_all t bs) a = none := by
        intro bs
        induction bs with
        | nil => intro t ht; exact ht
        | cons c bs ih =>
          intro t ht
          rw [release_all_cons]
          apply ih
          by_cases e : c = a
          · subst e; exact load_set_none_same _ _
          · rw [load_set_none_other _ _ _ e]; exact ht
      exact key as _ (load_set_none_same _ _)

theorem load_release_all_of_not_mem {α : Type} :
    ∀ (as : List Nat) (s : List (Option α)) (a : Nat), a ∉ as →
      load (release_all s as) a = load s a
  | [], _, _, _ => rfl
  | b :: as, s, a, h => by
    rw [release_all_cons, load_release_all_of_not_mem as _ a
      (fun hm => h (List.mem_cons_of_mem _ hm))]
    exact load_set_none_other _ _ _ (fun e => h (by simp [e]))

theorem release_all_append {α : Type} (s : List (Option α)) (as bs : List Nat) :
    release_all s (as ++ bs) = release_all (release_all s as) bs := by
  simp [release_all, List.foldl_append]

theorem length_release_all {α : Type} :
    ∀ (as : List Nat) (s : List (Option α)), (release_all s as).length = s.length
  | [], _ => rfl
  | a :: as, s => by
    rw [release_all_cons, length_release_all as]; simp

/-- The loop of `ghostlist_cleanup` with `free_data = false` on a well-formed
list: every node is released, in order, and nothing else changes. -/
theorem cleanup_loop_keep :
    ∀ (cs : List (Nat × Nat)) (p : Option Nat) (fuel : Nat) (m : Mem),
      Seg m.nodes p cs none → cs.length ≤ fuel →
      ghostlist_cleanup_loop fuel p false m =
        some { m with
          nodes := release_all m.nodes (cs.map Prod.fst)
          trace := m.trace ++ node_events cs }
  | [], p, fuel, m, h, _ => by
    have hp : p = none := h
    subst hp
    cases fuel <;> simp [ghostlist_cleanup_loop, release_all, node_events]
  | c :: cs, p, 0, m, _, hf => by simp at hf
  | c :: cs, p, fuel + 1, m, h, hf => by
    have hnd := seg_nodup _ _ h
    obtain ⟨hp, nd, hl, _, hs⟩ := h
    subst hp
    have hs2 : Seg (m.nodes.set c.1 none) nd.next cs none := by
      refine seg_congr cs _ _ ?_ hs
      intro d hd
      apply load_set_none_other
      intro e
      simp only [List.map_cons, List.nodup_cons] at hnd
      exact hnd.1 (by rw [e]; exact mem_fst_of_mem hd)
    have ih := cleanup_loop_keep cs nd.next fuel
      { m with nodes := m.nodes.set c.1 none, trace := m.trace ++ [Event.free_node c.1] }
      hs2 (by simpa using hf)
    simp only [ghostlist_cleanup_loop, hl, free_eq hl, Bool.false_eq_true, if_false]
    rw [ih]
    simp [release_all_cons, node_events, List.append_assoc]

/-- The loop of `ghostlist_cleanup` with `free_data = true` on a well-formed
list whose ghosts are allocated and pairwise distinct: every ghost and every
node is released, in order. -/
theorem cleanup_loop_free :
    ∀ (cs : List (Nat × Nat)) (p : Option Nat) (fuel : Nat) (m : Mem),
      Seg m.nodes p cs none → cs.length ≤ fuel →
      (∀ c ∈ cs, ∃ gv, load m.ghosts c.2 = some gv) → (cs.map Prod.snd).Nodup →
      ghostlist_cleanup_loop fuel p true m =
        some { m with
          ghosts := release_all m.ghosts (cs.map Prod.snd)
          nodes := release_all m.nodes (cs.map Prod.fst)
          trace := m.trace ++ ghost_node_events cs }
  | [], p, fuel, m, h, _, _, _ => by
    have hp : p = none := h
    subst hp
    cases fuel <;> simp [ghostlist_cleanup_loop, release_all, ghost_node_events]
  | c :: cs, p, 0, m, _, hf, _, _ => by simp at hf
  | c :: cs, p, fuel + 1, m, h, hf, hlive, hgn => by
    have hnd := seg_nodup _ _ h
    obtain ⟨hp, nd, hl, hd, hs⟩ := h
    subst hp
    obtain ⟨gv, hg⟩ := hlive c (List.mem_cons_self _ _)
    simp only [List.map_cons, List.nodup_cons] at hnd hgn
    have hs2 : Seg ((store m.nodes c.1 { nd with data := none }).set c.1 none) nd.next cs
        none := by
      refine seg_congr cs _ _ ?_ hs
      intro d hd
      have e : c.1 ≠ d.1 := fun e => hnd.1 (by rw [e]; exact mem_fst_of_mem hd)
      rw [load_set_none_other _ _ _ e, load_store_other _ _ _ _ e]
    have hlive2 : ∀ d ∈ cs, ∃ dv, load (m.ghosts.set c.2 none) d.2 = some dv := by
      intro d hd
      have e : c.2 ≠ d.2 := fun e => hgn.1 (by rw [e]; exact List.mem_map.2 ⟨d, hd, rfl⟩)
      rw [load_set_none_other _ _ _ e]
      exact hlive d (List.mem_cons_of_mem _ hd)
    have ih := cleanup_loop_free cs nd.next fuel
      { m with
        ghosts := m.ghosts.set c.2 none
        nodes := (store m.nodes c.1 { nd with data := none }).set c.1 none
        trace := m.trace ++ [Event.free_ghost c.2] ++ [Event.free_node c.1] }
      hs2 (by simpa using hf) hlive2 hgn.2
    have hl2 : load (store m.nodes c.1 { nd with data := none }) c.1 =
        some { nd with data := none } := load_store_same _ _ _ (load_lt hl)
    simp only [ghostlist_cleanup_loop, hl, hd, ghost_cleanup, free_eq hg, if_true, free_eq hl2]
    rw [ih]
    simp [release_all_cons, ghost_node_events, List.append_assoc, store]

/-! ## Teardown of rooms -/

theorem ghostlist_cleanup_keep (m : Mem) (l : GhostList) (cs : List (Nat × Nat))
    (hs : Seg m.nodes l.head cs none) :
    ghostlist_cleanup l false m =
      some ({ head := none, tail := none },
        { m with
          nodes := release_all m.nodes (cs.map Prod.fst)
          trace := m.trace ++ node_events cs }) := by
  simp only [ghostlist_cleanup, cleanup_loop_keep cs l.head m.nodes.length m hs
    (seg_length_le hs)]

theorem ghostlist_cleanup_free (m : Mem) (l : GhostList) (cs : List (Nat × Nat))
    (hs : Seg m.nodes l.head cs none)
    (hlive : ∀ c ∈ cs, ∃ gv, load m.ghosts c.2 = some gv) (hnd : (cs.map Prod.snd).Nodup) :
    ghostlist_cleanup l true m =
      some ({ head := none, tail := none },
        { m with
          ghosts := release_all m.ghosts (cs.map Prod.snd)
          nodes := release_all m.nodes (cs.map Prod.fst)
          trace := m.trace ++ ghost_node_events cs }) := by
  simp only [ghostlist_cleanup, cleanup_loop_free cs l.head m.nodes.length m hs
    (seg_length_le hs) hlive hnd]

theorem room_cleanup_spec (m : Mem) (r : Nat) (rv : Room) (cs : List (Nat × Nat))
    (hr : load m.rooms r = some rv) (hs : Seg m.nodes rv.ghosts.head cs none) :
    room_cleanup (some r) m =
      some (none,
        { m with
          nodes := release_all m.nodes (cs.map Prod.fst)
          rooms := m.rooms.set r none
          trace := m.trace ++ node_events cs ++ [Event.free_room r] }) := by
  have h2 : load (store m.rooms r { rv with ghosts := { head := none, tail := none } }) r =
      some { rv with ghosts := { head := none, tail := none } } :=
    load_store_same _ _ _ (load_lt hr)
  simp only [room_cleanup, hr, ghostlist_cleanup_keep m rv.ghosts cs hs, free_eq h2]
  simp [store]

theorem layout_room_cleanup {m : Mem} {cellsOf : Nat → List (Nat × Nat)} {r : Nat} {rv : Room}
    (hL : Layout m cellsOf) (hr : load m.rooms r = some rv) (t : List Event) :
    Layout { m with
        nodes := release_all m.nodes ((cellsOf r).map Prod.fst)
        rooms := m.rooms.set r none
        trace := t } cellsOf := by
  have hrooms : ∀ r2 rv2, load (m.rooms.set r none) r2 = some rv2 →
      r ≠ r2 ∧ load m.rooms r2 = some rv2 := by
    intro r2 rv2 h
    by_cases e : r = r2
    · subst e; rw [load_set_none_same] at h; cases h
    · rw [load_set_none_other _ _ _ e] at h; exact ⟨e, h⟩
  refine ⟨?_, ?_, ?_⟩
  · intro r2 rv2 h
    obtain ⟨hne, h2⟩ := hrooms r2 rv2 h
    refine seg_congr _ _ _ ?_ (hL.seg r2 rv2 h2)
    intro d hd
    exact load_release_all_of_not_mem _ _ _
      (hL.disj r2 r rv2 rv (Ne.symm hne) h2 hr _ (mem_fst_of_mem hd))
  · intro r2 rv2 h c hc
    exact hL.live r2 rv2 (hrooms r2 rv2 h).2 c hc
  · intro r1 r2 rv1 rv2 hne h1 h2
    exact hL.disj r1 r2 rv1 rv2 hne (hrooms r1 rv1 h1).2 (hrooms r2 rv2 h2).2

theorem slot_rooms_succ (els : List (Option Nat)) (i k : Nat) (slot : Option Nat)
    (h : els[i]? = some slot) :
    slot_rooms els i (k + 1) = slot.toList ++ slot_rooms els (i + 1) k := by
  have hi : i < els.length := (List.getElem?_eq_some_iff.1 h).1
  have hd : els.drop i = slot :: els.drop (i + 1) := by
    rw [List.drop_eq_getElem_cons hi]
    congr 1
    exact (List.getElem?_eq_some_iff.1 h).2
  simp only [slot_rooms, hd, List.take_succ_cons, List.filterMap_cons]
  cases slot <;> simp

theorem slot_rooms_set (els : List (Option Nat)) (i k : Nat) (p : Option Nat) :
    slot_rooms (els.set i p) (i + 1) k = slot_rooms els (i + 1) k := by
  simp only [slot_rooms]
  rw [List.drop_set_of_lt _ _ (Nat.lt_succ_self i)]

/-- The loop of `roomarray_cleanup` over `k` slots from index `i` on, when the
rooms in those slots are allocated, pairwise distinct and laid out well: each
of them is torn down and its slot set to `NULL`. -/
theorem roomarray_cleanup_loop_spec (cellsOf : Nat → List (Nat × Nat)) :
    ∀ (k i : Nat) (els : List (Option Nat)) (m : Mem),
      Layout m cellsOf → i + k ≤ els.length →
      (∀ r ∈ slot_rooms els i k, (load m.rooms r).isSome = true) →
      (slot_rooms els i k).Nodup →
      ∃ els2, roomarray_cleanup_loop k i els m =
          some (els2,
            { m with
              nodes := release_all m.nodes (rooms_nodes cellsOf (slot_rooms els i k))
              rooms := release_all m.rooms (slot_rooms els i k)
              trace := m.trace ++ rooms_events cellsOf (slot_rooms els i k) }) ∧
        els2.length = els.length ∧
        (∀ j, i ≤ j → j < i + k → els2[j]? = some none) ∧
        (∀ j, ¬ (i ≤ j ∧ j < i + k) → els2[j]? = els[j]?)
  | 0, i, els, m, _, _, _, _ => by
    refine ⟨els, ?_, rfl, fun j h1 h2 => by omega, fun _ _ => rfl⟩
    simp [roomarray_cleanup_loop, slot_rooms, release_all, rooms_nodes, rooms_events]
  | k + 1, i, els, m, hL, hlen, hlive, hnd => by
    have hi : i < els.length := by omega
    obtain ⟨slot, hslot⟩ : ∃ slot, els[i]? = some slot :=
      ⟨els[i], List.getElem?_eq_getElem hi⟩
    have hsr := slot_rooms_succ els i k slot hslot
    rw [hsr] at hlive hnd
    have hrest : ∀ (p : Option Nat) (m1 : Mem) (els2 : List (Option Nat)),
        els2.length = (els.set i p).length →
        (∀ j, i + 1 ≤ j → j < i + 1 + k → els2[j]? = some none) →
        (∀ j, ¬ (i + 1 ≤ j ∧ j < i + 1 + k) → els2[j]? = (els.set i p)[j]?) →
        p = none →
        els2.length = els.length ∧
        (∀ j, i ≤ j → j < i + (k + 1) → els2[j]? = some none) ∧
        (∀ j, ¬ (i ≤ j ∧ j < i + (k + 1)) → els2[j]? = els[j]?) := by
      intro p m1 els2 a1 a2 a3 hp
      subst hp
      refine ⟨by simpa using a1, ?_, ?_⟩
      · intro j h1 h2
        by_cases e : j = i
        · subst e
          rw [a3 j (by omega)]
          simp [List.getElem?_set, hi]
        · exact a2 j (by omega) (by omega)
      · intro j hj
        rw [a3 j (by omega)]
        have : i ≠ j := by omega
        simp [List.getElem?_set, this]
    cases slot with
    | none =>
      obtain ⟨els2, k1, k2, k3, k4⟩ := roomarray_cleanup_loop_spec cellsOf k (i + 1)
        (els.set i none) m hL (by simp only [List.length_set]; omega)
        (by rw [slot_rooms_set]; simpa using hlive) (by rw [slot_rooms_set]; simpa using hnd)
      refine ⟨els2, ?_, hrest none m els2 k2 k3 k4 rfl⟩
      simp only [roomarray_cleanup_loop, hslot, room_cleanup, k1, hsr, slot_rooms_set]
      simp
    | some r =>
      simp only [Option.toList, List.singleton_append] at hlive hnd
      obtain ⟨rv, hr⟩ := Option.isSome_iff_exists.1 (hlive r (List.mem_cons_self _ _))
      obtain ⟨hnd1, hnd2⟩ := List.nodup_cons.1 hnd
      have hc := room_cleanup_spec m r rv (cellsOf r) hr (hL.seg r rv hr)
      have hL1 := layout_room_cleanup hL hr
        (m.trace ++ node_events (cellsOf r) ++ [Event.free_room r])
      obtain ⟨els2, k1, k2, k3, k4⟩ := roomarray_cleanup_loop_spec cellsOf k (i + 1)
        (els.set i none)
        { m with
          nodes := release_all m.nodes ((cellsOf r).map Prod.fst)
          rooms := m.rooms.set r none
          trace := m.trace ++ node_events (cellsOf r) ++ [Event.free_room r] }
        hL1 (by simp only [List.length_set]; omega)
        (by
          rw [slot_rooms_set]
          intro r2 hr2
          have e : r ≠ r2 := fun e => hnd1 (by rw [e]; exact hr2)
          show (load (m.rooms.set r none) r2).isSome = true
          rw [load_set_none_other _ _ _ e]
          exact hlive r2 (List.mem_cons_of_mem _ hr2))
        (by rw [slot_rooms_set]; exact hnd2)
      refine ⟨els2, ?_, hrest none m els2 k2 k3 k4 rfl⟩
      simp only [roomarray_cleanup_loop, hslot, hc, k1, hsr, slot_rooms_set]
      simp [release_all_append, release_all_cons, rooms_nodes, rooms_events, List.append_assoc]

/-! ## Filling and tearing down a room array -/

theorem roomarray_adds_general :
    ∀ (calls : List (Option Nat)) (a : RoomArray) (n : Nat),
      a.elements.length = MAX_ROOMS → a.size = (n : Int) → n ≤ MAX_ROOMS →
      ∃ a2, roomarray_adds a calls = some a2 ∧
        a2.size = ((n + (stored_rooms calls (MAX_ROOMS - n)).length : Nat) : Int) ∧
        a2.elements = a.elements.take n ++ (stored_rooms calls (MAX_ROOMS - n)).map some ++
          a.elements.drop (n + (stored_rooms calls (MAX_ROOMS - n)).length)
  | [], a, n, _, hn, _ => by
    refine ⟨a, rfl, by simpa [stored_rooms] using hn, ?_⟩
    simp [stored_rooms]
  | none :: calls, a, n, hlen, hn, hle => by
    obtain ⟨a2, k1, k2, k3⟩ := roomarray_adds_general calls a n hlen hn hle
    refine ⟨a2, ?_, ?_, ?_⟩
    · simp only [roomarray_adds, roomarray_add]; exact k1
    · simpa [stored_rooms] using k2
    · simpa [stored_rooms] using k3
  | some r :: calls, a, n, hlen, hn, hle => by
    by_cases hlt : n < MAX_ROOMS
    · have hstep := roomarray_add_step a r n hlen hn hlt
      obtain ⟨a2, k1, k2, k3⟩ := roomarray_adds_general calls
        { elements := a.elements.set n (some r), size := (n : Int) + 1 } (n + 1)
        (by simp [hlen]) (by simp) hlt
      have hst : stored_rooms (some r :: calls) (MAX_ROOMS - n) =
          r :: stored_rooms calls (MAX_ROOMS - (n + 1)) := by
        have e : MAX_ROOMS - n = (MAX_ROOMS - (n + 1)) + 1 := by omega
        simp only [stored_rooms, List.filterMap_cons, id, e, List.take_succ_cons]
      have hn2 : n < a.elements.length := by rw [hlen]; exact hlt
      refine ⟨a2, ?_, ?_, ?_⟩
      · simp only [roomarray_adds, hstep]; exact k1
      · rw [k2, hst]; simp only [List.length_cons]; congr 1; omega
      · rw [k3, hst]
        simp only [List.map_cons, List.length_cons]
        rw [List.take_succ, take_set_self]
        have e1 : (a.elements.set n (some r))[n]? = some (some r) := by
          simp [List.getElem?_set, hn2]
        have e2 : List.drop (n + 1 + (stored_rooms calls (MAX_ROOMS - (n + 1))).length)
            (a.elements.set n (some r)) =
            List.drop (n + ((stored_rooms calls (MAX_ROOMS - (n + 1))).length + 1))
              a.elements := by
          rw [List.drop_set_of_lt _ _ (by omega)]
          congr 1; omega
        rw [e1, e2]
        simp
    · have hn16 : n = MAX_ROOMS := by omega
      have hfull : roomarray_add a (some r) = some a := by
        have : ¬ a.size < (MAX_ROOMS : Int) := by rw [hn, hn16]; simp
        simp only [roomarray_add, this, if_false]
      obtain ⟨a2, k1, k2, k3⟩ := roomarray_adds_general calls a n hlen hn hle
      have e0 : MAX_ROOMS - n = 0 := by omega
      refine ⟨a2, ?_, ?_, ?_⟩
      · simp only [roomarray_adds, hfull]; exact k1
      · rw [k2]; simp [stored_rooms, e0]
      · rw [k3]; simp [stored_rooms, e0]

theorem count_free_room_node_events (cs : List (Nat × Nat)) (r : Nat) :
    (node_events cs).count (Event.free_room r) = 0 := by
  rw [List.count_eq_zero]
  simp [node_events]

theorem count_free_room_rooms_events (cellsOf : Nat → List (Nat × Nat)) (r : Nat) :
    ∀ rs : List Nat, (rooms_events cellsOf rs).count (Event.free_room r) = rs.count r
  | [] => rfl
  | s :: rs => by
    simp only [rooms_events, List.count_append, count_free_room_node_events,
      List.count_cons, count_free_room_rooms_events cellsOf r rs, Nat.zero_add]
    by_cases e : s = r
    · subst e; simp
    · have e2 : ¬ (Event.free_room s = Event.free_room r) := fun h => e (by injection h)
      simp [e, e2]

theorem free_ghost_not_mem_rooms_events (cellsOf : Nat → List (Nat × Nat)) (g : Nat) :
    ∀ rs : List Nat, Event.free_ghost g ∉ rooms_events cellsOf rs
  | [] => by simp [rooms_events]
  | s :: rs => by
    have := free_ghost_not_mem_rooms_events cellsOf g rs
    simp [rooms_events, node_events, this]

theorem mem_rooms_nodes (cellsOf : Nat → List (Nat × Nat)) (a : Nat) :
    ∀ rs : List Nat, a ∈ rooms_nodes cellsOf rs ↔ ∃ r ∈ rs, a ∈ (cellsOf r).map Prod.fst
  | [] => by simp [rooms_nodes]
  | s :: rs => by
    simp only [rooms_nodes, List.mem_append, mem_rooms_nodes cellsOf a rs, List.mem_cons]
    constructor
    · rintro (h | ⟨r, hr, h⟩)
      · exact ⟨s, Or.inl rfl, h⟩
      · exact ⟨r, Or.inr hr, h⟩
    · rintro ⟨r, hr | hr, h⟩
      · subst hr; exact Or.inl h
      · exact Or.inr ⟨r, hr, h⟩

/-- The function `roomarray_cleanup` on an array whose occupied slots hold allocated,
pairwise distinct rooms that are laid out well. -/
theorem roomarray_cleanup_spec (cellsOf : Nat → List (Nat × Nat)) (a : RoomArray) (m : Mem)
    (n : Nat) (hL : Layout m cellsOf) (hn : a.size = (n : Int)) (hlen : n ≤ a.elements.length)
    (hlive : ∀ r ∈ slot_rooms a.elements 0 n, (load m.rooms r).isSome = true)
    (hnd : (slot_rooms a.elements 0 n).Nodup) :
    ∃ els2, roomarray_cleanup a m =
        some ({ elements := els2, size := 0 },
          { m with
            nodes := release_all m.nodes (rooms_nodes cellsOf (slot_rooms a.elements 0 n))
            rooms := release_all m.rooms (slot_rooms a.elements 0 n)
            trace := m.trace ++ rooms_events cellsOf (slot_rooms a.elements 0 n) }) ∧
      els2.length = a.elements.length ∧
      (∀ j, j < n → els2[j]? = some none) ∧
      (∀ j, n ≤ j → els2[j]? = a.elements[j]?) := by
  obtain ⟨els2, k1, k2, k3, k4⟩ := roomarray_cleanup_loop_spec cellsOf n 0 a.elements m hL
    (by omega) hlive hnd
  refine ⟨els2, ?_, k2, fun j hj => k3 j (Nat.zero_le _) (by omega),
    fun j hj => k4 j (by omega)⟩
  have e : a.size.toNat = n := by rw [hn]; simp
  simp only [roomarray_cleanup, e, k1]

/-! ## C18: teardown of the room array -/

theorem slot_rooms_stored (xs : List Nat) (ys : List (Option Nat)) :
    slot_rooms (xs.map some ++ ys) 0 xs.length = xs := by
  simp only [slot_rooms, List.drop_zero]
  rw [List.take_append_of_le_length (by simp)]
  rw [List.take_of_length_le (by simp)]
  induction xs with
  | nil => rfl
  | cons x xs ih => simp [List.filterMap_cons, ih]

theorem roomarray_filled (a0 : RoomArray) (calls : List (Option Nat)) :
    ∃ a, roomarray_adds (roomarray_init a0) calls = some a ∧
      a.size = ((stored_rooms calls MAX_ROOMS).length : Int) ∧
      a.elements = (stored_rooms calls MAX_ROOMS).map some ++
        List.replicate (MAX_ROOMS - (stored_rooms calls MAX_ROOMS).length) none ∧
      (stored_rooms calls MAX_ROOMS).length ≤ MAX_ROOMS := by
  obtain ⟨a, k1, k2, k3⟩ := roomarray_adds_general calls (roomarray_init a0) 0
    (by simp [roomarray_init]) (by simp [roomarray_init]) (Nat.zero_le _)
  refine ⟨a, k1, by simpa using k2, ?_, ?_⟩
  · rw [k3]
    simp [roomarray_init]
  · simp only [stored_rooms, List.length_take]
    exact Nat.min_le_left _ _

/-- C18 (as stated, refuted): adding the same room twice to an initialised array
succeeds and fills two slots with it; `roomarray_cleanup` then releases the
room at slot 0 and meets the released room again at slot 1, which is
undefined (no result). -/
theorem roomarray_cleanup_same_room_twice :
    roomarray_adds (roomarray_init full_array) [some 0, some 0] =
        some ⟨some 0 :: some 0 :: List.replicate 14 none, 2⟩ ∧
      roomarray_cleanup ⟨some 0 :: some 0 :: List.replicate 14 none, 2⟩ sample_mem = none := by
  decide

/-- C18 (amended): for every `RoomArray` reached from `roomarray_init` by
`roomarray_add` calls that store pairwise distinct allocated rooms, in a memory
whose rooms are well formed, `roomarray_cleanup` succeeds; it releases every
node of every stored room's list and no ghost (the ghost store is unchanged),
releases every stored room exactly once and no other room, leaves every slot
empty and resets size to 0. -/
theorem roomarray_cleanup_tears_down (m : Mem) (a0 : RoomArray) (calls : List (Option Nat))
    (hwf : RoomsWellFormed m)
    (hlive : ∀ r ∈ stored_rooms calls MAX_ROOMS, (load m.rooms r).isSome = true)
    (hdistinct : (stored_rooms calls MAX_ROOMS).Nodup) :
    ∃ a a2 m2, roomarray_adds (roomarray_init a0) calls = some a ∧
      roomarray_cleanup a m = some (a2, m2) ∧
      a2.size = 0 ∧ a2.elements = List.replicate MAX_ROOMS none ∧
      m2.ghosts = m.ghosts ∧
      (∀ r ∈ stored_rooms calls MAX_ROOMS, load m2.rooms r = none) ∧
      (∀ r, r ∉ stored_rooms calls MAX_ROOMS → load m2.rooms r = load m.rooms r) ∧
      (∀ r ∈ stored_rooms calls MAX_ROOMS, ∀ rv cs, load m.rooms r = some rv →
        ghostlist_cells m rv.ghosts = some cs → ∀ c ∈ cs, load m2.nodes c.1 = none) ∧
      ∃ evs, m2.trace = m.trace ++ evs ∧
        (∀ r ∈ stored_rooms calls MAX_ROOMS, evs.count (Event.free_room r) = 1) ∧
        (∀ r, r ∉ stored_rooms calls MAX_ROOMS → Event.free_room r ∉ evs) ∧
        (∀ g, Event.free_ghost g ∉ evs) := by
  obtain ⟨cellsOf, hL⟩ := hwf
  obtain ⟨a, k1, k2, k3, k4⟩ := roomarray_filled a0 calls
  have hslots : slot_rooms a.elements 0 (stored_rooms calls MAX_ROOMS).length =
      stored_rooms calls MAX_ROOMS := by rw [k3]; exact slot_rooms_stored _ _
  have hlen : a.elements.length = MAX_ROOMS := by
    rw [k3]; simp; omega
  obtain ⟨els2, c1, c2, c3, c4⟩ := roomarray_cleanup_spec cellsOf a m
    (stored_rooms calls MAX_ROOMS).length hL k2 (by rw [hlen]; exact k4)
    (by rw [hslots]; exact hlive) (by rw [hslots]; exact hdistinct)
  rw [hslots] at c1
  refine ⟨a, _, _, k1, c1, rfl, ?_, rfl, ?_, ?_, ?_, _, rfl, ?_, ?_, ?_⟩
  · apply List.ext_getElem?
    intro j
    by_cases hj : j < (stored_rooms calls MAX_ROOMS).length
    · rw [c3 j hj]
      have : j < MAX_ROOMS := by omega
      simp [List.getElem?_replicate, this]
    · rw [c4 j (by omega), k3]
      rw [List.getElem?_append_right (by simpa using hj)]
      simp only [List.length_map, List.getElem?_replicate]
      by_cases hj2 : j < MAX_ROOMS
      · have : j - (stored_rooms calls MAX_ROOMS).length <
            MAX_ROOMS - (stored_rooms calls MAX_ROOMS).length := by omega
        simp [this, hj2]
      · have : ¬ j - (stored_rooms calls MAX_ROOMS).length <
            MAX_ROOMS - (stored_rooms calls MAX_ROOMS).length := by omega
        simp [this, hj2]
  · intro r hr
    exact load_release_all_of_mem _ _ _ hr
  · intro r hr
    exact load_release_all_of_not_mem _ _ _ hr
  · intro r hr rv cs hrv hcs c hc
    have := seg_unique _ _ _ ((cells_iff_seg m rv.ghosts cs).1 hcs) (hL.seg r rv hrv)
    subst this
    apply load_release_all_of_mem
    exact (mem_rooms_nodes cellsOf _ _).2 ⟨r, hr, mem_fst_of_mem hc⟩
  · intro r hr
    rw [count_free_room_rooms_events]
    exact List.count_eq_one_of_mem hdistinct hr
  · intro r hr hmem
    have := List.count_pos_iff.2 hmem
    rw [count_free_room_rooms_events] at this
    exact hr (List.count_pos_iff.1 this)
  · intro g
    exact free_ghost_not_mem_rooms_events cellsOf g _

theorem roomarray_cleanup_tears_down_witness :
    ∃ a a2 m2, roomarray_adds (roomarray_init full_array) [some 1, none, some 0] = some a ∧
      roomarray_cleanup a two_room_mem = some (a2, m2) ∧
      a2.size = 0 ∧ a2.elements = List.replicate MAX_ROOMS none ∧
      m2.ghosts = two_room_mem.ghosts ∧
      (∀ r ∈ stored_rooms [some 1, none, some 0] MAX_ROOMS, load m2.rooms r = none) ∧
      (∀ r, r ∉ stored_rooms [some 1, none, some 0] MAX_ROOMS →
        load m2.rooms r = load two_room_mem.rooms r) ∧
      (∀ r ∈ stored_rooms [some 1, none, some 0] MAX_ROOMS, ∀ rv cs,
        load two_room_mem.rooms r = some rv →
        ghostlist_cells two_room_mem rv.ghosts = some cs → ∀ c ∈ cs, load m2.nodes c.1 = none) ∧
      ∃ evs, m2.trace = two_room_mem.trace ++ evs ∧
        (∀ r ∈ stored_rooms [some 1, none, some 0] MAX_ROOMS,
          evs.count (Event.free_room r) = 1) ∧
        (∀ r, r ∉ stored_rooms [some 1, none, some 0] MAX_ROOMS → Event.free_room r ∉ evs) ∧
        (∀ g, Event.free_ghost g ∉ evs) :=
  roomarray_cleanup_tears_down two_room_mem full_array [some 1, none, some 0]
    (roomsWellFormed_of_fresh (by decide)) (by decide) (by decide)

/-! ## Building up a building -/

theorem layout_frame {m m2 : Mem} {cellsOf : Nat → List (Nat × Nat)} (hL : Layout m cellsOf)
    (hrooms : m2.rooms = m.rooms)
    (hnodes : ∀ r rv, load m.rooms r = some rv → ∀ c ∈ cellsOf r,
      load m2.nodes c.1 = load m.nodes c.1)
    (hghosts : ∀ g gv, load m.ghosts g = some gv → ∃ gv2, load m2.ghosts g = some gv2) :
    Layout m2 cellsOf := by
  refine ⟨?_, ?_, ?_⟩
  · intro r rv hr
    rw [hrooms] at hr
    exact seg_congr _ _ _ (hnodes r rv hr) (hL.seg r rv hr)
  · intro r rv hr c hc
    rw [hrooms] at hr
    obtain ⟨gv, hg⟩ := hL.live r rv hr c hc
    exact hghosts _ gv hg
  · intro r1 r2 rv1 rv2 hne h1 h2
    rw [hrooms] at h1 h2
    exact hL.disj r1 r2 rv1 rv2 hne h1 h2

/-- One `util_ghost_create_and_add` call on a well-formed building. -/
theorem create_and_add_step (b : Building) (m : Mem) (cellsOf : Nat → List (Nat × Nat))
    (mcs : List (Nat × Nat)) (type : String) (room : Option Nat) (x : CFloat)
    (hB : BuildingLayout b m cellsOf mcs)
    (hfit : type.utf8ByteSize < MAX_STR)
    (hroom : ∀ r, room = some r → (load m.rooms r).isSome = true) :
    ∃ l2 m3 cellsOf2,
      util_ghost_create_and_add b type room x m = some ({ b with ghosts := l2 }, m3) ∧
      BuildingLayout { b with ghosts := l2 } m3 cellsOf2
        (mcs ++ [(m.nodes.length, m.ghosts.length)]) ∧
      (∀ g gv, load m.ghosts g = some gv →
        ∃ gv2, load m3.ghosts g = some gv2 ∧ gv2.id = gv.id ∧ gv2.type = gv.type) ∧
      (∃ gv, load m3.ghosts m.ghosts.length = some gv ∧ gv.id = m.next_id ∧ gv.type = type) ∧
      m3.ghosts.length = m.ghosts.length + 1 ∧
      m3.next_id = wrap32 (m.next_id + 1) ∧
      (∀ r, (load m.rooms r).isSome = true → (load m3.rooms r).isSome = true) ∧
      m3.trace = m.trace := by
  -- ghost_create
  obtain ⟨m1, hm1⟩ : ∃ m1 : Mem, m1 = { m with
      ghosts := m.ghosts ++
        [some { id := m.next_id, type := type, likelihood := CFloat.zero, room := none }]
      next_id := wrap32 (m.next_id + 1) } := ⟨_, rfl⟩
  have e1 : ghost_create type m = some (m.ghosts.length, m1) := by
    rw [hm1]; exact ghost_create_eq type m hfit
  have hg1 : load m1.ghosts m.ghosts.length =
      some { id := m.next_id, type := type, likelihood := CFloat.zero, room := none } := by
    rw [hm1]; exact load_append_length _ _
  have hold1 : ∀ g gv, load m.ghosts g = some gv → load m1.ghosts g = some gv := by
    intro g gv h; rw [hm1]; exact load_append_of_some _ h
  have hn1 : m1.nodes = m.nodes := by rw [hm1]
  have hr1 : m1.rooms = m.rooms := by rw [hm1]
  have hlen1 : m1.ghosts.length = m.ghosts.length + 1 := by rw [hm1]; simp
  have hid1 : m1.next_id = wrap32 (m.next_id + 1) := by rw [hm1]
  have ht1 : m1.trace = m.trace := by rw [hm1]
  -- ghostlist_push
  obtain ⟨l2, ns2, e2, s2, t2, len2, fr2, _, _⟩ :=
    push_spec m1 b.ghosts m.ghosts.length mcs (by rw [hn1]; exact hB.master) hB.tail
  rw [hn1] at s2 t2 len2 fr2
  have hL2 : Layout ({ m1 with nodes := ns2 } : Mem) cellsOf := by
    refine layout_frame hB.rooms hr1 ?_ (fun g gv h => ⟨gv, hold1 g gv h⟩)
    intro r rv hr c hc
    apply fr2
    · intro hmem
      exact hB.apart r rv hr _ hmem (mem_fst_of_mem hc)
    · exact Nat.ne_of_lt (seg_lt (hB.rooms.seg r rv hr) _ (mem_fst_of_mem hc))
  have hmaster_lt : ∀ a ∈ (mcs ++ [(m.nodes.length, m.ghosts.length)]).map Prod.fst,
      a < m.nodes.length + 1 := by
    intro a ha
    have := seg_lt s2 a ha
    rw [len2] at this
    exact this
  have hapart2 : ∀ r rv, load m.rooms r = some rv →
      ∀ a ∈ (mcs ++ [(m.nodes.length, m.ghosts.length)]).map Prod.fst,
        a ∉ (cellsOf r).map Prod.fst := by
    intro r rv hr a ha
    simp only [List.map_append, List.map_cons, List.map_nil, List.mem_append,
      List.mem_singleton] at ha
    rcases ha with ha | ha
    · exact hB.apart r rv hr a ha
    · subst ha
      exact fun hm => Nat.lt_irrefl _ (seg_lt (hB.rooms.seg r rv hr) _ hm)
  cases room with
  | none =>
    refine ⟨l2, { m1 with nodes := ns2 }, cellsOf, ?_, ?_, ?_, ?_, hlen1, hid1, ?_, ht1⟩
    · simp only [util_ghost_create_and_add, e1, e2, room_add_ghost]
    · exact ⟨hL2, s2, by rw [t2]; simp, by rw [hr1]; exact hapart2, hB.len, hB.size_lo,
        hB.size_hi, by rw [hr1]; exact hB.slots_live, hB.slots_distinct⟩
    · intro g gv h; exact ⟨gv, hold1 g gv h, rfl, rfl⟩
    · exact ⟨_, hg1, rfl, rfl⟩
    · intro r h; rw [hr1]; exact h
  | some r =>
    obtain ⟨rv, hr⟩ := Option.isSome_iff_exists.1 (hroom r rfl)
    have hr2 : load ({ m1 with nodes := ns2 } : Mem).rooms r = some rv := by
      rw [hr1]; exact hr
    obtain ⟨l3, ns3, e3, hL3, len3, fr3⟩ :=
      layout_room_add_ghost { m1 with nodes := ns2 } cellsOf r m.ghosts.length x rv _ hL2
        hr2 hg1
    have fr3b : ∀ a, a ∉ (cellsOf r).map Prod.fst → a ≠ ns2.length →
        load ns3 a = load ns2 a := fr3
    have hlive3 : ∀ r2, (load m.rooms r2).isSome = true →
        (load (store m1.rooms r { rv with ghosts := l3 }) r2).isSome = true := by
      intro r2 h
      rw [hr1]
      exact Option.isSome_iff_exists.2 (load_store_live hr (Option.isSome_iff_exists.1 h))
    refine ⟨l2, _, _, ?_, ⟨hL3, ?_, by rw [t2]; simp, ?_, hB.len, hB.size_lo, hB.size_hi,
      fun r2 h => hlive3 r2 (hB.slots_live r2 h), hB.slots_distinct⟩, ?_, ?_, ?_, hid1,
      hlive3, ht1⟩
    · simp only [util_ghost_create_and_add, e1, e2, e3]
    · refine seg_congr _ _ _ ?_ s2
      intro d hd
      apply fr3b
      · exact hapart2 r rv hr _ (mem_fst_of_mem hd)
      · rw [len2]
        exact Nat.ne_of_lt (hmaster_lt _ (mem_fst_of_mem hd))
    · intro r2 rv2 h2 a ha
      have hrr : load (store m.rooms r { rv with ghosts := l3 }) r2 = some rv2 := by
        rw [← hr1]; exact h2
      rcases load_store_cases hr hrr with ⟨e, _⟩ | ⟨hne, k⟩
      · subst e
        rw [Function.update_same]
        intro hmem
        obtain ⟨c, hc, hca⟩ := List.mem_map.1 hmem
        rcases (ins_mem _ _ _ _ _).1 hc with rfl | hc
        · have := hmaster_lt a ha
          rw [← hca] at this
          simp only at this
          rw [len2] at this
          exact Nat.lt_irrefl _ this
        · exact hapart2 _ rv hr a ha (by rw [← hca]; exact mem_fst_of_mem hc)
      · rw [Function.update_noteq hne]
        exact hapart2 r2 rv2 k a ha
    · intro g gv h
      have hne : m.ghosts.length ≠ g := Nat.ne_of_gt (load_lt h)
      refine ⟨gv, ?_, rfl, rfl⟩
      show load (store m1.ghosts m.ghosts.length _) g = some gv
      rw [load_store_other _ _ _ _ hne]
      exact hold1 g gv h
    · exact ⟨_, load_store_same _ _ _ (load_lt hg1), rfl, rfl⟩
    · show (store m1.ghosts m.ghosts.length _).length = _
      rw [length_store]; exact hlen1

theorem slot_rooms_set_last (els : List (Option Nat)) (n r : Nat) (h : n < els.length) :
    slot_rooms (els.set n (some r)) 0 (n + 1) = slot_rooms els 0 n ++ [r] := by
  simp only [slot_rooms, List.drop_zero]
  rw [List.take_succ, take_set_self]
  simp [List.getElem?_set, h, List.filterMap_append]

/-- One `roomarray_add` call on a well-formed building, with a room that is
allocated and not yet in the array. -/
theorem add_room_step (b : Building) (m : Mem) (cellsOf : Nat → List (Nat × Nat))
    (mcs : List (Nat × Nat)) (room : Option Nat)
    (hB : BuildingLayout b m cellsOf mcs)
    (hroom : ∀ r, room = some r → (load m.rooms r).isSome = true ∧
      r ∉ slot_rooms b.rooms.elements 0 b.rooms.size.toNat) :
    ∃ rooms, roomarray_add b.rooms room = some rooms ∧
      BuildingLayout { b with rooms := rooms } m cellsOf mcs ∧
      (∀ r ∈ slot_rooms rooms.elements 0 rooms.size.toNat,
        r ∈ slot_rooms b.rooms.elements 0 b.rooms.size.toNat ∨ room = some r) := by
  cases room with
  | none =>
    exact ⟨b.rooms, rfl, ⟨hB.rooms, hB.master, hB.tail, hB.apart, hB.len, hB.size_lo,
      hB.size_hi, hB.slots_live, hB.slots_distinct⟩, fun r h => Or.inl h⟩
  | some r =>
    obtain ⟨hlive, hnew⟩ := hroom r rfl
    by_cases hlt : b.rooms.size < (MAX_ROOMS : Int)
    · have hn : b.rooms.size = ((b.rooms.size.toNat : Nat) : Int) :=
        (Int.toNat_of_nonneg hB.size_lo).symm
      have hlt2 : b.rooms.size.toNat < MAX_ROOMS := by
        have : ((b.rooms.size.toNat : Nat) : Int) < (MAX_ROOMS : Int) := by rw [← hn]; exact hlt
        exact_mod_cast this
      have hstep := roomarray_add_step b.rooms r b.rooms.size.toNat hB.len hn hlt2
      have hsz : ((b.rooms.size.toNat : Int) + 1).toNat = b.rooms.size.toNat + 1 := by
        omega
      have hsl : slot_rooms (b.rooms.elements.set b.rooms.size.toNat (some r)) 0
          ((b.rooms.size.toNat : Int) + 1).toNat =
          slot_rooms b.rooms.elements 0 b.rooms.size.toNat ++ [r] := by
        rw [hsz]
        exact slot_rooms_set_last _ _ _ (by rw [hB.len]; exact hlt2)
      refine ⟨_, hstep, ⟨hB.rooms, hB.master, hB.tail, hB.apart, by simp [hB.len],
        by show (0 : Int) ≤ (b.rooms.size.toNat : Int) + 1; omega,
        by show (b.rooms.size.toNat : Int) + 1 ≤ (MAX_ROOMS : Int); omega, ?_, ?_⟩, ?_⟩
      · intro r2 h2
        rw [hsl] at h2
        rcases List.mem_append.1 h2 with h | h
        · exact hB.slots_live r2 h
        · simp only [List.mem_singleton] at h; subst h; exact hlive
      · rw [hsl]
        refine List.Nodup.append hB.slots_distinct (List.nodup_singleton r) ?_
        intro a ha hb
        simp only [List.mem_singleton] at hb
        subst hb
        exact hnew ha
      · intro r2 h2
        rw [hsl] at h2
        rcases List.mem_append.1 h2 with h | h
        · exact Or.inl h
        · simp only [List.mem_singleton] at h; subst h; exact Or.inr rfl
    · have hfull : roomarray_add b.rooms (some r) = some b.rooms := by
        simp only [roomarray_add, hlt, if_false]
      exact ⟨b.rooms, hfull, ⟨hB.rooms, hB.master, hB.tail, hB.apart, hB.len, hB.size_lo,
        hB.size_hi, hB.slots_live, hB.slots_distinct⟩, fun r h => Or.inl h⟩

theorem op_valid_mono {m m2 : Mem} {op : BuildOp}
    (h : ∀ r, (load m.rooms r).isSome = true → (load m2.rooms r).isSome = true)
    (hv : op_valid m op = true) : op_valid m2 op = true := by
  cases op with
  | add_room room =>
    cases room with
    | none => rfl
    | some r => exact h r hv
  | create_and_add type room x =>
    cases room with
    | none => exact hv
    | some r =>
      simp only [op_valid, Bool.and_eq_true] at hv ⊢
      exact ⟨hv.1, h r hv.2⟩

/-- The invariant of a run of calls on a well-formed building. -/
theorem build_inv :
    ∀ (ops : List BuildOp) (b : Building) (m : Mem) (cellsOf : Nat → List (Nat × Nat))
      (mcs : List (Nat × Nat)),
      BuildingLayout b m cellsOf mcs →
      (∀ c ∈ mcs, ∃ gv, load m.ghosts c.2 = some gv) → (mcs.map Prod.snd).Nodup →
      (∀ op ∈ ops, op_valid m op = true) →
      (added_rooms ops).Nodup →
      (∀ r ∈ added_rooms ops, r ∉ slot_rooms b.rooms.elements 0 b.rooms.size.toNat) →
      ∃ b2 m2 cellsOf2 mcs2, build ops b m = some (b2, m2) ∧
        BuildingLayout b2 m2 cellsOf2 mcs2 ∧
        (∀ c ∈ mcs2, ∃ gv, load m2.ghosts c.2 = some gv) ∧ (mcs2.map Prod.snd).Nodup ∧
        mcs2.map Prod.snd =
          mcs.map Prod.snd ++ List.range' m.ghosts.length (created_count ops) ∧
        m2.ghosts.length = m.ghosts.length + created_count ops ∧
        m2.trace = m.trace ∧
        (∀ g gv, load m.ghosts g = some gv →
          ∃ gv2, load m2.ghosts g = some gv2 ∧ gv2.id = gv.id ∧ gv2.type = gv.type) ∧
        (-2147483648 ≤ m.next_id → m.next_id + (created_count ops : Int) ≤ 2147483648 →
          ∀ j : Nat, j < created_count ops →
            ∃ gv, load m2.ghosts (m.ghosts.length + j) = some gv ∧
              gv.id = m.next_id + (j : Int)) ∧
        (∀ (j : Nat) (t : String), (created_types ops)[j]? = some t →
          ∃ gv, load m2.ghosts (m.ghosts.length + j) = some gv ∧ gv.type = t)
  | [], b, m, cellsOf, mcs, hB, hlive, hnd, _, _, _ =>
    ⟨b, m, cellsOf, mcs, rfl, hB, hlive, hnd, by simp [created_count], rfl, rfl,
      fun g gv h => ⟨gv, h, rfl, rfl⟩, fun _ _ j hj => by simp [created_count] at hj,
      fun j t h => by simp [created_types] at h⟩
  | BuildOp.add_room room :: ops, b, m, cellsOf, mcs, hB, hlive, hnd, hval, hadd, hnew => by
    have hv := hval _ (List.mem_cons_self _ _)
    have hroom : ∀ r, room = some r → (load m.rooms r).isSome = true ∧
        r ∉ slot_rooms b.rooms.elements 0 b.rooms.size.toNat := by
      intro r hr
      subst hr
      exact ⟨hv, hnew r (by simp [added_rooms])⟩
    obtain ⟨rooms, e1, hB1, hsl⟩ := add_room_step b m cellsOf mcs room hB hroom
    have hadd2 : (added_rooms ops).Nodup ∧ ∀ r ∈ added_rooms ops,
        r ∉ slot_rooms rooms.elements 0 rooms.size.toNat := by
      cases room with
      | none =>
        refine ⟨by simpa [added_rooms] using hadd, ?_⟩
        intro r hr hmem
        rcases hsl r hmem with h | h
        · exact hnew r (by simpa [added_rooms] using hr) h
        · cases h
      | some r0 =>
        simp only [added_rooms, List.nodup_cons] at hadd
        refine ⟨hadd.2, ?_⟩
        intro r hr hmem
        rcases hsl r hmem with h | h
        · exact hnew r (by simp [added_rooms, hr]) h
        · simp only [Option.some.injEq] at h
          subst h
          exact hadd.1 hr
    obtain ⟨b2, m2, c2, mcs2, k1, k2⟩ := build_inv ops { b with rooms := rooms } m cellsOf mcs
      hB1 hlive hnd (fun op hop => hval op (List.mem_cons_of_mem _ hop)) hadd2.1 hadd2.2
    refine ⟨b2, m2, c2, mcs2, ?_, ?_⟩
    · simp only [build, build_step, e1]; exact k1
    · simpa [created_count, created_types] using k2
  | BuildOp.create_and_add type room x :: ops, b, m, cellsOf, mcs, hB, hlive, hnd, hval, hadd,
      hnew => by
    have hv := hval _ (List.mem_cons_self _ _)
    have hfit : type.utf8ByteSize < MAX_STR := by
      cases room <;> simp [op_valid] at hv
      · exact hv
      · exact hv.1
    have hroom : ∀ r, room = some r → (load m.rooms r).isSome = true := by
      intro r hr
      subst hr
      simp only [op_valid, Bool.and_eq_true] at hv
      exact hv.2
    obtain ⟨l2, m3, c3, e1, hB3, hold, hnewg, hlen3, hid3, hrl, htr⟩ :=
      create_and_add_step b m cellsOf mcs type room x hB hfit hroom
    have hgfresh : m.ghosts.length ∉ mcs.map Prod.snd := by
      intro hm
      obtain ⟨c, hc, hce⟩ := List.mem_map.1 hm
      obtain ⟨gv, hg⟩ := hlive c hc
      rw [hce] at hg
      exact Nat.lt_irrefl _ (load_lt hg)
    obtain ⟨b2, m2, c2, mcs2, k1, k2, k3, k4, k5, k6, k7, k8, k9, k10⟩ :=
      build_inv ops { b with ghosts := l2 } m3 c3 (mcs ++ [(m.nodes.length, m.ghosts.length)])
        hB3
        (by
          intro c hc
          rcases List.mem_append.1 hc with h | h
          · obtain ⟨gv, hg⟩ := hlive c h
            obtain ⟨gv2, h2, _⟩ := hold _ gv hg
            exact ⟨gv2, h2⟩
          · simp only [List.mem_singleton] at h
            subst h
            obtain ⟨gv, hg, _⟩ := hnewg
            exact ⟨gv, hg⟩)
        (by
          rw [List.map_append]
          refine List.Nodup.append hnd (List.nodup_singleton _) ?_
          intro a ha hb
          simp only [List.map_cons, List.map_nil, List.mem_singleton] at hb
          subst hb
          exact hgfresh ha)
        (fun op hop => op_valid_mono hrl (hval op (List.mem_cons_of_mem _ hop)))
        (by simpa [added_rooms] using hadd)
        (fun r hr => hnew r (by simpa [added_rooms] using hr))
    refine ⟨b2, m2, c2, mcs2, ?_, k2, k3, k4, ?_, ?_, by rw [k7, htr], ?_, ?_, ?_⟩
    · simp only [build, build_step, e1]; exact k1
    · rw [k5, hlen3]
      simp only [created_count, List.map_append, List.map_cons, List.map_nil,
        List.append_assoc, List.singleton_append]
      rw [List.range'_succ]
    · rw [k6, hlen3]; simp only [created_count]; omega
    · intro g gv hg
      obtain ⟨gv2, a1, a2, a3⟩ := hold g gv hg
      obtain ⟨gv3, b1, b2, b3⟩ := k8 g gv2 a1
      exact ⟨gv3, b1, by rw [b2, a2], by rw [b3, a3]⟩
    · intro hlo hhi j hj
      simp only [created_count, Nat.cast_add, Nat.cast_one] at hhi hj
      cases j with
      | zero =>
        obtain ⟨gv, a1, a2, _⟩ := hnewg
        obtain ⟨gv2, b1, b2, _⟩ := k8 _ gv a1
        exact ⟨gv2, by simpa using b1, by rw [b2, a2]; simp⟩
      | succ j =>
        have hw : wrap32 (m.next_id + 1) = m.next_id + 1 :=
          wrap32_id (by omega) (by omega)
        obtain ⟨gv, a1, a2⟩ := k9 (by rw [hid3, hw]; omega) (by rw [hid3, hw]; omega) j
          (by omega)
        refine ⟨gv, ?_, ?_⟩
        · rw [hlen3] at a1
          rw [← a1]; congr 1; omega
        · rw [a2, hid3, hw]; push_cast; omega
    · intro j t hjt
      cases j with
      | zero =>
        simp only [created_types, List.getElem?_cons_zero, Option.some.injEq] at hjt
        obtain ⟨gv, a1, _, a3⟩ := hnewg
        obtain ⟨gv2, b1, _, b3⟩ := k8 _ gv a1
        exact ⟨gv2, by simpa using b1, by rw [b3, a3, hjt]⟩
      | succ j =>
        simp only [created_types, List.getElem?_cons_succ] at hjt
        obtain ⟨gv, a1, a2⟩ := k10 j t hjt
        refine ⟨gv, ?_, a2⟩
        rw [hlen3] at a1
        rw [← a1]; congr 1; omega

/-! ## Teardown of rooms never touches a ghost -/

theorem cleanup_loop_keep_frame :
    ∀ (k : Nat) (curr : Option Nat) (m m2 : Mem),
      ghostlist_cleanup_loop k curr false m = some m2 →
      m2.ghosts = m.ghosts ∧ m2.rooms = m.rooms ∧ m2.next_id = m.next_id ∧
        ∃ evs, m2.trace = m.trace ++ evs ∧ ∀ g, Event.free_ghost g ∉ evs
  | 0, none, m, m2, h => by
    simp only [ghostlist_cleanup_loop, Option.some.injEq] at h
    subst h
    exact ⟨rfl, rfl, rfl, [], by simp, by simp⟩
  | _ + 1, none, m, m2, h => by
    simp only [ghostlist_cleanup_loop, Option.some.injEq] at h
    subst h
    exact ⟨rfl, rfl, rfl, [], by simp, by simp⟩
  | 0, some _, m, m2, h => by simp [ghostlist_cleanup_loop] at h
  | k + 1, some temp, m, m2, h => by
    simp only [ghostlist_cleanup_loop] at h
    cases hl : load m.nodes temp with
    | none => simp [hl] at h
    | some tn =>
      simp only [hl, Bool.false_eq_true, if_false] at h
      cases hf : free m.nodes temp with
      | none => simp [hf] at h
      | some ns =>
        simp only [hf] at h
        obtain ⟨a1, a2, a3, evs, a4, a5⟩ := cleanup_loop_keep_frame k _ _ _ h
        refine ⟨a1, a2, a3, Event.free_node temp :: evs, ?_, ?_⟩
        · rw [a4]; simp
        · intro g hg
          rcases List.mem_cons.1 hg with e | e
          · cases e
          · exact a5 g e

theorem room_cleanup_frame (room : Option Nat) (m : Mem) (p : Option Nat) (m2 : Mem)
    (h : room_cleanup room m = some (p, m2)) :
    m2.ghosts = m.ghosts ∧ m2.next_id = m.next_id ∧
      ∃ evs, m2.trace = m.trace ++ evs ∧ ∀ g, Event.free_ghost g ∉ evs := by
  cases room with
  | none =>
    simp only [room_cleanup, Option.some.injEq, Prod.mk.injEq] at h
    obtain ⟨_, rfl⟩ := h
    exact ⟨rfl, rfl, [], by simp, by simp⟩
  | some r =>
    simp only [room_cleanup] at h
    cases hl : load m.rooms r with
    | none => simp [hl] at h
    | some rv =>
      simp only [hl, ghostlist_cleanup] at h
      cases hc : ghostlist_cleanup_loop m.nodes.length rv.ghosts.head false m with
      | none => simp [hc] at h
      | some m1 =>
        simp only [hc] at h
        obtain ⟨a1, _, a3, evs, a4, a5⟩ := cleanup_loop_keep_frame _ _ _ _ hc
        cases hf : free (store m1.rooms r { rv with ghosts := { head := none, tail := none } }) r with
        | none => simp [hf] at h
        | some rs =>
          simp only [hf, Option.some.injEq, Prod.mk.injEq] at h
          obtain ⟨_, rfl⟩ := h
          refine ⟨a1, a3, evs ++ [Event.free_room r], ?_, ?_⟩
          · show m1.trace ++ [Event.free_room r] = _
            rw [a4]; simp
          · intro g hg
            rcases List.mem_append.1 hg with e | e
            · exact a5 g e
            · simp at e

theorem roomarray_cleanup_loop_frame :
    ∀ (k i : Nat) (els : List (Option Nat)) (m : Mem) (els2 : List (Option Nat)) (m2 : Mem),
      roomarray_cleanup_loop k i els m = some (els2, m2) →
      m2.ghosts = m.ghosts ∧ m2.next_id = m.next_id ∧
        ∃ evs, m2.trace = m.trace ++ evs ∧ ∀ g, Event.free_ghost g ∉ evs
  | 0, i, els, m, els2, m2, h => by
    simp only [roomarray_cleanup_loop, Option.some.injEq, Prod.mk.injEq] at h
    obtain ⟨_, rfl⟩ := h
    exact ⟨rfl, rfl, [], by simp, by simp⟩
  | k + 1, i, els, m, els2, m2, h => by
    simp only [roomarray_cleanup_loop] at h
    cases hs : els[i]? with
    | none => simp [hs] at h
    | some slot =>
      simp only [hs] at h
      cases hc : room_cleanup slot m with
      | none => simp [hc] at h
      | some pm =>
        obtain ⟨p, m1⟩ := pm
        simp only [hc] at h
        obtain ⟨a1, a2, evs1, a3, a4⟩ := room_cleanup_frame slot m p m1 hc
        obtain ⟨b1, b2, evs2, b3, b4⟩ := roomarray_cleanup_loop_frame k _ _ _ _ _ h
        refine ⟨by rw [b1, a1], by rw [b2, a2], evs1 ++ evs2, by rw [b3, a3]; simp, ?_⟩
        intro g hg
        rcases List.mem_append.1 hg with e | e
        · exact a4 g e
        · exact b4 g e

theorem roomarray_cleanup_frame (a : RoomArray) (m : Mem) (a2 : RoomArray) (m2 : Mem)
    (h : roomarray_cleanup a m = some (a2, m2)) :
    m2.ghosts = m.ghosts ∧ m2.next_id = m.next_id ∧
      ∃ evs, m2.trace = m.trace ++ evs ∧ ∀ g, Event.free_ghost g ∉ evs := by
  simp only [roomarray_cleanup] at h
  cases hc : roomarray_cleanup_loop a.size.toNat 0 a.elements m with
  | none => simp [hc] at h
  | some em =>
    obtain ⟨els, m1⟩ := em
    simp only [hc, Option.some.injEq, Prod.mk.injEq] at h
    obtain ⟨_, rfl⟩ := h
    exact roomarray_cleanup_loop_frame _ _ _ _ _ _ hc

/-- The function `roomarray_cleanup` on a well-formed building: it returns, and the
master list is left as it was. -/
theorem roomarray_cleanup_building (b : Building) (m : Mem) (cellsOf : Nat → List (Nat × Nat))
    (mcs : List (Nat × Nat)) (hB : BuildingLayout b m cellsOf mcs) :
    ∃ els2, roomarray_cleanup b.rooms m =
        some ({ elements := els2, size := 0 },
          { m with
            nodes := release_all m.nodes
              (rooms_nodes cellsOf (slot_rooms b.rooms.elements 0 b.rooms.size.toNat))
            rooms := release_all m.rooms (slot_rooms b.rooms.elements 0 b.rooms.size.toNat)
            trace := m.trace ++
              rooms_events cellsOf (slot_rooms b.rooms.elements 0 b.rooms.size.toNat) }) ∧
      Seg (release_all m.nodes
          (rooms_nodes cellsOf (slot_rooms b.rooms.elements 0 b.rooms.size.toNat)))
        b.ghosts.head mcs none := by
  have hn : b.rooms.size = ((b.rooms.size.toNat : Nat) : Int) :=
    (Int.toNat_of_nonneg hB.size_lo).symm
  have hle : b.rooms.size.toNat ≤ b.rooms.elements.length := by
    rw [hB.len]
    have := hB.size_hi
    omega
  obtain ⟨els2, c1, _⟩ := roomarray_cleanup_spec cellsOf b.rooms m b.rooms.size.toNat hB.rooms hn
    hle hB.slots_live hB.slots_distinct
  refine ⟨els2, c1, ?_⟩
  refine seg_congr _ _ _ ?_ hB.master
  intro c hc
  apply load_release_all_of_not_mem
  intro hmem
  obtain ⟨r, hr, ha⟩ := (mem_rooms_nodes cellsOf _ _).1 hmem
  have hlive := hB.slots_live r hr
  obtain ⟨rv, hrv⟩ := Option.isSome_iff_exists.1 hlive
  exact hB.apart r rv hrv c.1 (mem_fst_of_mem hc) ha

/-! ## Buildings built from `building_init` -/

theorem building_init_layout (b0 : Building) (m : Mem) (cellsOf : Nat → List (Nat × Nat))
    (hL : Layout m cellsOf) : BuildingLayout (building_init b0) m cellsOf [] := by
  refine ⟨hL, rfl, rfl, ?_, ?_, ?_, ?_, ?_, ?_⟩
  · intro r rv _ a ha; cases ha
  · simp [building_init, roomarray_init]
  · simp [building_init, roomarray_init]
  · simp [building_init, roomarray_init]
  · intro r hr; simp [building_init, roomarray_init, slot_rooms] at hr
  · simp [building_init, roomarray_init, slot_rooms]

theorem slot_rooms_init (b0 : Building) :
    slot_rooms (building_init b0).rooms.elements 0 (building_init b0).rooms.size.toNat = [] := by
  simp [building_init, roomarray_init, slot_rooms]

/-- A run of valid calls that adds no room twice, started from `building_init`
in a memory with well-formed rooms: the run returns, and the master list
holds the created ghosts in creation order. -/
theorem build_from_init (b0 : Building) (m : Mem) (ops : List BuildOp)
    (hwf : RoomsWellFormed m) (hvalid : ∀ op ∈ ops, op_valid m op = true)
    (hdistinct : (added_rooms ops).Nodup) :
    ∃ b2 m2 cellsOf2 mcs2, build ops (building_init b0) m = some (b2, m2) ∧
      BuildingLayout b2 m2 cellsOf2 mcs2 ∧
      (∀ c ∈ mcs2, ∃ gv, load m2.ghosts c.2 = some gv) ∧ (mcs2.map Prod.snd).Nodup ∧
      mcs2.map Prod.snd = List.range' m.ghosts.length (created_count ops) ∧
      m2.ghosts.length = m.ghosts.length + created_count ops ∧
      m2.trace = m.trace ∧
      (∀ g gv, load m.ghosts g = some gv →
        ∃ gv2, load m2.ghosts g = some gv2 ∧ gv2.id = gv.id ∧ gv2.type = gv.type) ∧
      (-2147483648 ≤ m.next_id → m.next_id + (created_count ops : Int) ≤ 2147483648 →
        ∀ j : Nat, j < created_count ops →
          ∃ gv, load m2.ghosts (m.ghosts.length + j) = some gv ∧
            gv.id = m.next_id + (j : Int)) ∧
      (∀ (j : Nat) (t : String), (created_types ops)[j]? = some t →
        ∃ gv, load m2.ghosts (m.ghosts.length + j) = some gv ∧ gv.type = t) := by
  obtain ⟨cellsOf, hL⟩ := hwf
  have h := build_inv ops (building_init b0) m cellsOf [] (building_init_layout b0 m cellsOf hL)
    (fun c hc => by cases hc) (by simp) hvalid hdistinct
    (fun r _ => by rw [slot_rooms_init]; simp)
  simpa using h

theorem buildingWellFormed_of_build (b0 : Building) (m : Mem) (ops : List BuildOp)
    (b1 : Building) (m1 : Mem)
    (hwf : RoomsWellFormed m) (hvalid : ∀ op ∈ ops, op_valid m op = true)
    (hdistinct : (added_rooms ops).Nodup)
    (h : build ops (building_init b0) m = some (b1, m1)) : BuildingWellFormed b1 m1 := by
  obtain ⟨b2, m2, c2, mcs2, k1, k2, _⟩ := build_from_init b0 m ops hwf hvalid hdistinct
  rw [h] at k1
  simp only [Option.some.injEq, Prod.mk.injEq] at k1
  obtain ⟨rfl, rfl⟩ := k1
  exact ⟨c2, mcs2, k2⟩

theorem sample_build :
    build sample_ops (building_init ⟨full_array, ⟨none, none⟩⟩) two_room_mem =
      some (sample_building, sample_building_mem) := by
  decide

/-! ## C8: ownership separation -/

/-- C8: in every building state, whatever `room_cleanup` and `roomarray_cleanup`
release is a list node or a `Room`, never a `Ghost`: when either returns, the
ghost store is exactly as before (every ghost still allocated, with the same
id, type and likelihood) and the releases made contain no ghost. In every
well-formed building state (the rooms' lists and the master list are
well-formed lists that share no node, and the occupied slots hold allocated,
pairwise distinct rooms) `roomarray_cleanup` does return, every ghost that was
attached to a room of the array is still allocated and unchanged, and the
master list still holds the same ghosts in the same order. -/
theorem ownership_separation (b : Building) (m : Mem) :
    (∀ room p m2, room_cleanup room m = some (p, m2) →
      m2.ghosts = m.ghosts ∧ ∃ evs, m2.trace = m.trace ++ evs ∧ ∀ g, Event.free_ghost g ∉ evs) ∧
    (∀ a2 m2, roomarray_cleanup b.rooms m = some (a2, m2) →
      m2.ghosts = m.ghosts ∧ ∃ evs, m2.trace = m.trace ++ evs ∧ ∀ g, Event.free_ghost g ∉ evs) ∧
    (BuildingWellFormed b m →
      ∃ a2 m2 gs, roomarray_cleanup b.rooms m = some (a2, m2) ∧
        (∀ r ∈ slot_rooms b.rooms.elements 0 b.rooms.size.toNat,
          ∃ rgs, room_ghosts m r = some rgs ∧
            ∀ g ∈ rgs, ∃ gv, load m.ghosts g = some gv ∧ load m2.ghosts g = some gv) ∧
        ghostlist_ghosts m b.ghosts = some gs ∧ ghostlist_ghosts m2 b.ghosts = some gs) := by
  refine ⟨?_, ?_, ?_⟩
  · intro room p m2 h
    obtain ⟨a1, _, a3⟩ := room_cleanup_frame room m p m2 h
    exact ⟨a1, a3⟩
  · intro a2 m2 h
    obtain ⟨a1, _, a3⟩ := roomarray_cleanup_frame b.rooms m a2 m2 h
    exact ⟨a1, a3⟩
  · rintro ⟨cellsOf, mcs, hB⟩
    obtain ⟨els2, c1, c2⟩ := roomarray_cleanup_building b m cellsOf mcs hB
    refine ⟨_, _, mcs.map Prod.snd, c1, ?_, ghosts_of_seg hB.master, ?_⟩
    · intro r hr
      obtain ⟨rv, hrv⟩ := Option.isSome_iff_exists.1 (hB.slots_live r hr)
      refine ⟨_, room_ghosts_of_seg hrv (hB.rooms.seg r rv hrv), ?_⟩
      intro g hg
      simp only [pairsOf, List.map_map, List.mem_map, Function.comp] at hg
      obtain ⟨c, hc, rfl⟩ := hg
      obtain ⟨gv, hgv⟩ := hB.rooms.live r rv hrv c hc
      exact ⟨gv, hgv, hgv⟩
    · exact ghosts_of_seg (m := { m with
        nodes := release_all m.nodes
          (rooms_nodes cellsOf (slot_rooms b.rooms.elements 0 b.rooms.size.toNat))
        rooms := release_all m.rooms (slot_rooms b.rooms.elements 0 b.rooms.size.toNat)
        trace := m.trace ++
          rooms_events cellsOf (slot_rooms b.rooms.elements 0 b.rooms.size.toNat) }) c2

theorem ownership_separation_witness :
    ∃ a2 m2 gs, roomarray_cleanup sample_building.rooms sample_building_mem = some (a2, m2) ∧
      (∀ r ∈ slot_rooms sample_building.rooms.elements 0 sample_building.rooms.size.toNat,
        ∃ rgs, room_ghosts sample_building_mem r = some rgs ∧
          ∀ g ∈ rgs, ∃ gv, load sample_building_mem.ghosts g = some gv ∧
            load m2.ghosts g = some gv) ∧
      ghostlist_ghosts sample_building_mem sample_building.ghosts = some gs ∧
      ghostlist_ghosts m2 sample_building.ghosts = some gs :=
  (ownership_separation sample_building sample_building_mem).2.2
    (buildingWellFormed_of_build ⟨full_array, ⟨none, none⟩⟩ two_room_mem sample_ops
      sample_building sample_building_mem (roomsWellFormed_of_fresh (by decide)) (by decide)
      (by decide) sample_build)

/-! ## C9: every ghost is released exactly once, by the master list -/

theorem count_free_ghost_ghost_node_events (g : Nat) :
    ∀ cs : List (Nat × Nat),
      (ghost_node_events cs).count (Event.free_ghost g) = (cs.map Prod.snd).count g
  | [] => rfl
  | c :: cs => by
    have e2 : ¬ (Event.free_node c.1 = Event.free_ghost g) := fun h => by cases h
    simp only [ghost_node_events, List.map_cons, List.count_cons,
      count_free_ghost_ghost_node_events g cs]
    by_cases e : c.2 = g
    · subst e; simp
    · have e3 : ¬ (Event.free_ghost c.2 = Event.free_ghost g) := fun h => e (by injection h)
      simp [e, e3]

/-- The function `building_cleanup` on a well-formed building whose master list holds
allocated, pairwise distinct ghosts. -/
theorem building_cleanup_spec (b : Building) (m : Mem) (cellsOf : Nat → List (Nat × Nat))
    (mcs : List (Nat × Nat)) (hB : BuildingLayout b m cellsOf mcs)
    (hlive : ∀ c ∈ mcs, ∃ gv, load m.ghosts c.2 = some gv) (hnd : (mcs.map Prod.snd).Nodup) :
    ∃ a2 m2 l3 m3 evs1,
      roomarray_cleanup b.rooms m = some (a2, m2) ∧
      ghostlist_cleanup b.ghosts true m2 = some (l3, m3) ∧
      building_cleanup b m = some ({ rooms := a2, ghosts := l3 }, m3) ∧
      m2.ghosts = m.ghosts ∧
      m2.trace = m.trace ++ evs1 ∧ m3.trace = m2.trace ++ ghost_node_events mcs ∧
      (∀ g, Event.free_ghost g ∉ evs1) ∧
      m3.ghosts = release_all m.ghosts (mcs.map Prod.snd) := by
  obtain ⟨els2, c1, c2⟩ := roomarray_cleanup_building b m cellsOf mcs hB
  obtain ⟨m2, hm2⟩ : ∃ m2 : Mem, m2 = { m with
      nodes := release_all m.nodes
        (rooms_nodes cellsOf (slot_rooms b.rooms.elements 0 b.rooms.size.toNat))
      rooms := release_all m.rooms (slot_rooms b.rooms.elements 0 b.rooms.size.toNat)
      trace := m.trace ++
        rooms_events cellsOf (slot_rooms b.rooms.elements 0 b.rooms.size.toNat) } := ⟨_, rfl⟩
  rw [← hm2] at c1
  have hseg : Seg m2.nodes b.ghosts.head mcs none := by rw [hm2]; exact c2
  have hg2 : m2.ghosts = m.ghosts := by rw [hm2]
  have hlive2 : ∀ c ∈ mcs, ∃ gv, load m2.ghosts c.2 = some gv := by
    rw [hg2]; exact hlive
  have c3 := ghostlist_cleanup_free m2 b.ghosts mcs hseg hlive2 hnd
  refine ⟨_, m2, _, _, _, c1, c3, ?_, hg2, by rw [hm2], rfl, ?_, by rw [hg2]⟩
  · simp only [building_cleanup, c1, c3]
  · intro g
    exact free_ghost_not_mem_rooms_events cellsOf g _

/-- C9 (as stated, refuted): a building built from `building_init` by adding the
same room twice and creating one ghost in it. The build succeeds and the ghost
(address 2) is allocated, but `building_cleanup` has no defined result:
`roomarray_cleanup` releases the room at slot 0 and meets the released room
again at slot 1, before the master list is reached, so the ghost is not released. -/
theorem building_cleanup_room_added_twice :
    (build [BuildOp.add_room (some 0), BuildOp.create_and_add "Wraith" (some 0) f50,
        BuildOp.add_room (some 0)] (building_init ⟨full_array, ⟨none, none⟩⟩) two_room_mem).map
        (fun p => ((load p.2.ghosts 2).isSome, building_cleanup p.1 p.2)) =
      some (true, none) := by
  decide

/-- C9 (amended): for every building built from `building_init`, in a memory
whose rooms are well formed, by `roomarray_add` and `util_ghost_create_and_add`
calls with valid arguments (labels that fit, rooms `NULL` or allocated) in which
no room is added twice, `building_cleanup` succeeds and releases every ghost
created for the building exactly once; every such release happens in
`ghostlist_cleanup` of the master list (`roomarray_cleanup` releases no ghost),
no created ghost is left allocated, and no other ghost is released. -/
theorem building_cleanup_releases_once (b0 : Building) (m : Mem) (ops : List BuildOp)
    (hwf : RoomsWellFormed m) (hvalid : ∀ op ∈ ops, op_valid m op = true)
    (hdistinct : (added_rooms ops).Nodup) :
    ∃ b1 m1 a2 m2 l3 m3 evs1 evs2,
      build ops (building_init b0) m = some (b1, m1) ∧
      roomarray_cleanup b1.rooms m1 = some (a2, m2) ∧
      ghostlist_cleanup b1.ghosts true m2 = some (l3, m3) ∧
      building_cleanup b1 m1 = some ({ rooms := a2, ghosts := l3 }, m3) ∧
      m2.trace = m1.trace ++ evs1 ∧ m3.trace = m2.trace ++ evs2 ∧
      (∀ g, Event.free_ghost g ∉ evs1) ∧
      m1.ghosts.length = m.ghosts.length + created_count ops ∧
      (∀ g, m.ghosts.length ≤ g → g < m1.ghosts.length →
        (load m1.ghosts g).isSome = true ∧ evs2.count (Event.free_ghost g) = 1 ∧
          load m3.ghosts g = none) ∧
      (∀ g, g < m.ghosts.length →
        Event.free_ghost g ∉ evs2 ∧ load m3.ghosts g = load m1.ghosts g) := by
  obtain ⟨b1, m1, cellsOf, mcs, k1, k2, k3, k4, k5, k6, _⟩ :=
    build_from_init b0 m ops hwf hvalid hdistinct
  obtain ⟨a2, m2, l3, m3, evs1, c1, c2, c3, c4, c5, c6, c7, c8⟩ :=
    building_cleanup_spec b1 m1 cellsOf mcs k2 k3 k4
  have hmem : ∀ g, g ∈ mcs.map Prod.snd ↔ m.ghosts.length ≤ g ∧ g < m1.ghosts.length := by
    intro g
    rw [k5, k6, List.mem_range'_1]
  refine ⟨b1, m1, a2, m2, l3, m3, evs1, _, k1, c1, c2, c3, c5, c6, c7, k6, ?_, ?_⟩
  · intro g h1 h2
    have hg : g ∈ mcs.map Prod.snd := (hmem g).2 ⟨h1, h2⟩
    refine ⟨?_, ?_, ?_⟩
    · obtain ⟨c, hc, rfl⟩ := List.mem_map.1 hg
      obtain ⟨gv, hgv⟩ := k3 c hc
      rw [hgv]; rfl
    · rw [count_free_ghost_ghost_node_events]
      exact List.count_eq_one_of_mem k4 hg
    · rw [c8]
      exact load_release_all_of_mem _ _ _ hg
  · intro g h1
    have hg : g ∉ mcs.map Prod.snd := fun h => by
      have := ((hmem g).1 h).1
      omega
    refine ⟨?_, ?_⟩
    · intro hmemev
      have := List.count_pos_iff.2 hmemev
      rw [count_free_ghost_ghost_node_events] at this
      exact hg (List.count_pos_iff.1 this)
    · rw [c8]
      exact load_release_all_of_not_mem _ _ _ hg

theorem building_cleanup_releases_once_witness :
    ∃ b1 m1 a2 m2 l3 m3 evs1 evs2,
      build sample_ops (building_init ⟨full_array, ⟨none, none⟩⟩) two_room_mem =
        some (b1, m1) ∧
      roomarray_cleanup b1.rooms m1 = some (a2, m2) ∧
      ghostlist_cleanup b1.ghosts true m2 = some (l3, m3) ∧
      building_cleanup b1 m1 = some ({ rooms := a2, ghosts := l3 }, m3) ∧
      m2.trace = m1.trace ++ evs1 ∧ m3.trace = m2.trace ++ evs2 ∧
      (∀ g, Event.free_ghost g ∉ evs1) ∧
      m1.ghosts.length = two_room_mem.ghosts.length + created_count sample_ops ∧
      (∀ g, two_room_mem.ghosts.length ≤ g → g < m1.ghosts.length →
        (load m1.ghosts g).isSome = true ∧ evs2.count (Event.free_ghost g) = 1 ∧
          load m3.ghosts g = none) ∧
      (∀ g, g < two_room_mem.ghosts.length →
        Event.free_ghost g ∉ evs2 ∧ load m3.ghosts g = load m1.ghosts g) :=
  building_cleanup_releases_once ⟨full_array, ⟨none, none⟩⟩ two_room_mem sample_ops
    (roomsWellFormed_of_fresh (by decide)) (by decide) (by decide)

/-! ## C10: the master list as registry -/

theorem util_calls_eq_build :
    ∀ (calls : List (String × Option Nat × CFloat)) (b : Building) (m : Mem),
      util_ghost_create_and_add_calls calls b m =
        build (calls.map (fun c => BuildOp.create_and_add c.1 c.2.1 c.2.2)) b m
  | [], _, _ => rfl
  | (type, room, x) :: calls, b, m => by
    simp only [util_ghost_create_and_add_calls, List.map_cons, build, build_step]
    cases util_ghost_create_and_add b type room x m with
    | none => rfl
    | some p => exact util_calls_eq_build calls p.1 p.2

theorem created_count_calls (calls : List (String × Option Nat × CFloat)) :
    created_count (calls.map (fun c => BuildOp.create_and_add c.1 c.2.1 c.2.2)) =
      calls.length := by
  induction calls with
  | nil => rfl
  | cons c calls ih => simp [created_count, ih]

theorem created_types_calls (calls : List (String × Option Nat × CFloat)) :
    created_types (calls.map (fun c => BuildOp.create_and_add c.1 c.2.1 c.2.2)) =
      calls.map (fun c => c.1) := by
  induction calls with
  | nil => rfl
  | cons c calls ih => simp [created_types, ih]

theorem added_rooms_calls (calls : List (String × Option Nat × CFloat)) :
    added_rooms (calls.map (fun c => BuildOp.create_and_add c.1 c.2.1 c.2.2)) = [] := by
  induction calls with
  | nil => rfl
  | cons c calls ih => simp [added_rooms, ih]

/-- C10 (as stated, refuted): with the id counter at `INT_MAX` (where
2147482616 earlier `ghost_create` calls leave it), two
`util_ghost_create_and_add` calls on an initialised building register the two
ghosts in creation order, but their ids are `2147483647` and then
`-2147483648`: the second is not the first plus one. -/
theorem util_ghost_create_and_add_id_overflow :
    (util_ghost_create_and_add_calls [("Wraith", none, f50), ("Banshee", none, f50)]
        (building_init ⟨full_array, ⟨none, none⟩⟩)
        { initial_mem with next_id := INT_MAX }).map
        (fun p => (ghostlist_ghosts p.2 p.1.ghosts,
          (load p.2.ghosts 0).map Ghost.id, (load p.2.ghosts 1).map Ghost.id)) =
      some (some [0, 1], some 2147483647, some (-2147483648)) := by
  decide

/-- C10 (amended): after any sequence of `n` `util_ghost_create_and_add` calls
with valid arguments (labels that fit, rooms `NULL` or allocated) on a
building initialised by `building_init`, in a memory whose rooms are well
formed and while the id counter stays below integer overflow (every id handed
out is at most `INT_MAX`), the master ghost list holds exactly the `n` created
ghosts, each exactly once, in creation order: its `k`-th entry is the ghost
the `k`-th call created (the `k`-th address allocated, with the `k`-th label
and id `counter + k`), so ids in list order increase by exactly 1 from one
entry to the next. -/
theorem master_registry (b0 : Building) (m : Mem)
    (calls : List (String × Option Nat × CFloat))
    (hwf : RoomsWellFormed m)
    (hfit : ∀ c ∈ calls, c.1.utf8ByteSize < MAX_STR)
    (hroom : ∀ c ∈ calls, ∀ r, c.2.1 = some r → (load m.rooms r).isSome = true)
    (hlo : -2147483648 ≤ m.next_id) (hhi : m.next_id + (calls.length : Int) ≤ INT_MAX + 1) :
    ∃ b2 m2 gs, util_ghost_create_and_add_calls calls (building_init b0) m = some (b2, m2) ∧
      ghostlist_ghosts m2 b2.ghosts = some gs ∧
      gs = List.range' m.ghosts.length calls.length ∧
      m2.ghosts.length = m.ghosts.length + calls.length ∧
      gs.length = calls.length ∧ gs.Nodup ∧
      (∀ (k g : Nat), gs[k]? = some g →
        ∃ gv c, load m2.ghosts g = some gv ∧ calls[k]? = some c ∧
          gv.id = m.next_id + (k : Int) ∧ gv.type = c.1) ∧
      (∀ (k g1 g2 : Nat), gs[k]? = some g1 → gs[k + 1]? = some g2 →
        ∃ gv1 gv2, load m2.ghosts g1 = some gv1 ∧ load m2.ghosts g2 = some gv2 ∧
          gv2.id = gv1.id + 1) := by
  have hvalid : ∀ op ∈ calls.map (fun c => BuildOp.create_and_add c.1 c.2.1 c.2.2),
      op_valid m op = true := by
    intro op hop
    obtain ⟨c, hc, rfl⟩ := List.mem_map.1 hop
    have h1 := hfit c hc
    have h2 := hroom c hc
    cases hr : c.2.1 with
    | none => simp [op_valid, h1]
    | some r => simp [op_valid, h1, h2 r hr]
  obtain ⟨b2, m2, cellsOf, mcs, k1, k2, k3, k4, k5, k6, _, _, k9, k10⟩ :=
    build_from_init b0 m _ hwf hvalid (by rw [added_rooms_calls]; exact List.nodup_nil)
  rw [created_count_calls] at k5 k6 k9
  rw [created_types_calls] at k10
  have hids : ∀ (k g : Nat), (List.range' m.ghosts.length calls.length)[k]? = some g →
      ∃ gv c, load m2.ghosts g = some gv ∧ calls[k]? = some c ∧
        gv.id = m.next_id + (k : Int) ∧ gv.type = c.1 := by
    intro k g hk
    have hlt : k < calls.length := by
      have := (List.getElem?_eq_some_iff.1 hk).1
      simpa using this
    have hg : g = m.ghosts.length + k := by
      rw [List.getElem?_range' _ _ hlt] at hk
      simp only [Option.some.injEq] at hk
      omega
    subst hg
    obtain ⟨gv, a1, a2⟩ := k9 hlo (by unfold INT_MAX at hhi; omega) k hlt
    have hc : calls[k]? = some (calls.get ⟨k, hlt⟩) := List.getElem?_eq_getElem hlt
    obtain ⟨gv2, b1, b2⟩ := k10 k (calls.get ⟨k, hlt⟩).1 (by
      rw [List.getElem?_map, hc]; rfl)
    rw [a1] at b1
    cases b1
    exact ⟨gv, _, a1, hc, a2, b2⟩
  refine ⟨b2, m2, _, ?_, ?_, rfl, k6, by simp, ?_, hids, ?_⟩
  · rw [util_calls_eq_build]; exact k1
  · rw [ghosts_of_seg k2.master, k5]
  · rw [← k5]; exact k4
  · intro k g1 g2 h1 h2
    obtain ⟨gv1, _, a1, _, a2, _⟩ := hids k g1 h1
    obtain ⟨gv2, _, b1, _, b2, _⟩ := hids (k + 1) g2 h2
    exact ⟨gv1, gv2, a1, b1, by rw [a2, b2]; push_cast; omega⟩

theorem master_registry_witness :
    ∃ b2 m2 gs, util_ghost_create_and_add_calls
        [("Poltergeist", some 0, f50), ("Banshee", some 1, f90), ("Wraith", some 0, f90),
          ("Phantom", none, f10)] (building_init ⟨full_array, ⟨none, none⟩⟩) two_room_mem =
        some (b2, m2) ∧
      ghostlist_ghosts m2 b2.ghosts = some gs ∧
      gs = List.range' two_room_mem.ghosts.length
        [("Poltergeist", some 0, f50), ("Banshee", some 1, f90), ("Wraith", some 0, f90),
          ("Phantom", (none : Option Nat), f10)].length ∧
      m2.ghosts.length = two_room_mem.ghosts.length +
        [("Poltergeist", some 0, f50), ("Banshee", some 1, f90), ("Wraith", some 0, f90),
          ("Phantom", (none : Option Nat), f10)].length ∧
      gs.length = [("Poltergeist", some 0, f50), ("Banshee", some 1, f90),
        ("Wraith", some 0, f90), ("Phantom", (none : Option Nat), f10)].length ∧ gs.Nodup ∧
      (∀ (k g : Nat), gs[k]? = some g →
        ∃ gv c, load m2.ghosts g = some gv ∧
          [("Poltergeist", some 0, f50), ("Banshee", some 1, f90), ("Wraith", some 0, f90),
            ("Phantom", (none : Option Nat), f10)][k]? = some c ∧
          gv.id = two_room_mem.next_id + (k : Int) ∧ gv.type = c.1) ∧
      (∀ (k g1 g2 : Nat), gs[k]? = some g1 → gs[k + 1]? = some g2 →
        ∃ gv1 gv2, load m2.ghosts g1 = some gv1 ∧ load m2.ghosts g2 = some gv2 ∧
          gv2.id = gv1.id + 1) :=
  master_registry ⟨full_array, ⟨none, none⟩⟩ two_room_mem
    [("Poltergeist", some 0, f50), ("Banshee", some 1, f90), ("Wraith", some 0, f90),
      ("Phantom", none, f10)] (roomsWellFormed_of_fresh (by decide)) (by decide) (by decide)
    (by decide) (by decide)

/-! ## C23: insertion at the head -/

/-- C23: for every well-formed non-empty list and every allocated ghost whose
likelihood is `>=` that of the head entry's (allocated) ghost,
`ghostlist_insert_by_likelihood` succeeds, makes a freshly allocated node
holding the ghost the new head, followed by the whole old sequence of cells
unchanged, and leaves `tail` as it was; ghosts and old nodes are untouched. -/
theorem insert_at_head (m : Mem) (l : GhostList) (g : Nat) (gv hv : Ghost)
    (c : Nat × Nat) (cs : List (Nat × Nat))
    (hcells : ghostlist_cells m l = some (c :: cs))
    (hg : load m.ghosts g = some gv) (hh : load m.ghosts c.2 = some hv)
    (hge : gv.likelihood.ge hv.likelihood = true) :
    ∃ l2 m2, ghostlist_insert_by_likelihood l (some g) m = some (l2, m2) ∧
      l2.head = some m.nodes.length ∧
      ghostlist_cells m2 l2 = some ((m.nodes.length, g) :: c :: cs) ∧
      ghostlist_ghosts m2 l2 = some (g :: (c :: cs).map Prod.snd) ∧
      l2.tail = l.tail ∧
      m2.ghosts = m.ghosts ∧
      (∀ a na, load m.nodes a = some na → load m2.nodes a = some na) := by
  have hseg := (cells_iff_seg m l (c :: cs)).1 hcells
  obtain ⟨hhead, nd, hl, hd, _⟩ := id hseg
  have hl1 : load (m.nodes ++ [some (GhostNode.mk (some g) none)]) c.1 = some nd :=
    load_append_of_some _ hl
  obtain ⟨ns2, hns2⟩ : ∃ ns2, ns2 = store (m.nodes ++ [some (GhostNode.mk (some g) none)])
      m.nodes.length (GhostNode.mk (some g) (some c.1)) := ⟨_, rfl⟩
  have hold : ∀ a, a < m.nodes.length → load ns2 a = load m.nodes a := by
    intro a ha
    rw [hns2, load_store_other _ _ _ _ (by omega), load_append_left _ _ _ ha]
  have hnew : load ns2 m.nodes.length = some (GhostNode.mk (some g) (some c.1)) := by
    rw [hns2]; exact load_store_same _ _ _ (by simp)
  have hseg2 : Seg ns2 (some m.nodes.length) ((m.nodes.length, g) :: c :: cs) none := by
    refine ⟨rfl, _, hnew, rfl, ?_⟩
    have h2 : Seg m.nodes (some c.1) (c :: cs) none := by rw [← hhead]; exact hseg
    refine seg_congr _ _ _ ?_ h2
    intro d hd2
    exact hold d.1 (seg_lt hseg _ (mem_fst_of_mem hd2))
  have hseg3 : Seg ({ m with nodes := ns2 } : Mem).nodes
      (GhostList.mk (some m.nodes.length) l.tail).head
      ((m.nodes.length, g) :: c :: cs) none := hseg2
  refine ⟨GhostList.mk (some m.nodes.length) l.tail, { m with nodes := ns2 }, ?_, rfl,
    (cells_iff_seg _ _ _).2 hseg3, ?_, rfl, rfl, ?_⟩
  · rw [hns2]
    simp only [ghostlist_insert_by_likelihood, hhead, hg, hl1, hd, hh, hge, if_true]
  · rw [ghosts_of_seg hseg3]; rfl
  · intro a na ha
    show load ns2 a = some na
    rw [hold a (load_lt ha)]; exact ha

theorem insert_at_head_witness :
    ∃ l2 m2, ghostlist_insert_by_likelihood ⟨some 5, some 1⟩ (some 3) sample_building_mem =
        some (l2, m2) ∧
      l2.head = some sample_building_mem.nodes.length ∧
      ghostlist_cells m2 l2 =
        some ((sample_building_mem.nodes.length, 3) :: (5, 4) :: [(1, 2)]) ∧
      ghostlist_ghosts m2 l2 = some (3 :: ((5, 4) :: [(1, 2)]).map Prod.snd) ∧
      l2.tail = (⟨some 5, some 1⟩ : GhostList).tail ∧
      m2.ghosts = sample_building_mem.ghosts ∧
      (∀ a na, load sample_building_mem.nodes a = some na → load m2.nodes a = some na) :=
  insert_at_head sample_building_mem ⟨some 5, some 1⟩ 3 ⟨1034, "Banshee", f90, some 1⟩
    ⟨1035, "Wraith", f90, some 0⟩ (5, 4) [(1, 2)]
    (by decide) (by decide) (by decide) (by decide)

/-! ## C24: insertion at the tail -/

theorem insTail_all_gt (v : Nat → CFloat) (x : CFloat) (nw : Nat × Nat) :
    ∀ t : List (Nat × Nat), (∀ d ∈ t, (v d.2).gt x = true) → insTail v x nw t = t ++ [nw]
  | [], _ => rfl
  | n :: t, h => by
    simp only [insTail, h n (List.mem_cons_self _ _), if_true, List.cons_append]
    rw [insTail_all_gt v x nw t (fun d hd => h d (List.mem_cons_of_mem _ hd))]

/-- C24: for every well-formed non-empty list with allocated ghosts all of whose
entries have likelihood strictly greater than that of the allocated ghost `g`,
`ghostlist_insert_by_likelihood` succeeds and the list then reads as the old
sequence of cells followed by one freshly allocated node holding `g`; `tail`
designates that node, whose `next` is `NULL`, and `head` and the ghosts are
left as they were. -/
theorem insert_at_tail (m : Mem) (l : GhostList) (g : Nat) (gv : Ghost)
    (c : Nat × Nat) (cs : List (Nat × Nat))
    (hcells : ghostlist_cells m l = some (c :: cs))
    (hlive : ∀ d ∈ c :: cs, (load m.ghosts d.2).isSome = true)
    (hg : load m.ghosts g = some gv)
    (hgt : ∀ d ∈ c :: cs, (lik m.ghosts d.2).gt gv.likelihood = true) :
    ∃ l2 m2, ghostlist_insert_by_likelihood l (some g) m = some (l2, m2) ∧
      ghostlist_cells m2 l2 = some (c :: cs ++ [(m.nodes.length, g)]) ∧
      ghostlist_ghosts m2 l2 = some ((c :: cs).map Prod.snd ++ [g]) ∧
      l2.tail = some m.nodes.length ∧
      (∃ nd, load m2.nodes m.nodes.length = some nd ∧ nd.data = some g ∧ nd.next = none) ∧
      l2.head = l.head ∧
      m2.ghosts = m.ghosts := by
  have hseg := (cells_iff_seg m l (c :: cs)).1 hcells
  have hl : ∀ d ∈ c :: cs, ∃ dv, load m.ghosts d.2 = some dv := fun d hd =>
    Option.isSome_iff_exists.1 (hlive d hd)
  obtain ⟨l2, ns2, h1, h2, _, _, h5⟩ := insert_spec m l g gv (c :: cs) hseg hl hg
  have hins : ins (lik m.ghosts) gv.likelihood (m.nodes.length, g) (c :: cs) =
      c :: cs ++ [(m.nodes.length, g)] := by
    have e1 : gv.likelihood.ge (lik m.ghosts c.2) = false :=
      CFloat.ge_false_of_gt (hgt c (List.mem_cons_self _ _))
    simp only [ins, e1, Bool.false_eq_true, if_false, List.cons_append]
    rw [insTail_all_gt _ _ _ cs (fun d hd => hgt d (List.mem_cons_of_mem _ hd))]
  rw [hins] at h2 h5
  have h2b : Seg ({ m with nodes := ns2 } : Mem).nodes l2.head
      (c :: cs ++ [(m.nodes.length, g)]) none := h2
  have hlast : (c :: cs ++ [(m.nodes.length, g)]).getLast? = some (m.nodes.length, g) := by
    show ((c :: cs) ++ [(m.nodes.length, g)]).getLast? = some (m.nodes.length, g)
    exact List.getLast?_concat _
  refine ⟨l2, { m with nodes := ns2 }, h1, (cells_iff_seg _ _ _).2 h2b, ?_, ?_, ?_, ?_, rfl⟩
  · rw [ghosts_of_seg h2b]; simp
  · rw [h5, if_pos hlast]
  · have hh : Seg ns2 l2.head ((c :: cs) ++ [(m.nodes.length, g)]) none := h2
    exact (seg_snoc (c :: cs) (m.nodes.length, g) l2.head hh).2
  · obtain ⟨e1, _⟩ := id h2
    obtain ⟨e2, _⟩ := id hseg
    rw [e1, e2]

theorem insert_at_tail_witness :
    ∃ l2 m2, ghostlist_insert_by_likelihood ⟨some 0, some 1⟩ (some 3) two_entry_mem =
        some (l2, m2) ∧
      ghostlist_cells m2 l2 = some ((0, 0) :: [(1, 1)] ++ [(two_entry_mem.nodes.length, 3)]) ∧
      ghostlist_ghosts m2 l2 = some (((0, 0) :: [(1, 1)]).map Prod.snd ++ [3]) ∧
      l2.tail = some two_entry_mem.nodes.length ∧
      (∃ nd, load m2.nodes two_entry_mem.nodes.length = some nd ∧ nd.data = some 3 ∧
        nd.next = none) ∧
      l2.head = (⟨some 0, some 1⟩ : GhostList).head ∧
      m2.ghosts = two_entry_mem.ghosts :=
  insert_at_tail two_entry_mem ⟨some 0, some 1⟩ 3 ⟨1034, "D", f10, none⟩ (0, 0) [(1, 1)]
    (by decide) (by decide) (by decide) (by decide)

/-! ## C25: teardown of a list -/

/-- C25 (as stated, refuted): pushing the same ghost twice gives a list that
references it from two nodes; `ghostlist_cleanup` with `free_data = true`
releases the ghost at the first node and again at the second (a double
`free`), so it has no defined result. -/
theorem ghostlist_cleanup_ghost_listed_twice :
    ((ghostlist_push (ghostlist_init ⟨none, none⟩) (some 0) sample_mem).bind
        (fun p => ghostlist_push p.1 (some 0) p.2)).map
        (fun p => (ghostlist_ghosts p.2 p.1, ghostlist_cleanup p.1 true p.2)) =
      some (some [0, 0], none) := by
  decide

/-- C25 (amended): for every well-formed list and either value of `free_data`,
provided that for `free_data = true` the referenced ghosts are allocated and
pairwise distinct (no ghost is referenced from two nodes), `ghostlist_cleanup`
succeeds, releases every node and leaves `head` and `tail` `NULL` (the list is
empty). With `free_data = false` the ghost store is unchanged and no ghost is
released; with `free_data = true` every referenced ghost is released, exactly
once, and no other ghost is touched. -/
theorem ghostlist_cleanup_empties (m : Mem) (l : GhostList) (cs : List (Nat × Nat))
    (free_data : Bool)
    (hcells : ghostlist_cells m l = some cs)
    (hlive : free_data = true → ∀ c ∈ cs, (load m.ghosts c.2).isSome = true)
    (hdistinct : free_data = true → (cs.map Prod.snd).Nodup) :
    ∃ l2 m2 evs, ghostlist_cleanup l free_data m = some (l2, m2) ∧
      l2.head = none ∧ l2.tail = none ∧ ghostlist_cells m2 l2 = some [] ∧
      m2.trace = m.trace ++ evs ∧
      (∀ c ∈ cs, load m2.nodes c.1 = none) ∧
      (free_data = false → m2.ghosts = m.ghosts ∧ ∀ g, Event.free_ghost g ∉ evs) ∧
      (free_data = true →
        (∀ g ∈ cs.map Prod.snd,
          load m2.ghosts g = none ∧ evs.count (Event.free_ghost g) = 1) ∧
        (∀ g, g ∉ cs.map Prod.snd →
          load m2.ghosts g = load m.ghosts g ∧ Event.free_ghost g ∉ evs)) := by
  have hseg := (cells_iff_seg m l cs).1 hcells
  cases free_data with
  | false =>
    refine ⟨_, _, _, ghostlist_cleanup_keep m l cs hseg, rfl, rfl,
      (cells_iff_seg _ _ _).2 rfl, rfl, ?_, ?_, ?_⟩
    · intro c hc
      exact load_release_all_of_mem _ _ _ (mem_fst_of_mem hc)
    · intro _
      refine ⟨rfl, ?_⟩
      intro g hg
      simp [node_events] at hg
    · intro h; cases h
  | true =>
    have hl : ∀ c ∈ cs, ∃ gv, load m.ghosts c.2 = some gv := fun c hc =>
      Option.isSome_iff_exists.1 (hlive rfl c hc)
    refine ⟨_, _, _, ghostlist_cleanup_free m l cs hseg hl (hdistinct rfl), rfl, rfl,
      (cells_iff_seg _ _ _).2 rfl, rfl, ?_, ?_, ?_⟩
    · intro c hc
      exact load_release_all_of_mem _ _ _ (mem_fst_of_mem hc)
    · intro h; cases h
    · intro _
      refine ⟨?_, ?_⟩
      · intro g hg
        refine ⟨load_release_all_of_mem _ _ _ hg, ?_⟩
        rw [count_free_ghost_ghost_node_events]
        exact List.count_eq_one_of_mem (hdistinct rfl) hg
      · intro g hg
        refine ⟨load_release_all_of_not_mem _ _ _ hg, ?_⟩
        intro hmem
        have := List.count_pos_iff.2 hmem
        rw [count_free_ghost_ghost_node_events] at this
        exact hg (List.count_pos_iff.1 this)

theorem ghostlist_cleanup_empties_witness :
    ∃ l2 m2 evs, ghostlist_cleanup sample_building.ghosts true sample_building_mem =
        some (l2, m2) ∧
      l2.head = none ∧ l2.tail = none ∧ ghostlist_cells m2 l2 = some [] ∧
      m2.trace = sample_building_mem.trace ++ evs ∧
      (∀ c ∈ [(0, 2), (2, 3), (4, 4), (6, 5)], load m2.nodes c.1 = none) ∧
      (true = false → m2.ghosts = sample_building_mem.ghosts ∧
        ∀ g, Event.free_ghost g ∉ evs) ∧
      (true = true →
        (∀ g ∈ [(0, 2), (2, 3), (4, 4), (6, 5)].map Prod.snd,
          load m2.ghosts g = none ∧ evs.count (Event.free_ghost g) = 1) ∧
        (∀ g, g ∉ [(0, 2), (2, 3), (4, 4), (6, 5)].map Prod.snd →
          load m2.ghosts g = load sample_building_mem.ghosts g ∧
            Event.free_ghost g ∉ evs)) :=
  ghostlist_cleanup_empties sample_building_mem sample_building.ghosts
    [(0, 2), (2, 3), (4, 4), (6, 5)] true (by decide) (by decide) (by decide)

/-! ## C21: head and tail of a list -/

theorem ins_getLast (v : Nat → CFloat) (x : CFloat) (nw : Nat × Nat) (cs : List (Nat × Nat))
    (hfresh : nw.1 ∉ cs.map Prod.fst) :
    ((ins v x nw cs).map Prod.fst).getLast? =
      if (ins v x nw cs).getLast? = some nw then some nw.1 else (cs.map Prod.fst).getLast? := by
  obtain ⟨pre, post, h1, h2, _⟩ := ins_split v x nw cs
  rw [h2]
  rcases List.eq_nil_or_concat post with rfl | ⟨init, p, hpost⟩
  · have e1 : (pre ++ [nw]).getLast? = some nw := List.getLast?_concat _
    rw [if_pos e1, List.map_append]
    exact List.getLast?_concat _
  · rw [List.concat_eq_append] at hpost
    subst hpost
    have e0 : pre ++ nw :: (init ++ [p]) = (pre ++ nw :: init) ++ [p] := by simp
    have hp : p ∈ cs := by rw [h1]; simp
    have hne : p ≠ nw := by
      intro e
      exact hfresh (by rw [← e]; exact mem_fst_of_mem hp)
    have e1 : (pre ++ nw :: (init ++ [p])).getLast? = some p := by
      rw [e0]; exact List.getLast?_concat _
    have e2 : ¬ ((pre ++ nw :: (init ++ [p])).getLast? = some nw) := by
      rw [e1]; intro h; exact hne (Option.some.inj h)
    rw [if_neg e2, e0, h1, List.map_append, ← List.append_assoc, List.map_append]
    simp only [List.map_cons, List.map_nil]
    rw [List.getLast?_concat]
    rw [List.map_append]
    simp only [List.map_cons, List.map_nil]
    rw [List.getLast?_concat]

/-- The invariant of a list under `ghostlist_push` and
`ghostlist_insert_by_likelihood`: the list is well formed and `tail` is its
last node. -/
theorem ghostlist_calls_inv :
    ∀ (calls : List ListCall) (l : GhostList) (m : Mem) (cs : List (Nat × Nat)),
      Seg m.nodes l.head cs none → l.tail = (cs.map Prod.fst).getLast? →
      (∀ d ∈ cs, ∃ dv, load m.ghosts d.2 = some dv) →
      (∀ g ∈ calls.filterMap ListCall.ghost, (load m.ghosts g).isSome = true) →
      ∃ l2 m2 cs2, ghostlist_calls calls l m = some (l2, m2) ∧
        Seg m2.nodes l2.head cs2 none ∧ l2.tail = (cs2.map Prod.fst).getLast? ∧
        m2.ghosts = m.ghosts ∧ cs2.length = cs.length + (calls.filterMap ListCall.ghost).length
  | [], l, m, cs, hs, ht, _, _ => ⟨l, m, cs, rfl, hs, ht, rfl, by simp⟩
  | c :: calls, l, m, cs, hs, ht, hlive, hvalid => by
    cases hc : c.ghost with
    | none =>
      have hstep : ghostlist_call c l m = some (l, m) := by
        cases c with
        | push ghost =>
          have : ghost = none := hc
          subst this; rfl
        | insert_by_likelihood ghost =>
          have : ghost = none := hc
          subst this; rfl
      obtain ⟨l2, m2, cs2, k1, k2, k3, k4, k5⟩ := ghostlist_calls_inv calls l m cs hs ht hlive
        (fun g hg => hvalid g (by simp only [List.filterMap_cons, hc]; exact hg))
      refine ⟨l2, m2, cs2, ?_, k2, k3, k4, ?_⟩
      · simp only [ghostlist_calls, hstep]; exact k1
      · rw [k5]; simp [List.filterMap_cons, hc]
    | some g =>
      have hgl : (load m.ghosts g).isSome = true :=
        hvalid g (by simp [List.filterMap_cons, hc])
      obtain ⟨gv, hgv⟩ := Option.isSome_iff_exists.1 hgl
      have htl : ∀ g2 ∈ calls.filterMap ListCall.ghost, (load m.ghosts g2).isSome = true :=
        fun g2 hg2 => hvalid g2 (by simp only [List.filterMap_cons, hc]; exact List.mem_cons_of_mem _ hg2)
      have hfresh : m.nodes.length ∉ cs.map Prod.fst := fun hm =>
        Nat.lt_irrefl _ (seg_lt hs _ hm)
      have main : ∃ l1 ns1 cs1, ghostlist_call c l m = some (l1, { m with nodes := ns1 }) ∧
          Seg ns1 l1.head cs1 none ∧ l1.tail = (cs1.map Prod.fst).getLast? ∧
          (∀ d ∈ cs1, ∃ dv, load m.ghosts d.2 = some dv) ∧ cs1.length = cs.length + 1 := by
        cases c with
        | push ghost =>
          have : ghost = some g := hc
          subst this
          obtain ⟨l1, ns1, a1, a2, a3, _⟩ := push_spec m l g cs hs ht
          refine ⟨l1, ns1, _, a1, a2, ?_, ?_, by simp⟩
          · rw [a3, List.map_append]
            exact (List.getLast?_concat _).symm
          · intro d hd
            rcases List.mem_append.1 hd with h | h
            · exact hlive d h
            · simp only [List.mem_singleton] at h; subst h; exact ⟨gv, hgv⟩
        | insert_by_likelihood ghost =>
          have : ghost = some g := hc
          subst this
          obtain ⟨l1, ns1, a1, a2, _, _, a5⟩ := insert_spec m l g gv cs hs hlive hgv
          refine ⟨l1, ns1, _, a1, a2, ?_, ?_, ins_length _ _ _ _⟩
          · rw [a5, ins_getLast _ _ _ _ hfresh, ht]
          · intro d hd
            rcases (ins_mem _ _ _ _ d).1 hd with h | h
            · subst h; exact ⟨gv, hgv⟩
            · exact hlive d h
      obtain ⟨l1, ns1, cs1, b1, b2, b3, b4, b5⟩ := main
      obtain ⟨l2, m2, cs2, k1, k2, k3, k4, k5⟩ := ghostlist_calls_inv calls l1
        { m with nodes := ns1 } cs1 b2 b3 b4 htl
      refine ⟨l2, m2, cs2, ?_, k2, k3, k4, ?_⟩
      · simp only [ghostlist_calls, b1]; exact k1
      · rw [k5, b5]; simp [List.filterMap_cons, hc]; omega

/-- C21: for every run of `ghostlist_push` and `ghostlist_insert_by_likelihood`
calls, in any order, on a list initialised by `ghostlist_init`, with ghost
pointers that are `NULL` or allocated, the run succeeds and leaves a
well-formed list with one cell per non-null ghost passed; `head` is `NULL`
iff `tail` is `NULL` iff the list is empty, and otherwise `tail` designates
the last node reached from `head`, whose `next` is `NULL`. A later
`ghostlist_push` therefore lands at the end: the list then reads as the old
cells followed by the new node. -/
theorem head_tail_consistent (m : Mem) (l0 : GhostList) (calls : List ListCall)
    (hvalid : ∀ g ∈ calls.filterMap ListCall.ghost, (load m.ghosts g).isSome = true) :
    ∃ l m2 cs, ghostlist_calls calls (ghostlist_init l0) m = some (l, m2) ∧
      ghostlist_cells m2 l = some cs ∧
      cs.length = (calls.filterMap ListCall.ghost).length ∧
      (l.head = none ↔ l.tail = none) ∧ (l.head = none ↔ cs = []) ∧
      l.tail = (cs.map Prod.fst).getLast? ∧
      (∀ t, l.tail = some t → ∃ tn, load m2.nodes t = some tn ∧ tn.next = none) ∧
      (∀ g, ∃ l3 m3, ghostlist_push l (some g) m2 = some (l3, m3) ∧
        ghostlist_cells m3 l3 = some (cs ++ [(m2.nodes.length, g)]) ∧
        l3.tail = some m2.nodes.length) := by
  obtain ⟨l, m2, cs, k1, k2, k3, _, k5⟩ := ghostlist_calls_inv calls (ghostlist_init l0) m []
    rfl rfl (fun d hd => by cases hd) hvalid
  have hhead : l.head = none ↔ cs = [] := by
    cases cs with
    | nil => exact ⟨fun _ => rfl, fun _ => k2⟩
    | cons c cs =>
      obtain ⟨e, _⟩ := id k2
      rw [e]
      exact ⟨fun h => (by cases h), fun h => (by cases h)⟩
  have htail : l.tail = none ↔ cs = [] := by
    rw [k3, List.getLast?_eq_none_iff]
    exact List.map_eq_nil_iff
  refine ⟨l, m2, cs, k1, (cells_iff_seg _ _ _).2 k2, by simpa using k5,
    hhead.trans htail.symm, hhead, k3, ?_, ?_⟩
  · intro t ht
    rcases List.eq_nil_or_concat cs with e | ⟨init, c, e⟩
    · rw [htail.2 e] at ht; cases ht
    · rw [List.concat_eq_append] at e
      subst e
      obtain ⟨_, nd, a1, _, a3⟩ := seg_snoc init c l.head k2
      rw [k3, List.map_append] at ht
      simp only [List.map_cons, List.map_nil] at ht
      rw [List.getLast?_concat] at ht
      cases ht
      exact ⟨nd, a1, a3⟩
  · intro g
    obtain ⟨l3, ns3, a1, a2, a3, _⟩ := push_spec m2 l g cs k2 k3
    have a2b : Seg ({ m2 with nodes := ns3 } : Mem).nodes l3.head
        (cs ++ [(m2.nodes.length, g)]) none := a2
    exact ⟨l3, _, a1, (cells_iff_seg _ _ _).2 a2b, a3⟩

theorem head_tail_consistent_witness :
    ∃ l m2 cs, ghostlist_calls [ListCall.push (some 0), ListCall.insert_by_likelihood (some 1),
        ListCall.insert_by_likelihood none, ListCall.insert_by_likelihood (some 3),
        ListCall.push (some 2)] (ghostlist_init ⟨some 0, some 1⟩) two_entry_mem =
        some (l, m2) ∧
      ghostlist_cells m2 l = some cs ∧
      cs.length = ([ListCall.push (some 0), ListCall.insert_by_likelihood (some 1),
        ListCall.insert_by_likelihood none, ListCall.insert_by_likelihood (some 3),
        ListCall.push (some 2)].filterMap ListCall.ghost).length ∧
      (l.head = none ↔ l.tail = none) ∧ (l.head = none ↔ cs = []) ∧
      l.tail = (cs.map Prod.fst).getLast? ∧
      (∀ t, l.tail = some t → ∃ tn, load m2.nodes t = some tn ∧ tn.next = none) ∧
      (∀ g, ∃ l3 m3, ghostlist_push l (some g) m2 = some (l3, m3) ∧
        ghostlist_cells m3 l3 = some (cs ++ [(m2.nodes.length, g)]) ∧
        l3.tail = some m2.nodes.length) :=
  head_tail_consistent two_entry_mem ⟨some 0, some 1⟩
    [ListCall.push (some 0), ListCall.insert_by_likelihood (some 1),
      ListCall.insert_by_likelihood none, ListCall.insert_by_likelihood (some 3),
      ListCall.push (some 2)] (by decide)

/-! ## C22: teardown restores the initial state -/

/-- One `ghostlist_push` on the master list of a well-formed building. -/
theorem push_step (b : Building) (m : Mem) (cellsOf : Nat → List (Nat × Nat))
    (mcs : List (Nat × Nat)) (g : Nat) (hB : BuildingLayout b m cellsOf mcs) :
    ∃ l2 ns2, ghostlist_push b.ghosts (some g) m = some (l2, { m with nodes := ns2 }) ∧
      BuildingLayout { b with ghosts := l2 } { m with nodes := ns2 } cellsOf
        (mcs ++ [(m.nodes.length, g)]) := by
  obtain ⟨l2, ns2, e2, s2, t2, len2, fr2, _, _⟩ := push_spec m b.ghosts g mcs hB.master hB.tail
  have hL2 : Layout ({ m with nodes := ns2 } : Mem) cellsOf := by
    refine layout_frame hB.rooms rfl ?_ (fun g gv h => ⟨gv, h⟩)
    intro r rv hr c hc
    apply fr2
    · intro hmem
      exact hB.apart r rv hr _ hmem (mem_fst_of_mem hc)
    · exact Nat.ne_of_lt (seg_lt (hB.rooms.seg r rv hr) _ (mem_fst_of_mem hc))
  refine ⟨l2, ns2, e2, ⟨hL2, s2, by rw [t2]; simp, ?_, hB.len, hB.size_lo, hB.size_hi,
    hB.slots_live, hB.slots_distinct⟩⟩
  intro r rv hr a ha
  simp only [List.map_append, List.map_cons, List.map_nil, List.mem_append,
    List.mem_singleton] at ha
  rcases ha with ha | ha
  · exact hB.apart r rv hr a ha
  · subst ha
    exact fun hm => Nat.lt_irrefl _ (seg_lt (hB.rooms.seg r rv hr) _ hm)

/-- One `room_add_ghost` with an allocated room and an allocated ghost in a
well-formed building. -/
theorem attach_step (b : Building) (m : Mem) (cellsOf : Nat → List (Nat × Nat))
    (mcs : List (Nat × Nat)) (r g : Nat) (x : CFloat) (hB : BuildingLayout b m cellsOf mcs)
    (hr : (load m.rooms r).isSome = true) (hg : (load m.ghosts g).isSome = true) :
    ∃ m2 cellsOf2, room_add_ghost (some r) (some g) x m = some m2 ∧
      BuildingLayout b m2 cellsOf2 mcs ∧
      (∀ g2, (load m.ghosts g2).isSome = true → (load m2.ghosts g2).isSome = true) ∧
      (∀ r2, (load m.rooms r2).isSome = true → (load m2.rooms r2).isSome = true) := by
  obtain ⟨rv, hrv⟩ := Option.isSome_iff_exists.1 hr
  obtain ⟨gv, hgv⟩ := Option.isSome_iff_exists.1 hg
  obtain ⟨l3, ns3, e3, hL3, len3, fr3⟩ :=
    layout_room_add_ghost m cellsOf r g x rv gv hB.rooms hrv hgv
  have hlive3 : ∀ r2, (load m.rooms r2).isSome = true →
      (load (store m.rooms r { rv with ghosts := l3 }) r2).isSome = true := by
    intro r2 h
    exact Option.isSome_iff_exists.2 (load_store_live hrv (Option.isSome_iff_exists.1 h))
  have hgl3 : ∀ g2, (load m.ghosts g2).isSome = true →
      (load (store m.ghosts g { gv with room := some r, likelihood := x }) g2).isSome =
        true := by
    intro g2 h
    exact Option.isSome_iff_exists.2 (load_store_live hgv (Option.isSome_iff_exists.1 h))
  refine ⟨_, _, e3, ⟨hL3, ?_, hB.tail, ?_, hB.len, hB.size_lo, hB.size_hi,
    fun r2 h => hlive3 r2 (hB.slots_live r2 h), hB.slots_distinct⟩, hgl3, hlive3⟩
  · refine seg_congr _ _ _ ?_ hB.master
    intro d hd
    apply fr3
    · exact hB.apart r rv hrv _ (mem_fst_of_mem hd)
    · exact Nat.ne_of_lt (seg_lt hB.master _ (mem_fst_of_mem hd))
  · intro r2 rv2 h2 a ha
    have hrr : load (store m.rooms r { rv with ghosts := l3 }) r2 = some rv2 := h2
    rcases load_store_cases hrv hrr with ⟨e, _⟩ | ⟨hne, k⟩
    · subst e
      rw [Function.update_same]
      intro hmem
      obtain ⟨c, hc, hca⟩ := List.mem_map.1 hmem
      rcases (ins_mem _ _ _ _ _).1 hc with rfl | hc
      · have := seg_lt hB.master a ha
        rw [← hca] at this
        exact Nat.lt_irrefl _ this
      · exact hB.apart _ rv hrv a ha (by rw [← hca]; exact mem_fst_of_mem hc)
    · rw [Function.update_noteq hne]
      exact hB.apart r2 rv2 k a ha

theorem roomarray_add_beyond (a a2 : RoomArray) (room : Option Nat)
    (h : roomarray_add a room = some a2) (hlo : 0 ≤ a.size)
    (hb : ∀ j, a.size.toNat ≤ j → j < MAX_ROOMS → a.elements[j]? = some none) :
    ∀ j, a2.size.toNat ≤ j → j < MAX_ROOMS → a2.elements[j]? = some none := by
  cases room with
  | none =>
    simp only [roomarray_add, Option.some.injEq] at h
    subst h; exact hb
  | some r =>
    simp only [roomarray_add] at h
    split at h
    · split at h
      · simp only [Option.some.injEq] at h
        subst h
        intro j h1 h2
        have e : (a.size + 1).toNat = a.size.toNat + 1 := by omega
        simp only [e] at h1
        simp only
        rw [List.getElem?_set_ne (by omega)]
        exact hb j (by omega) h2
      · cases h
    · simp only [Option.some.injEq] at h
      subst h; exact hb

theorem call_valid_mono {m m2 : Mem} {c : BuildingCall}
    (hg : ∀ g, (load m.ghosts g).isSome = true → (load m2.ghosts g).isSome = true)
    (hr : ∀ r, (load m.rooms r).isSome = true → (load m2.rooms r).isSome = true)
    (hv : call_valid m c = true) : call_valid m2 c = true := by
  cases c with
  | add room =>
    cases room with
    | none => rfl
    | some r => exact hr r hv
  | push ghost =>
    cases ghost with
    | none => rfl
    | some g => exact hg g hv
  | attach room ghost x =>
    cases room with
    | none => rfl
    | some r =>
      cases ghost with
      | none => rfl
      | some g =>
        simp only [call_valid, Bool.and_eq_true] at hv ⊢
        exact ⟨hr r hv.1, hg g hv.2⟩

/-- The invariant of a run of `roomarray_add`, `ghostlist_push` and
`room_add_ghost` calls on a well-formed building. -/
theorem building_calls_inv :
    ∀ (calls : List BuildingCall) (b : Building) (m : Mem) (cellsOf : Nat → List (Nat × Nat))
      (mcs : List (Nat × Nat)),
      BuildingLayout b m cellsOf mcs →
      (∀ c ∈ mcs, (load m.ghosts c.2).isSome = true) →
      (mcs.map Prod.snd ++ pushed_ghosts calls).Nodup →
      (∀ c ∈ calls, call_valid m c = true) →
      (added_to_array calls).Nodup →
      (∀ r ∈ added_to_array calls, r ∉ slot_rooms b.rooms.elements 0 b.rooms.size.toNat) →
      (∀ j, b.rooms.size.toNat ≤ j → j < MAX_ROOMS → b.rooms.elements[j]? = some none) →
      ∃ b2 m2 cellsOf2 mcs2, building_calls calls b m = some (b2, m2) ∧
        BuildingLayout b2 m2 cellsOf2 mcs2 ∧
        (∀ c ∈ mcs2, (load m2.ghosts c.2).isSome = true) ∧
        (mcs2.map Prod.snd).Nodup ∧
        mcs2.map Prod.snd = mcs.map Prod.snd ++ pushed_ghosts calls ∧
        (∀ j, b2.rooms.size.toNat ≤ j → j < MAX_ROOMS → b2.rooms.elements[j]? = some none)
  | [], b, m, cellsOf, mcs, hB, hlive, hnd, _, _, _, hbey =>
    ⟨b, m, cellsOf, mcs, rfl, hB, hlive, by simpa [pushed_ghosts] using hnd,
      by simp [pushed_ghosts], hbey⟩
  | BuildingCall.add room :: calls, b, m, cellsOf, mcs, hB, hlive, hnd, hval, hadd, hnew,
      hbey => by
    have hv := hval _ (List.mem_cons_self _ _)
    have hroom : ∀ r, room = some r → (load m.rooms r).isSome = true ∧
        r ∉ slot_rooms b.rooms.elements 0 b.rooms.size.toNat := by
      intro r hr
      subst hr
      exact ⟨hv, hnew r (by simp [added_to_array])⟩
    obtain ⟨rooms, e1, hB1, hsl⟩ := add_room_step b m cellsOf mcs room hB hroom
    have hadd2 : (added_to_array calls).Nodup ∧ ∀ r ∈ added_to_array calls,
        r ∉ slot_rooms rooms.elements 0 rooms.size.toNat := by
      cases room with
      | none =>
        refine ⟨by simpa [added_to_array] using hadd, ?_⟩
        intro r hr hmem
        rcases hsl r hmem with h | h
        · exact hnew r (by simpa [added_to_array] using hr) h
        · cases h
      | some r0 =>
        simp only [added_to_array, List.nodup_cons] at hadd
        refine ⟨hadd.2, ?_⟩
        intro r hr hmem
        rcases hsl r hmem with h | h
        · exact hnew r (by simp [added_to_array, hr]) h
        · simp only [Option.some.injEq] at h
          subst h
          exact hadd.1 hr
    have hnd2 : (mcs.map Prod.snd ++ pushed_ghosts calls).Nodup := by
      cases room <;> simpa [pushed_ghosts] using hnd
    obtain ⟨b2, m2, c2, mcs2, k1, k2, k3, k4, k5, k6⟩ :=
      building_calls_inv calls { b with rooms := rooms } m cellsOf mcs hB1 hlive hnd2
        (fun c hc => hval c (List.mem_cons_of_mem _ hc)) hadd2.1 hadd2.2
        (roomarray_add_beyond b.rooms rooms room e1 hB.size_lo hbey)
    refine ⟨b2, m2, c2, mcs2, ?_, k2, k3, k4, ?_, k6⟩
    · simp only [building_calls, building_call, e1]; exact k1
    · rw [k5]; cases room <;> simp [pushed_ghosts]
  | BuildingCall.push ghost :: calls, b, m, cellsOf, mcs, hB, hlive, hnd, hval, hadd, hnew,
      hbey => by
    have hv := hval _ (List.mem_cons_self _ _)
    cases ghost with
    | none =>
      obtain ⟨b2, m2, c2, mcs2, k1, k2, k3, k4, k5, k6⟩ :=
        building_calls_inv calls b m cellsOf mcs hB hlive (by simpa [pushed_ghosts] using hnd)
          (fun c hc => hval c (List.mem_cons_of_mem _ hc))
          (by simpa [added_to_array] using hadd)
          (fun r hr => hnew r (by simpa [added_to_array] using hr)) hbey
      refine ⟨b2, m2, c2, mcs2, ?_, k2, k3, k4, ?_, k6⟩
      · simp only [building_calls, building_call, ghostlist_push]; exact k1
      · rw [k5]; simp [pushed_ghosts]
    | some g =>
      obtain ⟨l2, ns2, e1, hB1⟩ := push_step b m cellsOf mcs g hB
      obtain ⟨b2, m2, c2, mcs2, k1, k2, k3, k4, k5, k6⟩ :=
        building_calls_inv calls { b with ghosts := l2 } { m with nodes := ns2 } cellsOf
          (mcs ++ [(m.nodes.length, g)]) hB1
          (by
            intro c hc
            rcases List.mem_append.1 hc with h | h
            · exact hlive c h
            · simp only [List.mem_singleton] at h
              subst h
              exact hv)
          (by simpa [pushed_ghosts] using hnd)
          (fun c hc => hval c (List.mem_cons_of_mem _ hc))
          (by simpa [added_to_array] using hadd)
          (fun r hr => hnew r (by simpa [added_to_array] using hr)) hbey
      refine ⟨b2, m2, c2, mcs2, ?_, k2, k3, k4, ?_, k6⟩
      · simp only [building_calls, building_call, e1]; exact k1
      · rw [k5]; simp [pushed_ghosts]
  | BuildingCall.attach room ghost x :: calls, b, m, cellsOf, mcs, hB, hlive, hnd, hval, hadd,
      hnew, hbey => by
    have hv := hval _ (List.mem_cons_self _ _)
    have hnd2 : (mcs.map Prod.snd ++ pushed_ghosts calls).Nodup := by
      simpa [pushed_ghosts] using hnd
    have hadd2 : (added_to_array calls).Nodup := by simpa [added_to_array] using hadd
    have hnew2 : ∀ r ∈ added_to_array calls,
        r ∉ slot_rooms b.rooms.elements 0 b.rooms.size.toNat :=
      fun r hr => hnew r (by simpa [added_to_array] using hr)
    have hnoop : room_add_ghost room ghost x m = some m →
        ∃ b2 m2 cellsOf2 mcs2,
          building_calls (BuildingCall.attach room ghost x :: calls) b m = some (b2, m2) ∧
          BuildingLayout b2 m2 cellsOf2 mcs2 ∧
          (∀ c ∈ mcs2, (load m2.ghosts c.2).isSome = true) ∧
          (mcs2.map Prod.snd).Nodup ∧
          mcs2.map Prod.snd =
            mcs.map Prod.snd ++ pushed_ghosts (BuildingCall.attach room ghost x :: calls) ∧
          (∀ j, b2.rooms.size.toNat ≤ j → j < MAX_ROOMS →
            b2.rooms.elements[j]? = some none) := by
      intro e1
      obtain ⟨b2, m2, c2, mcs2, k1, k2, k3, k4, k5, k6⟩ :=
        building_calls_inv calls b m cellsOf mcs hB hlive hnd2
          (fun c hc => hval c (List.mem_cons_of_mem _ hc)) hadd2 hnew2 hbey
      refine ⟨b2, m2, c2, mcs2, ?_, k2, k3, k4, ?_, k6⟩
      · simp only [building_calls, building_call, e1]; exact k1
      · rw [k5]; simp [pushed_ghosts]
    cases room with
    | none => exact hnoop rfl
    | some r =>
      cases ghost with
      | none => exact hnoop rfl
      | some g =>
        simp only [call_valid, Bool.and_eq_true] at hv
        obtain ⟨m1, c1, e1, hB1, hg1, hr1⟩ := attach_step b m cellsOf mcs r g x hB hv.1 hv.2
        obtain ⟨b2, m2, c2, mcs2, k1, k2, k3, k4, k5, k6⟩ :=
          building_calls_inv calls b m1 c1 mcs hB1 (fun c hc => hg1 _ (hlive c hc)) hnd2
            (fun c hc => call_valid_mono hg1 hr1 (hval c (List.mem_cons_of_mem _ hc)))
            hadd2 hnew2 hbey
        refine ⟨b2, m2, c2, mcs2, ?_, k2, k3, k4, ?_, k6⟩
        · simp only [building_calls, building_call, e1]; exact k1
        · rw [k5]; simp [pushed_ghosts]

/-- C22 (as stated, refuted): a building reached from `building_init` by pushing
the same ghost twice onto the master list. The two pushes succeed, but
`building_cleanup` has no defined result: `ghostlist_cleanup` with
`free_data = true` releases the ghost at the first node and again at the
second (a double `free`). -/
theorem building_cleanup_ghost_pushed_twice :
    (building_calls [BuildingCall.push (some 0), BuildingCall.push (some 0)]
        (building_init ⟨full_array, ⟨none, none⟩⟩) sample_mem).map
        (fun p => (ghostlist_ghosts p.2 p.1.ghosts, building_cleanup p.1 p.2)) =
      some (some [0, 0], none) := by
  decide

/-- C22 (amended): for every building reached from `building_init`, in a memory
whose rooms are well formed, by `roomarray_add`, `ghostlist_push` and
`room_add_ghost` calls whose pointers are `NULL` or allocated, in which no
room is added to the array twice and no ghost is pushed onto the master list
twice, `building_cleanup` succeeds and leaves the building equal to the state
`building_init` produces: `rooms.size = 0`, all 16 slots empty, and the master
list's `head` and `tail` `NULL`. -/
theorem building_cleanup_restores_init (b0 : Building) (m : Mem) (calls : List BuildingCall)
    (hwf : RoomsWellFormed m)
    (hvalid : ∀ c ∈ calls, call_valid m c = true)
    (hrooms : (added_to_array calls).Nodup)
    (hghosts : (pushed_ghosts calls).Nodup) :
    ∃ b1 m1 b2 m2, building_calls calls (building_init b0) m = some (b1, m1) ∧
      building_cleanup b1 m1 = some (b2, m2) ∧
      b2 = building_init b0 ∧
      b2.rooms.size = 0 ∧ b2.rooms.elements = List.replicate 16 none ∧
      b2.ghosts.head = none ∧ b2.ghosts.tail = none := by
  obtain ⟨cellsOf, hL⟩ := hwf
  obtain ⟨b1, m1, c1, mcs, k1, k2, k3, k4, _, k6⟩ :=
    building_calls_inv calls (building_init b0) m cellsOf []
      (building_init_layout b0 m cellsOf hL) (fun c hc => by cases hc)
      (by simpa using hghosts) hvalid hrooms
      (fun r _ => by rw [slot_rooms_init]; simp)
      (by
        intro j _ hj
        simp [building_init, roomarray_init, List.getElem?_replicate, hj])
  have hlive : ∀ c ∈ mcs, ∃ gv, load m1.ghosts c.2 = some gv := fun c hc =>
    Option.isSome_iff_exists.1 (k3 c hc)
  obtain ⟨a2, m2, l3, m3, evs1, d1, d2, d3, _⟩ := building_cleanup_spec b1 m1 c1 mcs k2 hlive k4
  have hn : b1.rooms.size = ((b1.rooms.size.toNat : Nat) : Int) :=
    (Int.toNat_of_nonneg k2.size_lo).symm
  have hle : b1.rooms.size.toNat ≤ MAX_ROOMS := by
    have := k2.size_hi
    omega
  obtain ⟨els2, e1, e2, e3, e4⟩ := roomarray_cleanup_spec c1 b1.rooms m1 b1.rooms.size.toNat
    k2.rooms hn (by rw [k2.len]; exact hle) k2.slots_live k2.slots_distinct
  rw [e1] at d1
  simp only [Option.some.injEq, Prod.mk.injEq] at d1
  have ha2 : a2 = { elements := els2, size := 0 } := d1.1.symm
  have hl3 : l3 = { head := none, tail := none } := by
    simp only [ghostlist_cleanup] at d2
    split at d2
    · cases d2
    · simp only [Option.some.injEq, Prod.mk.injEq] at d2
      exact d2.1.symm
  have hels : els2 = List.replicate 16 none := by
    apply List.ext_getElem?
    intro j
    by_cases hj : j < 16
    · rw [List.getElem?_replicate, if_pos hj]
      by_cases hj2 : j < b1.rooms.size.toNat
      · exact e3 j hj2
      · rw [e4 j (by omega)]
        exact k6 j (by omega) hj
    · rw [List.getElem?_replicate, if_neg hj]
      have hlen : els2.length = 16 := by rw [e2]; exact k2.len
      exact List.getElem?_eq_none (by omega)
  refine ⟨b1, m1, _, m3, k1, d3, ?_, ?_, ?_, ?_, ?_⟩
  · rw [ha2, hl3, hels]; rfl
  · rw [ha2]
  · rw [ha2]; exact hels
  · rw [hl3]
  · rw [hl3]

theorem building_cleanup_restores_init_witness :
    ∃ b1 m1 b2 m2, building_calls [BuildingCall.add (some 0), BuildingCall.push (some 0),
        BuildingCall.attach (some 0) (some 0) f50, BuildingCall.add (some 1),
        BuildingCall.push (some 1), BuildingCall.attach (some 1) (some 1) f90,
        BuildingCall.attach (some 0) (some 1) f10, BuildingCall.push none]
        (building_init sample_building) two_room_mem = some (b1, m1) ∧
      building_cleanup b1 m1 = some (b2, m2) ∧
      b2 = building_init sample_building ∧
      b2.rooms.size = 0 ∧ b2.rooms.elements = List.replicate 16 none ∧
      b2.ghosts.head = none ∧ b2.ghosts.tail = none :=
  building_cleanup_restores_init sample_building two_room_mem
    [BuildingCall.add (some 0), BuildingCall.push (some 0),
      BuildingCall.attach (some 0) (some 0) f50, BuildingCall.add (some 1),
      BuildingCall.push (some 1), BuildingCall.attach (some 1) (some 1) f90,
      BuildingCall.attach (some 0) (some 1) f10, BuildingCall.push none]
    (roomsWellFormed_of_fresh (by decide)) (by decide) (by decide) (by decide)

end GhostTracking
